import Mathlib

/-!
# nostromo: command-tree model, manifest registry and startup file

A shallow embedding of `model/manifest.go` and `model/spaceport.go`, and of the
startup file that `shell/startupfile_test.go` tests.

* A Go `map[string]V` is an association list; the order of the list stands for
  the (unspecified) order in which `range` visits the map.
* A Go `*Command` back-reference is a `Ref`: the chain of map keys that leads
  from the manifest's root map to the command it points to.
* A Go runtime panic (index out of range, nil dereference, write to a nil map)
  is the result `none` of a function returning `Option`.

`model/command.go`, `model/config.go`, `shell/startupfile.go` and the `keypath`
and `version` packages are not part of the sources at hand; what the manifest
code and the tests call from them is modelled from the specification and
marked as such.
-/

namespace Nostromo

/-! ## Go maps -/

/-- A Go `map[string]V`; list order is iteration order. -/
abbrev GoMap (V : Type) := List (String × V)

namespace GoMap

variable {V : Type}

/-- The Go expression `m[k]`; `none` is the nil value of a missing key. -/
def get : GoMap V → String → Option V
  | [], _ => none
  | (k', v) :: rest, k => if k' = k then some v else get rest k

/-- The Go statement `m[k] = v`: overwrite the entry of `k`, or add one. -/
def set : GoMap V → String → V → GoMap V
  | [], k, v => [(k, v)]
  | (k', v') :: rest, k, v =>
    if k' = k then (k, v) :: rest else (k', v') :: set rest k v

/-- The Go statement `delete(m, k)`. -/
def delete : GoMap V → String → GoMap V
  | [], _ => []
  | (k', v') :: rest, k =>
    if k' = k then delete rest k else (k', v') :: delete rest k

/-- The keys of the map, in iteration order. -/
def keys (m : GoMap V) : List String := m.map Prod.fst

end GoMap

/-! ## Key paths (package `keypath`) -/

/-- Modelled from the spec: the split behind `keypath.Keys`, at every dot; the
result is never empty (the empty string gives one empty segment). -/
def splitDots : List Char → List (List Char)
  | [] => [[]]
  | c :: cs =>
    if c = '.' then [] :: splitDots cs
    else
      match splitDots cs with
      | [] => [[c]]
      | seg :: segs => (c :: seg) :: segs

/-- Modelled from the spec: `keypath.Keys`, missing from the sources. "Key-path
segments are split on a fixed delimiter (dot-separated)". -/
def Keys (keyPath : String) : List String :=
  (splitDots keyPath.data).map String.mk

/-- Modelled from the spec: `keypath.KeyPath`, missing from the sources. It joins
segments with the dot delimiter, the inverse of `Keys`. -/
def KeyPath : List String → String
  | [] => ""
  | [k] => k
  | k :: k' :: ks => k ++ "." ++ KeyPath (k' :: ks)

/-! ## Config, Code, Substitution, Command (spec-modelled leaves) -/

/-- Modelled from the spec: the execution mode enum of `model/config.go`. The
spec names `Concatenate` only; any further mode is carried by its string form. -/
inductive Mode where
  | Concatenate
  | other (text : String)
deriving DecidableEq, Repr

/-- Modelled from the spec: `Mode.String`, "mode rendered as its string form
(e.g. "concatenate")". -/
def Mode.String : Mode → String
  | .Concatenate => "concatenate"
  | .other text => text

/-- Modelled from the spec: `Config` of `model/config.go`,
`{verbose, aliasesOnly, mode, backupCount}`. -/
structure Config where
  Verbose : Bool
  AliasesOnly : Bool
  Mode : Mode
  BackupCount : Nat
deriving DecidableEq, Repr

/-- Modelled from the spec: `NewConfig`; `backupCount` defaults to 10, the mode
to concatenate, the flags to false. -/
def NewConfig : Config :=
  { Verbose := false, AliasesOnly := false, Mode := .Concatenate, BackupCount := 10 }

/-- Modelled from the spec: `Code`, `{language, template}`. -/
structure Code where
  Language : String
  Template : String
deriving DecidableEq, Repr

/-- Modelled from the spec: `Substitution`, `{name, alias}`. -/
structure Substitution where
  Name : String
  Alias : String
deriving DecidableEq, Repr

/-- A non-owning reference to a command: the map keys leading to it, starting
in the manifest's root map. -/
abbrev Ref := List String

/-- Modelled from the spec: `Command` of `model/command.go`: name, alias,
description, optional code, children keyed by alias, substitutions, the
alias-only flag, the mode handed to `newCommand`, and the parent
back-reference (absent for nil). -/
inductive Command where
  | mk (Name Alias Description : String) (Code : Option Code)
      (Commands : List (String × Command)) (Substitutions : List Substitution)
      (AliasOnly : Bool) (Mode : String) (parent : Option Ref)

namespace Command

/-- Field `Name`: the human label. -/
def Name : Command → String
  | mk n _ _ _ _ _ _ _ _ => n

/-- Field `Alias`: the key-path segment, and the key among siblings. -/
def Alias : Command → String
  | mk _ a _ _ _ _ _ _ _ => a

/-- Field `Description`. -/
def Description : Command → String
  | mk _ _ d _ _ _ _ _ _ => d

/-- Field `Code`; `none` is nil. -/
def Code : Command → Option Nostromo.Code
  | mk _ _ _ c _ _ _ _ _ => c

/-- Field `Commands`: the children map. -/
def Commands : Command → GoMap Command
  | mk _ _ _ _ cs _ _ _ _ => cs

/-- Field `Substitutions`. -/
def Substitutions : Command → List Substitution
  | mk _ _ _ _ _ ss _ _ _ => ss

/-- Field `AliasOnly`. -/
def AliasOnly : Command → Bool
  | mk _ _ _ _ _ _ ao _ _ => ao

/-- Field `Mode`: the mode string handed to `newCommand`. -/
def Mode : Command → String
  | mk _ _ _ _ _ _ _ mo _ => mo

/-- Field `parent`: the back-reference; `none` is nil. -/
def parent : Command → Option Ref
  | mk _ _ _ _ _ _ _ _ p => p

/-- Assignment to the children map of a command. -/
def setCommands : Command → GoMap Command → Command
  | mk n a d c _ ss ao mo p, cs => mk n a d c cs ss ao mo p

/-- Assignment to the parent back-reference of a command. -/
def setParent : Command → Option Ref → Command
  | mk n a d c cs ss ao mo _, p => mk n a d c cs ss ao mo p

/-- Modelled from the spec: the update at the end of `Command.build`: "the final
segment receiving command (human label), description, code, and aliasOnly". -/
def receive : Command → String → String → Option Nostromo.Code → Bool → Command
  | mk _ a _ _ cs ss _ mo p, command, description, code, aliasOnly =>
    mk command a description code cs ss aliasOnly mo p

end Command

/-- Modelled from the spec: `newCommand(name, alias, description, code,
aliasOnly, mode)` of `model/command.go`: a command with these fields, no
children, no substitutions and no parent. -/
def newCommand (name aliasKey description : String) (code : Option Code)
    (aliasOnly : Bool) (mode : String) : Command :=
  .mk name aliasKey description code [] [] aliasOnly mode none

namespace Command

mutual
/-- Modelled from the spec: the depth-first search of `Command.find` below a
command whose accumulated key path is `acc`: the command itself first, then its
children in iteration order. -/
def findFrom (acc keyPath : String) : Command → Option Command
  | mk n a d c cs ss ao mo p =>
    if acc = keyPath then some (mk n a d c cs ss ao mo p)
    else findIn acc keyPath cs
/-- Modelled from the spec: the search of `Command.find` through a children
map; a child's accumulated key path is its owner's, the delimiter, and the
child's alias. -/
def findIn (acc keyPath : String) : GoMap Command → Option Command
  | [] => none
  | (_, child) :: rest =>
    match findFrom (KeyPath [acc, child.Alias]) keyPath child with
    | some c => some c
    | none => findIn acc keyPath rest
end

/-- Modelled from the spec: `Command.find` of `model/command.go`, called on a
root: "returns the first Command whose accumulated key path (segments from
root to node) exactly equals keyPath, or none". -/
def find (c : Command) (keyPath : String) : Option Command :=
  findFrom c.Alias keyPath c

mutual
/-- Modelled from the spec: `Command.link` of `model/command.go`: record the
given parent and "recursively set each child's parent to its immediate
owner". `self` is the reference to the receiver. -/
def link (parent : Option Ref) (self : Ref) : Command → Command
  | mk n a d c cs ss ao mo _ => mk n a d c (linkIn self cs) ss ao mo parent
/-- Modelled from the spec: the loop of `Command.link` over the children of the
command that `owner` refers to. -/
def linkIn (owner : Ref) : GoMap Command → GoMap Command
  | [] => []
  | (k, child) :: rest => (k, link (some owner) (owner ++ [k]) child) :: linkIn owner rest
end

/-- Modelled from the spec: the walk of `Command.build` along the segments that
follow the receiver's own:
"each absent segment producing an intermediate Command, and the final segment
receiving command, description, code, and aliasOnly". A command created on the
way gets its creator as parent. `self` is the reference to the receiver. -/
def buildSegs (command description : String) (code : Option Nostromo.Code)
    (aliasOnly : Bool) (mode : String) : List String → Ref → Command → Command
  | [], _, c => c.receive command description code aliasOnly
  | seg :: segs, self, c =>
    let child :=
      match c.Commands.get seg with
      | some child => child
      | none => (newCommand "" seg "" none false mode).setParent (some self)
    c.setCommands (c.Commands.set seg
      (buildSegs command description code aliasOnly mode segs (self ++ [seg]) child))

/-- Modelled from the spec: `Command.build` of `model/command.go`, called on
the root that the first segment of `keyPath` names: "the remaining segments are
then walked/created under that root". `self` is the reference to the receiver. -/
def build (self : Ref) (c : Command) (keyPath command description : String)
    (code : Option Nostromo.Code) (aliasOnly : Bool) (mode : String) : Command :=
  buildSegs command description code aliasOnly mode (Keys keyPath).tail self c

/-- Modelled from the spec: `Command.removeCommand` of `model/command.go`: "the
parent detaches it from its children map", whose key is the alias. -/
def removeCommand (c cmd : Command) : Command :=
  c.setCommands (c.Commands.delete cmd.Alias)

/-- Modelled from the spec: the loop of `Command.shortestKeyPath`: the prefixes
of `keys` with `n+1`, `n+2`, ... segments, tried in turn. -/
def shortestFrom (c : Command) (keys : List String) : Nat → Nat → String
  | 0, _ => ""
  | fuel + 1, n =>
    if (c.find (KeyPath (keys.take (n + 1)))).isSome then KeyPath (keys.take (n + 1))
    else shortestFrom c keys fuel (n + 1)

/-- Modelled from the spec: `Command.shortestKeyPath` of `model/command.go`: "the
shortest matching prefix of args that resolves to a concrete Command", the
empty string when no prefix does. -/
def shortestKeyPath (c : Command) (keyPath : String) : String :=
  shortestFrom c (Keys keyPath) (Keys keyPath).length 0

end Command

/-- Write through a reference: apply `f` to the command that `ref` points to,
starting in the map `cs`. A reference that leads nowhere changes nothing. -/
def updateAt (f : Command → Command) : Ref → GoMap Command → GoMap Command
  | [], cs => cs
  | [k], cs =>
    match cs.get k with
    | none => cs
    | some c => cs.set k (f c)
  | k :: k' :: ks, cs =>
    match cs.get k with
    | none => cs
    | some c => cs.set k (c.setCommands (updateAt f (k' :: ks) c.Commands))

/-! ## Substitutions and writes through a found command (`model/command.go`) -/

namespace Command

/-- Assignment to the substitution list of a command. -/
def setSubstitutions : Command → List Substitution → Command
  | mk n a d c cs _ ao mo p, ss => mk n a d c cs ss ao mo p

/-- Modelled from the spec: `Command.addSubstitution` of `model/command.go`: the
substitution is appended to the ordered list. -/
def addSubstitution (c : Command) (s : Substitution) : Command :=
  c.setSubstitutions (c.Substitutions ++ [s])

/-- Modelled from the spec: `Command.removeSubstitution` of `model/command.go`:
removal "by alias equality", the name is ignored. -/
def removeSubstitution (c : Command) (s : Substitution) : Command :=
  c.setSubstitutions (c.Substitutions.filter (fun x => decide (x.Alias ≠ s.Alias)))

mutual
/-- Write through the pointer that the search returns: the tree with `f` applied
to the command that `findFrom` finds, the same tree when it finds none. -/
def writeFrom (f : Command → Command) (acc keyPath : String) : Command → Command
  | mk n a d c cs ss ao mo p =>
    if acc = keyPath then f (mk n a d c cs ss ao mo p)
    else mk n a d c (writeWith f (fun x => KeyPath [acc, x]) keyPath cs) ss ao mo p
/-- Write through the pointer that the search through a map returns; `accOf`
gives the accumulated key path of a command of the map from its alias. -/
def writeWith (f : Command → Command) (accOf : String → String) (keyPath : String) :
    GoMap Command → GoMap Command
  | [] => []
  | (k, child) :: rest =>
    if (findFrom (accOf child.Alias) keyPath child).isSome then
      (k, writeFrom f (accOf child.Alias) keyPath child) :: rest
    else (k, child) :: writeWith f accOf keyPath rest
end

end Command

/-! ## Manifest (`model/manifest.go`) -/

/-- Modelled from the spec: `version.Info`, a version stamp. -/
structure VersionInfo where
  stamp : String
deriving DecidableEq, Repr

/-- The manifest: version, config and root commands. `Version` and `Config` are
pointers and `Commands` is a map: `none` is the nil pointer and the nil map, the
values of a manifest created as `&Manifest{}` or decoded from a file without
these fields. `Name` is the field that `model/spaceport.go` reads as `m.Name`. -/
structure Manifest where
  Name : String
  Version : Option VersionInfo
  Config : Option Config
  Commands : Option (GoMap Command)

/-- The Go expression `m.Commands` where it is read (`m.Commands[key]`,
`range m.Commands`): a nil map reads as a map without entries. -/
def Manifest.roots (m : Manifest) : GoMap Command :=
  m.Commands.getD []

/-- What a mutating manifest call hands back: the boolean, the error (`none`
for nil) and the manifest after the call. -/
structure Outcome where
  flag : Bool
  err : Option String
  manifest : Manifest

/-- `NewManifest(version)`; the name is left empty. -/
def NewManifest (version : Option VersionInfo) : Manifest :=
  { Name := "", Version := version, Config := some NewConfig, Commands := some [] }

namespace Manifest

/-- `Manifest.Link`: `cmd.link(nil)` for every root; a nil map has no root and
stays nil. -/
def Link (m : Manifest) : Manifest :=
  { m with Commands :=
      m.Commands.map (fun cs => cs.map (fun kc => (kc.1, kc.2.link none [kc.1]))) }

/-- `Manifest.AddCommand`. The result `none` is a panic: of `m.Config.Mode` and
`m.Config.AliasesOnly` on a nil config, of `m.Commands[cmd.Alias] = cmd` on a
nil map, and of `keypath.Keys(keyPath)[0]` on an empty key list. In tree mode
the root found under the first key is built in place, through its pointer. -/
def AddCommand (m : Manifest) (keyPath command description : String)
    (code : Option Code) (aliasOnly : Bool) (mode : String) : Option Outcome :=
  if keyPath.length = 0 then
    some { flag := false, err := some "invalid key path", manifest := m }
  else
    match m.Config with
    | none => none
    | some config =>
      let mode := if mode.length = 0 then config.Mode.String else mode
      if config.AliasesOnly || aliasOnly then
        let cmd := newCommand command keyPath description code true mode
        match m.Commands with
        | none => none
        | some cs =>
          some { flag := true, err := none,
                 manifest := { m with Commands := some (cs.set cmd.Alias cmd) } }
      else
        match Keys keyPath with
        | [] => none
        | key :: _ =>
          match m.roots.get key with
          | none =>
            let cmd := newCommand "" key "" none false mode
            match m.Commands with
            | none => none
            | some cs =>
              let cmd := cmd.build [cmd.Alias] keyPath command description code aliasOnly mode
              some { flag := true, err := none,
                     manifest := { m with Commands := some (cs.set cmd.Alias cmd) } }
          | some cmd =>
            let cmd := cmd.build [key] keyPath command description code aliasOnly mode
            some { flag := false, err := none,
                   manifest := { m with Commands := m.Commands.map (fun cs => cs.set key cmd) } }

/-- `Manifest.Find`: the first root, in iteration order, whose tree holds the
key path. -/
def Find (m : Manifest) (keyPath : String) : Option Command :=
  m.roots.findSome? (fun kc => kc.2.find keyPath)

/-- `Manifest.RemoveCommand`. -/
def RemoveCommand (m : Manifest) (keyPath : String) : Outcome :=
  match m.Find keyPath with
  | none => { flag := false, err := some "command not found", manifest := m }
  | some cmd =>
    let isRoot := (m.roots.get keyPath).isSome
    match cmd.parent with
    | none =>
      { flag := isRoot, err := none,
        manifest := { m with Commands := m.Commands.map (fun cs => cs.delete keyPath) } }
    | some parent =>
      { flag := isRoot, err := none,
        manifest :=
          { m with Commands := m.Commands.map (updateAt (fun p => p.removeCommand cmd) parent) } }

/-- `Manifest.ExecutionString`. `Command.executionString` of `model/command.go`
is missing from the sources and is taken as the parameter `executionString`.
The result is the language, the execution string and the error (`none` for
nil); the result `none` is a panic: `args[count:]` out of range, or a nil
command or nil code dereferenced. -/
def ExecutionString (executionString : Command → List String → String)
    (m : Manifest) (args : List String) : Option (String × String × Option String) :=
  loop m.roots
where
  /-- The `range` loop over the roots still to be visited. -/
  loop : GoMap Command → Option (String × String × Option String)
    | [] => some ("", "", some ("unable to execute command '" ++ " ".intercalate args ++ "'"))
    | (_, cmd) :: rest =>
      let keyPath := cmd.shortestKeyPath (KeyPath args)
      if keyPath.length > 0 then
        let count := (Keys keyPath).length
        if count > args.length then none
        else
          match cmd.find keyPath with
          | none => none
          | some c =>
            match c.Code with
            | none => none
            | some code => some (code.Language, executionString c (args.drop count), none)
      else loop rest

/-- The manifest after `f` was applied through the pointer that `Find(keyPath)`
returns. -/
def writeFound (f : Command → Command) (m : Manifest) (keyPath : String) : Manifest :=
  { m with Commands := m.Commands.map (Command.writeWith f (fun a => a) keyPath) }

/-- `Manifest.AddSubstitution`: the error (`none` for nil) and the manifest after
the call. -/
def AddSubstitution (m : Manifest) (keyPath name aliasKey : String) :
    Option String × Manifest :=
  match m.Find keyPath with
  | none => (some "command not found", m)
  | some _ =>
    (none, m.writeFound
      (fun cmd => cmd.addSubstitution { Name := name, Alias := aliasKey }) keyPath)

/-- `Manifest.RemoveSubstitution`: the error (`none` for nil) and the manifest
after the call. -/
def RemoveSubstitution (m : Manifest) (keyPath aliasKey : String) :
    Option String × Manifest :=
  match m.Find keyPath with
  | none => (some "command not found", m)
  | some _ =>
    (none, m.writeFound
      (fun cmd => cmd.removeSubstitution { Name := "", Alias := aliasKey }) keyPath)

end Manifest

/-! ## Spaceport (`model/spaceport.go`) -/

/-- The registry: the name-to-manifest map (`none` is a nil map) and the
ordered list of names. -/
structure Spaceport where
  manifests : Option (GoMap Manifest)
  Sequence : List String

/-- Modelled from the spec: `version.Info.Update`, which takes over the new
version stamp. -/
def VersionInfo.Update (_v ver : VersionInfo) : VersionInfo := ver

namespace Spaceport

/-- The Go expression `s.manifests[name]`; reading a nil map gives nil. -/
def lookup (s : Spaceport) (name : String) : Option Manifest :=
  match s.manifests with
  | none => none
  | some ms => ms.get name

/-- The registered names: the keys of the map. -/
def names (s : Spaceport) : List String :=
  match s.manifests with
  | none => []
  | some ms => ms.keys

/-- `Spaceport.Init`. -/
def Init (s : Spaceport) : Spaceport :=
  match s.manifests with
  | none => { s with manifests := some [] }
  | some _ => s

/-- `Spaceport.Manifests`, with the spaceport after the call. -/
def Manifests (s : Spaceport) : List (Option Manifest) × Spaceport :=
  (s.Sequence.map (fun name => s.lookup name), s)

/-- `Spaceport.AddManifest` of a manifest pointer (`none` is nil). The result
`none` is a panic: of `m.Name` on a nil manifest and of the write to a nil
map. -/
def AddManifest (s : Spaceport) (m : Option Manifest) : Option Spaceport :=
  match m with
  | none => none
  | some m =>
    match s.manifests with
    | none => none
    | some ms => some { s with manifests := some (ms.set m.Name m) }

/-- The `range` loop of `Import` over the manifest pointers still to be
registered; `m.Name` in the append panics on a nil manifest. -/
def importLoop : Spaceport → List (Option Manifest) → Option Spaceport
  | s, [] => some s
  | s, m :: rest =>
    match s.AddManifest m with
    | none => none
    | some s1 =>
      match m with
      | none => none
      | some m => importLoop { s1 with Sequence := s1.Sequence ++ [m.Name] } rest

/-- `Spaceport.Import` of a slice of manifest pointers (`none` is nil). -/
def Import (s : Spaceport) (manifests : List (Option Manifest)) : Option Spaceport :=
  importLoop { s with Sequence := [] } manifests

/-- `Spaceport.Link`. -/
def Link (s : Spaceport) : Spaceport :=
  { s with manifests := s.manifests.map (fun ms => ms.map (fun km => (km.1, km.2.Link))) }

/-- `Spaceport.FindManifest`. -/
def FindManifest (s : Spaceport) (name : String) : Option Manifest :=
  s.lookup name

/-- `Spaceport.IsUnique`. -/
def IsUnique (s : Spaceport) (name : String) : Bool :=
  (s.lookup name).isNone

/-- The `range` loop of `UpdateVersion`; a manifest with a nil version panics. -/
def updateLoop (ver : VersionInfo) : GoMap Manifest → Option (GoMap Manifest)
  | [] => some []
  | (k, m) :: rest =>
    match m.Version with
    | none => none
    | some v =>
      match updateLoop ver rest with
      | none => none
      | some rest1 => some ((k, { m with Version := some (v.Update ver) }) :: rest1)

/-- `Spaceport.UpdateVersion`. -/
def UpdateVersion (s : Spaceport) (ver : VersionInfo) : Option Spaceport :=
  match s.manifests with
  | none => some s
  | some ms =>
    match updateLoop ver ms with
    | none => none
    | some ms1 => some { s with manifests := some ms1 }

end Spaceport

/-- `NewSpaceport(manifests)`. -/
def NewSpaceport (manifests : List (Option Manifest)) : Option Spaceport :=
  Spaceport.Import { manifests := some [], Sequence := [] } manifests

/-- The spaceports that `NewSpaceport` and then any sequence of `Import`,
`AddManifest`, `Init`, `Link` and `UpdateVersion` calls can produce. -/
inductive Spaceport.Reachable : Spaceport → Prop
  | start (ms : List (Option Manifest)) (s : Spaceport) :
      NewSpaceport ms = some s → Reachable s
  | afterImport (s s1 : Spaceport) (ms : List (Option Manifest)) :
      Reachable s → s.Import ms = some s1 → Reachable s1
  | afterAddManifest (s s1 : Spaceport) (m : Option Manifest) :
      Reachable s → s.AddManifest m = some s1 → Reachable s1
  | afterInit (s : Spaceport) : Reachable s → Reachable s.Init
  | afterLink (s : Spaceport) : Reachable s → Reachable s.Link
  | afterUpdateVersion (s s1 : Spaceport) (ver : VersionInfo) :
      Reachable s → s.UpdateVersion ver = some s1 → Reachable s1

/-! ## StartupFile (`shell/startupfile.go`, known from `shell/startupfile_test.go`) -/

/-- Modelled from the spec: the begin marker of the managed section, the literal
of `TestStartupFile`. -/
def beginBlockComment : String := "# nostromo [section begin]"

/-- Modelled from the spec: the end marker of the managed section. -/
def endBlockComment : String := "# nostromo [section end]"

/-- Modelled from the spec: the generated line between the markers, which
evaluates the completion hook. -/
def sourceCompletion : String := "eval \"$(nostromo completion)\""

/-- The offsets, counted from `i`, at which `pat` occurs in the text. -/
def occurrencesFrom (pat : List Char) : List Char → Nat → List Nat
  | [], _ => []
  | c :: cs, i =>
    if pat.isPrefixOf (c :: cs) then i :: occurrencesFrom pat cs (i + 1)
    else occurrencesFrom pat cs (i + 1)

/-- The offsets at which the marker occurs in the content. -/
def occurrences (marker content : String) : List Nat :=
  occurrencesFrom marker.data content.data 0

/-- Modelled from the spec: the error taxonomy of the startup file,
`InvalidArgument` (nil manifest) and `ParseError` (malformed managed section). -/
inductive ShellError where
  | InvalidArgument
  | ParseError
deriving DecidableEq, Repr

/-- Modelled from the spec: the states before `apply`,
"unparsed → {pristine, has-valid-section, malformed}". -/
inductive ParseState where
  | unparsed
  | pristine
  | hasValidSection
  | malformed
deriving DecidableEq, Repr

/-- Modelled from the spec: `startupFile` of `shell/startupfile.go`, `{path,
rawContent, mode, preferred, pristine, updatedContent}`, and the state that
`apply` consults to know whether `parse` has run and succeeded. -/
structure startupFile where
  path : String
  content : String
  mode : Nat
  preferred : Bool
  pristine : Bool
  updatedContent : String
  state : ParseState
deriving DecidableEq, Repr

/-- Modelled from the spec: `isPreferredFilename`: the filename matches a shell rc
filename, "a substring/suffix test against the known filenames" of bash and
zsh. -/
def isPreferredFilename (filename : String) : Bool :=
  decide (occurrences ".bashrc" filename ≠ []) || decide (occurrences ".zshrc" filename ≠ [])

/-- Modelled from the spec: `newStartupFile(path, content, mode)`; `pristine`
"starts true", `updatedContent` "is empty until apply succeeds". -/
def newStartupFile (path content : String) (mode : Nat) : startupFile :=
  { path := path, content := content, mode := mode, preferred := isPreferredFilename path,
    pristine := true, updatedContent := "", state := .unparsed }

/-- Modelled from the spec: the managed section, "begin marker, one line invoking
the completion/eval hook, end marker". -/
def managedSection : String :=
  beginBlockComment ++ "\n" ++ sourceCompletion ++ "\n" ++ endBlockComment

namespace startupFile

/-- Modelled from the spec: `startupFile.parse`. No marker: pristine, no error;
one begin marker followed by one end marker: not pristine, no error; any other
marker count or order: a parse error. Where the spec (pristine stays true) and
`TestStartupFile` (pristine false on both malformed blocks) disagree about a
malformed section, the test is followed. -/
def parse (f : startupFile) : Option ShellError × startupFile :=
  match occurrences beginBlockComment f.content, occurrences endBlockComment f.content with
  | [], [] => (none, { f with pristine := true, state := .pristine })
  | [b], [e] =>
    if b < e then (none, { f with pristine := false, state := .hasValidSection })
    else (some .ParseError, { f with pristine := false, state := .malformed })
  | _, _ => (some .ParseError, { f with pristine := false, state := .malformed })

/-- Modelled from the spec: the content with the span from the begin marker to
the end of the end marker replaced by a fresh managed section; the content
outside the span is kept. -/
def replaceSection (content : String) : String :=
  match occurrences beginBlockComment content, occurrences endBlockComment content with
  | b :: _, e :: _ =>
    String.mk (content.data.take b) ++ managedSection
      ++ String.mk (content.data.drop (e + endBlockComment.length))
  | _, _ => content

/-- Modelled from the spec: `startupFile.apply(manifest)`. It fails on a nil
manifest and when `parse` has not run or has failed, and writes nothing then.
A pristine file gets the managed section appended if it is preferred, and its
own content (nothing for an empty file) if it is not; a file with a section
gets the section replaced if it is preferred and is left as it is if not. -/
def apply (f : startupFile) (manifest : Option Manifest) : Option ShellError × startupFile :=
  match manifest with
  | none => (some .InvalidArgument, f)
  | some _ =>
    match f.state with
    | .unparsed => (some .ParseError, f)
    | .malformed => (some .ParseError, f)
    | .pristine =>
      if f.preferred then
        (none, { f with updatedContent := f.content ++ "\n" ++ managedSection ++ "\n" })
      else (none, { f with updatedContent := f.content })
    | .hasValidSection =>
      if f.preferred then (none, { f with updatedContent := replaceSection f.content })
      else (none, f)

/-- Modelled from the spec: `startupFile.canCommit`, after the truth table of the
spec's testable properties, which is the table of `TestStartupFileCanCommit`:
false exactly for a pristine file that is not preferred or has no updated
content. -/
def canCommit (f : startupFile) : Bool :=
  !f.pristine || (f.preferred && decide (f.updatedContent.length > 0))

end startupFile

/-! ## Notions used to state the claims -/

namespace Command

mutual
/-- The command with every parent back-reference in its tree cleared: what is
left are the fields and the children maps. -/
def withoutParents : Command → Command
  | mk n a d c cs ss ao mo _ => mk n a d c (withoutParentsIn cs) ss ao mo none
/-- The children map with every parent back-reference cleared. -/
def withoutParentsIn : GoMap Command → GoMap Command
  | [] => []
  | (k, child) :: rest => (k, withoutParents child) :: withoutParentsIn rest
end

end Command

/-- The manifest with every parent back-reference cleared. -/
def Manifest.withoutParents (m : Manifest) : Manifest :=
  { m with Commands := m.Commands.map Command.withoutParentsIn }

namespace Command

mutual
/-- Every command of the tree below a command whose accumulated key path is
`acc`, each with its accumulated key path, in the order of the search. -/
def nodesFrom (acc : String) : Command → List (String × Command)
  | mk n a d c cs ss ao mo p => (acc, mk n a d c cs ss ao mo p) :: nodesIn acc cs
/-- The commands of the trees in a children map, with their key paths. -/
def nodesIn (acc : String) : GoMap Command → List (String × Command)
  | [] => []
  | (_, child) :: rest =>
    nodesFrom (KeyPath [acc, child.Alias]) child ++ nodesIn acc rest
end

/-- Every command of a root's tree with its accumulated key path. -/
def nodes (c : Command) : List (String × Command) :=
  nodesFrom c.Alias c

mutual
/-- Every entry of every children map below the command is stored under the
alias of the command it holds ("alias ... is the map key"). -/
def aliasKeyed : Command → Bool
  | mk _ _ _ _ cs _ _ _ _ => aliasKeyedIn cs
/-- Every entry of the map, and of the maps below, is stored under the alias
of its command. -/
def aliasKeyedIn : GoMap Command → Bool
  | [] => true
  | (k, child) :: rest => (child.Alias == k) && (aliasKeyed child && aliasKeyedIn rest)
end

end Command

/-- Every command of the manifest with its accumulated key path. -/
def Manifest.nodes (m : Manifest) : List (String × Command) :=
  m.roots.flatMap (fun kc => kc.2.nodes)

/-- Every command of the manifest is stored under its own alias. -/
def Manifest.aliasKeyed (m : Manifest) : Bool :=
  Command.aliasKeyedIn m.roots

/-- The accumulated key path reached from `acc` by descending through `segs`. -/
def descend : String → List String → String
  | acc, [] => acc
  | acc, seg :: segs => descend (KeyPath [acc, seg]) segs

/-- The last manifest of the list that carries the name, if any. -/
def Spaceport.lastNamed (name : String) : List Manifest → Option Manifest
  | [] => none
  | m :: rest =>
    match lastNamed name rest with
    | some x => some x
    | none => if m.Name = name then some m else none

/-- The map after the manifests have been registered in turn. -/
def Spaceport.registerAll (ms0 : GoMap Manifest) (ms : List Manifest) : GoMap Manifest :=
  ms.foldl (fun acc m => acc.set m.Name m) ms0

/-- What the body of the loop of `ExecutionString` does with one root: `none`
when the root yields no key path and the loop goes on, else the value
returned (a panic included). -/
def Manifest.ExecutionString.visit (executionString : Command → List String → String)
    (args : List String) (cmd : Command) : Option (Option (String × String × Option String)) :=
  let keyPath := cmd.shortestKeyPath (KeyPath args)
  if keyPath.length > 0 then
    some
      (if (Keys keyPath).length > args.length then none
       else
        match cmd.find keyPath with
        | none => none
        | some c =>
          match c.Code with
          | none => none
          | some code => some (code.Language, executionString c (args.drop (Keys keyPath).length), none))
  else none

namespace Command

mutual
/-- The tree below the command that `self` refers to is well formed: see
`wellFormedIn`. -/
def wellFormed (self : Ref) : Command → Bool
  | mk _ _ _ _ cs _ _ _ _ => wellFormedIn (some self) self cs
/-- The map at the place `pre` (the root map for the empty reference) is well
formed: it is a map (no key twice), every command is stored under its alias
and is linked (its parent back-reference is `parent`, the owner of the map),
and the same holds for the maps below. -/
def wellFormedIn (parent : Option Ref) (pre : Ref) : GoMap Command → Bool
  | [] => true
  | (k, child) :: rest =>
    (child.Alias == k) && ((child.parent == parent) && ((!(GoMap.keys rest).contains k) &&
      (wellFormed (pre ++ [k]) child && wellFormedIn parent pre rest)))
end

end Command

/-- The manifest is linked and well formed: its maps have no key twice, every
command is stored under its alias, roots have no parent and every other
command has its owner as parent. -/
def Manifest.wellFormed (m : Manifest) : Bool :=
  Command.wellFormedIn none [] m.roots

/-- The manifests that `NewManifest` and then any sequence of `AddCommand`
calls, in alias-only or tree mode, can produce. -/
inductive Manifest.Reachable : Manifest → Prop
  | start (version : Option VersionInfo) : Reachable (NewManifest version)
  | afterAddCommand (m : Manifest) (keyPath command description : String)
      (code : Option Code) (aliasOnly : Bool) (mode : String) (o : Outcome) :
      Reachable m → m.AddCommand keyPath command description code aliasOnly mode = some o →
      Reachable o.manifest

/-- The command that a reference, relative to the map `cs`, points to. -/
def getAt : GoMap Command → Ref → Option Command
  | _, [] => none
  | cs, [k] => cs.get k
  | cs, k :: k' :: ks =>
    match cs.get k with
    | none => none
    | some c => getAt c.Commands (k' :: ks)

/-- The accumulated key paths of all commands of the manifest, in the order of
the search. -/
def Manifest.keyPaths (m : Manifest) : List String :=
  m.nodes.map Prod.fst

/-- The map `cs` without the entry `aliasKey` of the children map of the command
that `ref` points to (of `cs` itself for the empty reference). -/
def eraseAt (aliasKey : String) : Ref → GoMap Command → GoMap Command
  | [], cs => cs.delete aliasKey
  | k :: ks, cs =>
    match cs.get k with
    | none => cs
    | some c => cs.set k (c.setCommands (eraseAt aliasKey ks c.Commands))

/-- The search through a map whose commands have the accumulated key path
`accOf alias`: the root map for the identity, a children map for the owner's
key path followed by the alias. -/
def findWith (accOf : String → String) (keyPath : String) (cs : GoMap Command) :
    Option Command :=
  cs.findSome? (fun kc => Command.findFrom (accOf kc.2.Alias) keyPath kc.2)

/-- The accumulated key paths of the commands of the map and below. -/
def pathsWith (accOf : String → String) (cs : GoMap Command) : List String :=
  cs.flatMap (fun kc => (Command.nodesFrom (accOf kc.2.Alias) kc.2).map Prod.fst)

/-- Where the search found `cmd` in the map `cs` at the place `pre`: the owner is
at the relative reference `rel`, the parent back-reference of `cmd` says so,
and erasing the entry removes from the key paths a block that starts with
the key path searched for. -/
def FoundAt (accOf : String → String) (parent : Option Ref) (pre : Ref) (keyPath : String)
    (cmd : Command) (cs : GoMap Command) : Prop :=
  ∃ rel : Ref,
    cmd.parent = (if rel = [] then parent else some (pre ++ rel)) ∧
    getAt cs (rel ++ [cmd.Alias]) = some cmd ∧
    (rel = [] → accOf cmd.Alias = keyPath) ∧
    ∃ l1 blk l2, pathsWith accOf cs = l1 ++ keyPath :: blk ++ l2 ∧
      pathsWith accOf (eraseAt cmd.Alias rel cs) = l1 ++ l2

namespace Command

mutual
/-- The command with every substitution list in its tree cleared. -/
def withoutSubstitutions : Command → Command
  | mk n a d c cs _ ao mo p => mk n a d c (withoutSubstitutionsIn cs) [] ao mo p
/-- The map with every substitution list cleared. -/
def withoutSubstitutionsIn : GoMap Command → GoMap Command
  | [] => []
  | (k, child) :: rest => (k, withoutSubstitutions child) :: withoutSubstitutionsIn rest
end

mutual
/-- The substitution lists of the commands of the tree, in the order of the
search. -/
def substitutionsFrom : Command → List (List Substitution)
  | mk _ _ _ _ cs ss _ _ _ => ss :: substitutionsIn cs
/-- The substitution lists of the commands of the map and below. -/
def substitutionsIn : GoMap Command → List (List Substitution)
  | [] => []
  | (_, child) :: rest => substitutionsFrom child ++ substitutionsIn rest
end

end Command

namespace Manifest

/-- The manifest with every substitution list cleared. -/
def withoutSubstitutions (m : Manifest) : Manifest :=
  { m with Commands := m.Commands.map Command.withoutSubstitutionsIn }

/-- The substitution lists of the commands of the manifest, in the order of the
search. -/
def substitutionLists (m : Manifest) : List (List Substitution) :=
  Command.substitutionsIn m.roots

end Manifest

/-! ## Sample values -/

/-- A manifest with the single root `a`, as `AddCommand("a", "old", ...)` in
alias-only mode leaves it. -/
def manifestRootA : Manifest :=
  { Name := "core", Version := none, Config := some NewConfig,
    Commands := some [("a", newCommand "old" "a" "" none true "concatenate")] }

/-- A manifest as decoded from its persisted form, before `Link`: the root `a`
owns the child `b`, and no parent back-reference is set. -/
def manifestUnlinked : Manifest :=
  { Name := "core", Version := none, Config := some NewConfig,
    Commands := some
      [("a", .mk "" "a" "" none
          [("b", .mk "echo" "b" "" (some { Language := "sh", Template := "echo hi" })
              [] [] false "concatenate" none)]
          [] false "concatenate" none)] }

/-- A manifest, as a persisted document can give it, whose root with the alias
`z` is stored under the key `a`. -/
def manifestMiskeyed : Manifest :=
  { Name := "core", Version := none, Config := some NewConfig,
    Commands := some [("a", newCommand "" "z" "" none false "concatenate")] }

/-- The unlinked sample manifest after `AddCommand("a.c", "ls", "list", nil, false, "")`. -/
def outcomeAddAC : Outcome :=
  { flag := false, err := none,
    manifest :=
      { manifestUnlinked with
        Commands := some
          [("a", .mk "" "a" "" none
            [("b", .mk "echo" "b" "" (some { Language := "sh", Template := "echo hi" })
                [] [] false "concatenate" none),
             ("c", .mk "ls" "c" "list" none [] [] false "concatenate" (some ["a"]))]
            [] false "concatenate" none)] } }

/-- The spaceport that `NewSpaceport` builds from no manifests. -/
def spaceportEmpty : Spaceport := { manifests := some [], Sequence := [] }

/-- The empty spaceport after `AddManifest` of the manifest named `core`. -/
def spaceportAdded : Spaceport :=
  { manifests := some [("core", manifestRootA)], Sequence := [] }

/-- The zero-value spaceport, as decoded from its persisted form before `Init`:
the manifests map is nil. -/
def spaceportNil : Spaceport := { manifests := none, Sequence := [] }

/-- The zero-value manifest `&Manifest{}`, as a persisted document without
config and commands decodes: the config pointer and the root map are nil. -/
def manifestZero : Manifest :=
  { Name := "", Version := none, Config := none, Commands := none }

/-- A manifest with a config and without root map, as a persisted document
without commands decodes. -/
def manifestNoMap : Manifest :=
  { Name := "", Version := none, Config := some NewConfig, Commands := none }

/-- A manifest without commands, named `extra`. -/
def manifestExtra : Manifest :=
  { Name := "extra", Version := none, Config := some NewConfig, Commands := some [] }

/-- The spaceport that `NewSpaceport` builds from the manifests `core` and
`extra`. -/
def spaceportImported : Spaceport :=
  { manifests := some [("core", manifestRootA), ("extra", manifestExtra)],
    Sequence := ["core", "extra"] }

/-- That spaceport after `AddManifest` of the manifest without name and without
commands. -/
def spaceportDocked : Spaceport :=
  { manifests := some [("core", manifestRootA), ("extra", manifestExtra), ("", NewManifest none)],
    Sequence := ["core", "extra"] }

/-- The startup file that `TestStartupFileCanCommit` builds from its three
fields; the other fields have their zero value. -/
def commitFile (updatedContent : String) (preferred pristine : Bool) : startupFile :=
  { path := "", content := "", mode := 0, preferred := preferred, pristine := pristine,
    updatedContent := updatedContent, state := .unparsed }

/-- The content of the row `malformed block 1` of `TestStartupFile`: a begin
marker and no end marker. -/
def malformedBlock1 : String :=
  "export PATH=/usr/local/bin\nexport FOO=bar\n\n# nostromo [section begin]\neval \"$(nostromo completion)\"\nalias foo='nostromo eval foo \"$*\"'\nalias bar='nostromo eval bar \"$*\"'"

/-- The content of the row `malformed block 2` of `TestStartupFile`. -/
def malformedBlock2 : String :=
  "export PATH=/usr/local/bin\nexport FOO=bar\n\n# nostromo [section begin]\neval \"$(nostromo completion)\"\nalias foo='nostromo eval foo \"$*\"'\nalias bar='nostromo eval bar \"$*\"'# nostromo [section begin]"

/-- One row of `TestStartupFile`: parse, then apply; the observations the test
compares are whether parse failed, `pristine`, `preferred`, whether apply
failed, and `updatedContent`. -/
def runStartupFile (path content : String) (manifest : Option Manifest) :
    Bool × Bool × Bool × Bool × String :=
  let p := (newStartupFile path content 0).parse
  let a := p.2.apply manifest
  (p.1.isSome, p.2.pristine, p.2.preferred, a.1.isSome, a.2.updatedContent)

/-- The shell code `echo hi`. -/
def codeEcho : Code := { Language := "sh", Template := "echo hi" }

/-- The ruby code `puts 1`. -/
def codePuts : Code := { Language := "ruby", Template := "puts 1" }

/-- The manifest after `AddCommand("a.b", "old", "", nil, false, "")`,
`AddCommand("a", "echo", "", codeEcho, false, "")` and
`AddCommand("a.b", "new", "", codePuts, true, "")` on a new manifest: the root
`a` with the child `b`, and the flat root `a.b`. -/
def manifestAmbiguous : Manifest :=
  { Name := "", Version := none, Config := some NewConfig,
    Commands := some
      [("a", .mk "echo" "a" "" (some codeEcho)
          [("b", .mk "old" "b" "" none [] [] false "concatenate" (some ["a"]))]
          [] false "concatenate" none),
       ("a.b", .mk "new" "a.b" "" (some codePuts) [] [] true "concatenate" none)] }

/-- The manifest after `AddCommand("a.b", "echo", "", codeEcho, true, "")` on a
new manifest: the flat root `a.b`. -/
def manifestDottedAlias : Manifest :=
  { Name := "", Version := none, Config := some NewConfig,
    Commands := some [("a.b", .mk "echo" "a.b" "" (some codeEcho) [] [] true "concatenate" none)] }

/-- The manifest after `AddCommand("a.b", "echo", "", codeEcho, false, "")` on a
new manifest: the placeholder root `a`, without code, and its child `b`. -/
def manifestPlaceholder : Manifest :=
  { Name := "", Version := none, Config := some NewConfig,
    Commands := some
      [("a", .mk "" "a" "" none
          [("b", .mk "echo" "b" "" (some codeEcho) [] [] false "concatenate" (some ["a"]))]
          [] false "concatenate" none)] }

/-- A linked manifest, as a persisted document can give it after `Link`, whose
root `a` stores its child with the alias `b` under the key `x`. -/
def manifestMiskeyedChild : Manifest :=
  { Name := "core", Version := none, Config := some NewConfig,
    Commands := some
      [("a", .mk "" "a" "" none
          [("x", .mk "echo" "b" "" (some codeEcho) [] [] false "concatenate" (some ["a"]))]
          [] false "concatenate" none)] }

/-! ## Basic facts -/

theorem strLen_eq_zero_iff (s : String) : s.length = 0 ↔ s = "" := by
  constructor
  · intro h
    cases s with
    | mk cs =>
      have hcs : cs = [] := List.length_eq_zero.mp h
      subst hcs
      rfl
  · rintro rfl
    rfl

theorem splitDots_ne_nil (cs : List Char) : splitDots cs ≠ [] := by
  cases cs with
  | nil => simp [splitDots]
  | cons c cs =>
    unfold splitDots
    split
    · simp
    · split <;> simp

theorem Keys_ne_nil (keyPath : String) : Keys keyPath ≠ [] := by
  simp [Keys, splitDots_ne_nil]

namespace GoMap

variable {V : Type}

theorem get_set (m : GoMap V) (k k' : String) (v : V) :
    (m.set k v).get k' = if k = k' then some v else m.get k' := by
  induction m with
  | nil => simp [set, get]
  | cons p rest ih =>
    obtain ⟨k0, v0⟩ := p
    by_cases h0 : k0 = k
    · subst h0
      by_cases h1 : k0 = k' <;> simp [set, get, h1]
    · by_cases h1 : k0 = k'
      · subst h1
        have : ¬ k = k0 := fun h => h0 h.symm
        simp [set, get, h0, this]
      · simp [set, get, h0, h1, ih]

theorem get_set_self (m : GoMap V) (k : String) (v : V) : (m.set k v).get k = some v := by
  simp [get_set]

theorem get_set_other (m : GoMap V) (k k' : String) (v : V) (h : k' ≠ k) :
    (m.set k v).get k' = m.get k' := by
  have : ¬ k = k' := fun e => h e.symm
  simp [get_set, this]

theorem get_delete (m : GoMap V) (k k' : String) :
    (m.delete k).get k' = if k = k' then none else m.get k' := by
  induction m with
  | nil => simp [delete, get]
  | cons p rest ih =>
    obtain ⟨k0, v0⟩ := p
    by_cases h0 : k0 = k
    · subst h0
      by_cases h1 : k0 = k'
      · subst h1
        simpa [delete, get] using ih
      · simp [delete, get, h1, ih]
    · by_cases h1 : k0 = k'
      · subst h1
        have : ¬ k = k0 := fun h => h0 h.symm
        simp [delete, get, h0, this]
      · simp [delete, get, h0, h1, ih]

theorem get_eq_none_iff (m : GoMap V) (k : String) : m.get k = none ↔ k ∉ m.keys := by
  induction m with
  | nil => simp [get, keys]
  | cons p rest ih =>
    obtain ⟨k0, v0⟩ := p
    by_cases h0 : k0 = k
    · simp [get, keys, h0]
    · have h1 : ¬ k = k0 := fun h => h0 h.symm
      simpa [get, keys, h0, h1] using ih

theorem get_isSome_iff (m : GoMap V) (k : String) : (m.get k).isSome ↔ k ∈ m.keys := by
  rw [← not_iff_not, ← get_eq_none_iff]
  cases m.get k <;> simp

theorem length_set (m : GoMap V) (k : String) (v : V) :
    (m.set k v).length = if k ∈ m.keys then m.length else m.length + 1 := by
  induction m with
  | nil => simp [set, keys]
  | cons p rest ih =>
    obtain ⟨k0, v0⟩ := p
    by_cases h0 : k0 = k
    · simp [set, keys, h0]
    · have h1 : ¬ k = k0 := fun h => h0 h.symm
      simp only [set, h0, if_false, List.length_cons, ih, keys, List.map_cons, List.mem_cons, h1,
        false_or]
      split <;> rfl

theorem mem_set_self (m : GoMap V) (k : String) (v : V) : (k, v) ∈ m.set k v := by
  induction m with
  | nil => simp [set]
  | cons p rest ih =>
    obtain ⟨k0, v0⟩ := p
    by_cases h0 : k0 = k
    · simp [set, h0]
    · simp [set, h0, ih]

end GoMap


namespace Command

@[simp] theorem Alias_setCommands (c : Command) (cs : GoMap Command) :
    (c.setCommands cs).Alias = c.Alias := by
  cases c; rfl

@[simp] theorem Alias_receive (c : Command) (command description : String)
    (code : Option Nostromo.Code) (aliasOnly : Bool) :
    (c.receive command description code aliasOnly).Alias = c.Alias := by
  cases c; rfl

@[simp] theorem Alias_setParent (c : Command) (p : Option Ref) :
    (c.setParent p).Alias = c.Alias := by
  cases c; rfl

@[simp] theorem Commands_setCommands (c : Command) (cs : GoMap Command) :
    (c.setCommands cs).Commands = cs := by
  cases c; rfl

theorem Alias_buildSegs (command description : String) (code : Option Nostromo.Code)
    (aliasOnly : Bool) (mode : String) (segs : List String) (self : Ref) (c : Command) :
    (buildSegs command description code aliasOnly mode segs self c).Alias = c.Alias := by
  cases segs <;> simp [buildSegs]

theorem Alias_build (self : Ref) (c : Command) (keyPath command description : String)
    (code : Option Nostromo.Code) (aliasOnly : Bool) (mode : String) :
    (c.build self keyPath command description code aliasOnly mode).Alias = c.Alias :=
  Alias_buildSegs _ _ _ _ _ _ _ _

end Command

theorem strLen_pos_iff (s : String) : s.length > 0 ↔ s ≠ "" := by
  constructor
  · intro h e
    rw [(strLen_eq_zero_iff s).mpr e] at h
    exact Nat.lt_irrefl 0 h
  · intro h
    exact Nat.pos_of_ne_zero (fun e => h ((strLen_eq_zero_iff s).mp e))

namespace Manifest

/-- The loop of `ExecutionString` falls through to the error exactly when every root it visits
yields the empty key path. -/
theorem ExecutionString_loop_error (executionString : Command → List String → String)
    (args : List String) (roots : GoMap Command)
    (h : ∀ kc ∈ roots, kc.2.shortestKeyPath (KeyPath args) = "") :
    ExecutionString.loop executionString args roots
      = some ("", "", some ("unable to execute command '" ++ " ".intercalate args ++ "'")) := by
  induction roots with
  | nil => rfl
  | cons kc rest ih =>
    obtain ⟨k, cmd⟩ := kc
    have h0 : cmd.shortestKeyPath (KeyPath args) = "" := h (k, cmd) (List.mem_cons_self _ _)
    unfold ExecutionString.loop
    simp only [h0]
    rw [if_neg (by decide)]
    exact ih (fun kc hkc => h kc (List.mem_cons_of_mem _ hkc))

theorem ExecutionString_loop_no_error (executionString : Command → List String → String)
    (args : List String) (roots : GoMap Command)
    (h : ∃ kc ∈ roots, kc.2.shortestKeyPath (KeyPath args) ≠ "") (l x e : String) :
    ExecutionString.loop executionString args roots ≠ some (l, x, some e) := by
  induction roots with
  | nil =>
    obtain ⟨kc, hkc, _⟩ := h
    cases hkc
  | cons kc rest ih =>
    obtain ⟨k, cmd⟩ := kc
    unfold ExecutionString.loop
    by_cases h0 : cmd.shortestKeyPath (KeyPath args) = ""
    · simp only [h0]
      rw [if_neg (by decide)]
      apply ih
      obtain ⟨kc, hkc, hne⟩ := h
      rcases List.mem_cons.mp hkc with rfl | hmem
      · exact absurd h0 hne
      · exact ⟨kc, hmem, hne⟩
    · simp only []
      rw [if_pos ((strLen_pos_iff _).mpr h0)]
      split
      · simp
      · split
        · simp
        · split <;> simp

end Manifest

theorem find_none_of_Find_none (m : Manifest) (keyPath : String) (h : m.Find keyPath = none) :
    ∀ kc ∈ m.roots, kc.2.find keyPath = none := by
  intro kc hkc
  exact (List.findSome?_eq_none_iff.mp h) kc hkc

theorem shortestKeyPath_single (c : Command) (h : c.find "unknown" = none) :
    c.shortestKeyPath (KeyPath ["unknown"]) = "" := by
  have hK : Keys (KeyPath ["unknown"]) = ["unknown"] := by decide
  unfold Command.shortestKeyPath
  rw [hK]
  simp [Command.shortestFrom, KeyPath, h]

namespace Command

mutual
theorem link_link (p : Option Ref) (s : Ref) :
    ∀ c : Command, (c.link p s).link p s = c.link p s
  | mk n a d c cs ss ao mo q => by
    simp only [link]
    rw [linkIn_linkIn s cs]
theorem linkIn_linkIn (o : Ref) :
    ∀ cs : GoMap Command, linkIn o (linkIn o cs) = linkIn o cs
  | [] => rfl
  | (k, child) :: rest => by
    simp only [linkIn]
    rw [link_link (some o) (o ++ [k]) child, linkIn_linkIn o rest]
end

mutual
theorem withoutParents_link (p : Option Ref) (s : Ref) :
    ∀ c : Command, (c.link p s).withoutParents = c.withoutParents
  | mk n a d c cs ss ao mo q => by
    simp only [link, withoutParents]
    rw [withoutParentsIn_linkIn s cs]
theorem withoutParentsIn_linkIn (o : Ref) :
    ∀ cs : GoMap Command, withoutParentsIn (linkIn o cs) = withoutParentsIn cs
  | [] => rfl
  | (k, child) :: rest => by
    simp only [linkIn, withoutParentsIn]
    rw [withoutParents_link (some o) (o ++ [k]) child, withoutParentsIn_linkIn o rest]
end

end Command

theorem linkRoots_idem (cs : GoMap Command) :
    (cs.map (fun kc => (kc.1, kc.2.link none [kc.1]))).map
        (fun kc => (kc.1, kc.2.link none [kc.1]))
      = cs.map (fun kc => (kc.1, kc.2.link none [kc.1])) := by
  induction cs with
  | nil => rfl
  | cons kc rest ih =>
    simp only [List.map_cons, Command.link_link]
    rw [ih]

theorem withoutParentsIn_linkRoots (cs : GoMap Command) :
    Command.withoutParentsIn (cs.map (fun kc => (kc.1, kc.2.link none [kc.1])))
      = Command.withoutParentsIn cs := by
  induction cs with
  | nil => rfl
  | cons kc rest ih =>
    obtain ⟨k, c⟩ := kc
    simp only [List.map_cons, Command.withoutParentsIn, Command.withoutParents_link]
    rw [ih]

namespace GoMap

variable {V : Type}

theorem mem_keys_set (m : GoMap V) (k k' : String) (v : V) :
    k' ∈ (m.set k v).keys ↔ k' = k ∨ k' ∈ m.keys := by
  rw [← get_isSome_iff, ← get_isSome_iff, get_set]
  by_cases h : k = k'
  · simp [h]
  · have : ¬ k' = k := fun e => h e.symm
    simp [h, this]

end GoMap

namespace Spaceport

theorem names_AddManifest (s s1 : Spaceport) (m : Manifest)
    (h : s.AddManifest (some m) = some s1) :
    s1.Sequence = s.Sequence ∧ ∀ n, n ∈ s1.names ↔ n = m.Name ∨ n ∈ s.names := by
  unfold AddManifest at h
  cases hm : s.manifests with
  | none => simp [hm] at h
  | some ms =>
    simp only [hm, Option.some.injEq] at h
    subst h
    refine ⟨rfl, fun n => ?_⟩
    simp [names, hm, GoMap.mem_keys_set]

/-- The loop of `Import` keeps every sequenced name registered. -/
theorem importLoop_sub (ms : List (Option Manifest)) :
    ∀ s s1 : Spaceport, importLoop s ms = some s1 →
      (∀ n ∈ s.Sequence, n ∈ s.names) → ∀ n ∈ s1.Sequence, n ∈ s1.names := by
  induction ms with
  | nil =>
    intro s s1 h hs
    simp only [importLoop, Option.some.injEq] at h
    subst h
    exact hs
  | cons m rest ih =>
    intro s s1 h hs
    unfold importLoop at h
    cases ha : s.AddManifest m with
    | none => simp [ha] at h
    | some s2 =>
      simp only [ha] at h
      cases m with
      | none => cases h
      | some m =>
      simp only at h
      obtain ⟨hseq, hnames⟩ := names_AddManifest s s2 m ha
      refine ih _ s1 h ?_
      intro n hn
      have hn' : n ∈ s2.Sequence ∨ n = m.Name := by simpa using hn
      show n ∈ names { manifests := s2.manifests, Sequence := s2.Sequence ++ [m.Name] }
      have hnm : names { manifests := s2.manifests, Sequence := s2.Sequence ++ [m.Name] }
          = s2.names := rfl
      rw [hnm, hnames]
      rcases hn' with h1 | h1
      · exact Or.inr (hs n (hseq ▸ h1))
      · exact Or.inl h1

/-- The loop of `Import` keeps every registered name sequenced, if that held at its start. -/
theorem importLoop_sup (ms : List (Option Manifest)) :
    ∀ s s1 : Spaceport, importLoop s ms = some s1 →
      (∀ n ∈ s.names, n ∈ s.Sequence) → ∀ n ∈ s1.names, n ∈ s1.Sequence := by
  induction ms with
  | nil =>
    intro s s1 h hs
    simp only [importLoop, Option.some.injEq] at h
    subst h
    exact hs
  | cons m rest ih =>
    intro s s1 h hs
    unfold importLoop at h
    cases ha : s.AddManifest m with
    | none => simp [ha] at h
    | some s2 =>
      simp only [ha] at h
      cases m with
      | none => cases h
      | some m =>
      simp only at h
      obtain ⟨hseq, hnames⟩ := names_AddManifest s s2 m ha
      refine ih _ s1 h ?_
      intro n hn
      have hnm : names { manifests := s2.manifests, Sequence := s2.Sequence ++ [m.Name] }
          = s2.names := rfl
      rw [hnm, hnames] at hn
      show n ∈ s2.Sequence ++ [m.Name]
      rcases hn with h1 | h1
      · simp [h1]
      · have := hs n h1
        rw [← hseq] at this
        simp [this]

theorem names_Init (s : Spaceport) : s.Init.names = s.names ∧ s.Init.Sequence = s.Sequence := by
  unfold Init
  cases hm : s.manifests with
  | none => simp [names, hm, GoMap.keys]
  | some ms => simp [hm]

theorem names_Link (s : Spaceport) : s.Link.names = s.names ∧ s.Link.Sequence = s.Sequence := by
  refine ⟨?_, rfl⟩
  unfold Link names
  cases hm : s.manifests with
  | none => rfl
  | some ms => simp [GoMap.keys, List.map_map, Function.comp_def]

theorem keys_updateLoop (ver : VersionInfo) :
    ∀ ms ms1 : GoMap Manifest, updateLoop ver ms = some ms1 → ms1.keys = ms.keys
  | [], ms1, h => by
    simp only [updateLoop, Option.some.injEq] at h
    subst h
    rfl
  | (k, m) :: rest, ms1, h => by
    unfold updateLoop at h
    cases hv : m.Version with
    | none => simp [hv] at h
    | some v =>
      cases hr : updateLoop ver rest with
      | none => simp [hv, hr] at h
      | some rest1 =>
        simp only [hv, hr, Option.some.injEq] at h
        subst h
        have := keys_updateLoop ver rest rest1 hr
        simp [GoMap.keys] at this ⊢
        exact this

theorem names_UpdateVersion (s s1 : Spaceport) (ver : VersionInfo)
    (h : s.UpdateVersion ver = some s1) : s1.names = s.names ∧ s1.Sequence = s.Sequence := by
  unfold UpdateVersion at h
  cases hm : s.manifests with
  | none =>
    simp only [hm, Option.some.injEq] at h
    subst h
    exact ⟨rfl, rfl⟩
  | some ms =>
    cases hu : updateLoop ver ms with
    | none => simp [hm, hu] at h
    | some ms1 =>
      simp only [hm, hu, Option.some.injEq] at h
      subst h
      refine ⟨?_, rfl⟩
      simp [names, hm, keys_updateLoop ver ms ms1 hu]

end Spaceport

/-! ### Key paths: joining undoes splitting -/

/-- The characters of the joined segments. -/
theorem KeyPath_cons_cons (k k' : String) (ks : List String) :
    KeyPath (k :: k' :: ks) = k ++ "." ++ KeyPath (k' :: ks) := rfl

theorem KeyPath_splitDots (cs : List Char) :
    (KeyPath ((splitDots cs).map String.mk)).data = cs := by
  induction cs with
  | nil => rfl
  | cons c cs ih =>
    unfold splitDots
    by_cases hc : c = '.'
    · rw [if_pos hc]
      cases hs : splitDots cs with
      | nil => exact absurd hs (splitDots_ne_nil cs)
      | cons seg segs =>
        rw [hs] at ih
        simp only [List.map_cons] at ih ⊢
        rw [KeyPath_cons_cons, String.data_append, String.data_append, ih, hc]
        rfl
    · rw [if_neg hc]
      cases hs : splitDots cs with
      | nil => exact absurd hs (splitDots_ne_nil cs)
      | cons seg segs =>
        rw [hs] at ih
        cases segs with
        | nil =>
          simp only [List.map_cons, List.map_nil, KeyPath] at ih ⊢
          rw [← ih]
        | cons seg2 segs2 =>
          simp only [List.map_cons] at ih ⊢
          rw [KeyPath_cons_cons, String.data_append, String.data_append] at ih ⊢
          rw [← ih]
          rfl

theorem KeyPath_Keys (keyPath : String) : KeyPath (Keys keyPath) = keyPath :=
  String.ext (KeyPath_splitDots keyPath.data)

theorem descend_eq (segs : List String) :
    ∀ acc : String, descend acc segs = KeyPath (acc :: segs) := by
  induction segs with
  | nil => intro acc; rfl
  | cons seg segs ih =>
    intro acc
    rw [descend, ih]
    cases segs with
    | nil => rfl
    | cons seg2 segs2 =>
      rw [KeyPath_cons_cons, KeyPath_cons_cons, KeyPath_cons_cons]
      simp only [KeyPath, String.append_assoc]

/-! ### The search and the listing of commands -/

namespace Command

theorem nodesFrom_head (acc : String) (c : Command) : (acc, c) ∈ nodesFrom acc c := by
  cases c
  simp [nodesFrom]

theorem nodesFrom_setCommands (acc : String) (c : Command) (cs : GoMap Command) :
    nodesFrom acc (c.setCommands cs) = (acc, c.setCommands cs) :: nodesIn acc cs := by
  cases c
  simp [nodesFrom, setCommands]

theorem nodesIn_of_mem (acc : String) :
    ∀ (cs : GoMap Command) (k : String) (child : Command), (k, child) ∈ cs →
      ∀ x ∈ nodesFrom (KeyPath [acc, child.Alias]) child, x ∈ nodesIn acc cs
  | [], _, _, h, _, _ => by cases h
  | (k0, c0) :: rest, k, child, h, x, hx => by
    simp only [nodesIn, List.mem_append]
    rcases List.mem_cons.mp h with heq | hmem
    · cases heq
      exact Or.inl hx
    · exact Or.inr (nodesIn_of_mem acc rest k child hmem x hx)

mutual
/-- What the search returns is a command listed under the key path searched for. -/
theorem findFrom_mem (keyPath : String) :
    ∀ (acc : String) (c r : Command), findFrom acc keyPath c = some r →
      (keyPath, r) ∈ nodesFrom acc c
  | acc, mk n a d c cs ss ao mo p, r, h => by
    unfold findFrom at h
    by_cases hacc : acc = keyPath
    · rw [if_pos hacc] at h
      cases h
      subst hacc
      simp [nodesFrom]
    · rw [if_neg hacc] at h
      simp only [nodesFrom, List.mem_cons]
      exact Or.inr (findIn_mem keyPath acc cs r h)
theorem findIn_mem (keyPath : String) :
    ∀ (acc : String) (cs : GoMap Command) (r : Command), findIn acc keyPath cs = some r →
      (keyPath, r) ∈ nodesIn acc cs
  | _, [], r, h => by simp [findIn] at h
  | acc, (k, child) :: rest, r, h => by
    unfold findIn at h
    simp only [nodesIn, List.mem_append]
    cases hc : findFrom (KeyPath [acc, child.Alias]) keyPath child with
    | some r1 =>
      simp only [hc, Option.some.injEq] at h
      subst h
      exact Or.inl (findFrom_mem keyPath _ child r1 hc)
    | none =>
      simp only [hc] at h
      exact Or.inr (findIn_mem keyPath acc rest r h)
end

mutual
/-- A key path under which a command is listed is found by the search. -/
theorem findFrom_isSome (keyPath : String) :
    ∀ (acc : String) (c w : Command), (keyPath, w) ∈ nodesFrom acc c →
      (findFrom acc keyPath c).isSome = true
  | acc, mk n a d c cs ss ao mo p, w, h => by
    unfold findFrom
    by_cases hacc : acc = keyPath
    · rw [if_pos hacc]; rfl
    · rw [if_neg hacc]
      simp only [nodesFrom, List.mem_cons, Prod.mk.injEq] at h
      rcases h with ⟨h1, _⟩ | h
      · exact absurd h1.symm hacc
      · exact findIn_isSome keyPath acc cs w h
theorem findIn_isSome (keyPath : String) :
    ∀ (acc : String) (cs : GoMap Command) (w : Command), (keyPath, w) ∈ nodesIn acc cs →
      (findIn acc keyPath cs).isSome = true
  | _, [], w, h => by simp [nodesIn] at h
  | acc, (k, child) :: rest, w, h => by
    unfold findIn
    simp only [nodesIn, List.mem_append] at h
    cases hc : findFrom (KeyPath [acc, child.Alias]) keyPath child with
    | some r1 => rfl
    | none =>
      simp only []
      rcases h with h | h
      · have := findFrom_isSome keyPath _ child w h
        rw [hc] at this
        cases this
      · exact findIn_isSome keyPath acc rest w h
end

theorem aliasKeyedIn_get :
    ∀ (cs : GoMap Command) (k : String) (c : Command), aliasKeyedIn cs = true →
      GoMap.get cs k = some c → c.Alias = k ∧ c.aliasKeyed = true
  | [], _, _, _, h => by simp [GoMap.get] at h
  | (k0, c0) :: rest, k, c, hwf, h => by
    simp only [aliasKeyedIn, Bool.and_eq_true, beq_iff_eq] at hwf
    unfold GoMap.get at h
    by_cases hk : k0 = k
    · rw [if_pos hk] at h
      cases h
      exact ⟨hwf.1.trans hk, hwf.2.1⟩
    · rw [if_neg hk] at h
      exact aliasKeyedIn_get rest k c hwf.2.2 h

theorem aliasKeyed_Commands (c : Command) (h : c.aliasKeyed = true) :
    aliasKeyedIn c.Commands = true := by
  cases c
  simpa [aliasKeyed, Commands] using h

/-- The walk of `build` leaves, at the key path it descends to, a command with the fields it was
given. -/
theorem buildSegs_node (command description : String) (code : Option Nostromo.Code)
    (aliasOnly : Bool) (mode : String) (segs : List String) :
    ∀ (self : Ref) (c : Command) (acc : String), c.aliasKeyed = true →
      ∃ w, (descend acc segs, w)
            ∈ nodesFrom acc (buildSegs command description code aliasOnly mode segs self c) ∧
        w.Name = command ∧ w.Description = description ∧ w.Code = code := by
  induction segs with
  | nil =>
    intro self c acc _
    refine ⟨c.receive command description code aliasOnly, nodesFrom_head _ _, ?_, ?_, ?_⟩ <;>
      (cases c; rfl)
  | cons seg segs ih =>
    intro self c acc hwf
    have hcs := aliasKeyed_Commands c hwf
    -- the child the walk continues with, and what is known about it
    obtain ⟨child, hchild, halias, hcwf⟩ : ∃ child : Command,
        (match c.Commands.get seg with
          | some child => child
          | none => (newCommand "" seg "" none false mode).setParent (some self)) = child ∧
        child.Alias = seg ∧ child.aliasKeyed = true := by
      cases hg : c.Commands.get seg with
      | some child =>
        obtain ⟨h1, h2⟩ := aliasKeyedIn_get _ _ _ hcs hg
        exact ⟨child, rfl, h1, h2⟩
      | none => exact ⟨_, rfl, rfl, rfl⟩
    obtain ⟨w, hw, hfields⟩ := ih (self ++ [seg]) child (KeyPath [acc, seg]) hcwf
    refine ⟨w, ?_, hfields⟩
    simp only [buildSegs, hchild, descend]
    rw [nodesFrom_setCommands]
    refine List.mem_cons_of_mem _ ?_
    refine nodesIn_of_mem acc _ seg _ (GoMap.mem_set_self _ _ _) _ ?_
    rw [Alias_buildSegs, halias]
    exact hw

end Command

/-- What `Find` returns, in whatever order the roots `e` are visited, is a command listed under
the key path; and a listed key path is found. -/
theorem findSome_mem_nodes (e : GoMap Command) (keyPath : String) (r : Command)
    (h : e.findSome? (fun kc => kc.2.find keyPath) = some r) :
    ∃ kc ∈ e, (keyPath, r) ∈ kc.2.nodes := by
  obtain ⟨kc, hkc, hf⟩ := List.exists_of_findSome?_eq_some h
  exact ⟨kc, hkc, Command.findFrom_mem keyPath _ _ r hf⟩

theorem findSome_isSome_of_node (e : GoMap Command) (keyPath : String) (kc : String × Command)
    (w : Command) (hkc : kc ∈ e) (hw : (keyPath, w) ∈ kc.2.nodes) :
    (e.findSome? (fun kc => kc.2.find keyPath)).isSome = true :=
  List.findSome?_isSome_iff.mpr ⟨kc, hkc, Command.findFrom_isSome keyPath _ _ w hw⟩

theorem Manifest.roots_of_some (m : Manifest) (cs : GoMap Command) (h : m.Commands = some cs) :
    m.roots = cs := by
  simp [Manifest.roots, h]

theorem Manifest.roots_of_none (m : Manifest) (h : m.Commands = none) : m.roots = [] := by
  simp [Manifest.roots, h]

/-- A change made in place to the root map, which leaves a map without entries as it is, is the
change of what the map reads as. -/
theorem Manifest.roots_map (m : Manifest) (f : GoMap Command → GoMap Command) (h : f [] = []) :
    Manifest.roots { m with Commands := m.Commands.map f } = f m.roots := by
  cases hc : m.Commands <;> simp [Manifest.roots, hc, h]

/-- A manifest without config or without map makes `AddCommand` panic on a non-empty key path. -/
theorem AddCommand_nil (m : Manifest) (keyPath command description : String)
    (code : Option Code) (aliasOnly : Bool) (mode : String) (hk : keyPath ≠ "")
    (h : m.Config = none ∨ m.Commands = none) :
    m.AddCommand keyPath command description code aliasOnly mode = none := by
  have hlen : ¬ keyPath.length = 0 := fun h => hk ((strLen_eq_zero_iff _).mp h)
  unfold Manifest.AddCommand
  rw [if_neg hlen]
  cases hc : m.Config with
  | none => rfl
  | some config =>
    have hcs : m.Commands = none := by
      rcases h with h | h
      · rw [hc] at h; cases h
      · exact h
    simp only [hcs, Manifest.roots_of_none m hcs, GoMap.get]
    split
    · rfl
    · split <;> rfl

/-- With a config and a map, `AddCommand` is the function of the two that the source spells
out. -/
theorem AddCommand_eq (m : Manifest) (keyPath command description : String)
    (code : Option Code) (aliasOnly : Bool) (mode : String) (config : Config)
    (cs : GoMap Command) (hc : m.Config = some config) (hcs : m.Commands = some cs) :
    m.AddCommand keyPath command description code aliasOnly mode =
      if keyPath.length = 0 then
        some { flag := false, err := some "invalid key path", manifest := m }
      else
        if config.AliasesOnly || aliasOnly then
          some { flag := true, err := none,
                 manifest := { m with Commands := some (cs.set keyPath
                   (newCommand command keyPath description code true
                     (if mode.length = 0 then config.Mode.String else mode))) } }
        else
          match Keys keyPath with
          | [] => none
          | key :: _ =>
            match cs.get key with
            | none =>
              some { flag := true, err := none,
                     manifest := { m with Commands := some (cs.set key
                       ((newCommand "" key "" none false
                         (if mode.length = 0 then config.Mode.String else mode)).build
                         [key] keyPath command description code aliasOnly
                         (if mode.length = 0 then config.Mode.String else mode))) } }
            | some cmd =>
              some { flag := false, err := none,
                     manifest := { m with Commands := some (cs.set key
                       (cmd.build [key] keyPath command description code aliasOnly
                         (if mode.length = 0 then config.Mode.String else mode))) } } := by
  unfold Manifest.AddCommand
  rw [Manifest.roots_of_some m cs hcs]
  simp only [hc, hcs]
  split
  · rfl
  · split
    · rfl
    · cases hK : Keys keyPath with
      | nil => rfl
      | cons key rest =>
        cases hg : cs.get key with
        | none =>
          have ha : (newCommand "" key "" none false
              (if mode.length = 0 then config.Mode.String else mode)).Alias = key := rfl
          simp only [hg, Command.Alias_build, ha, Option.map_some']
        | some cmd => simp only [hg, Option.map_some']

/-- When `AddCommand` returns on a non-empty key path, the manifest had a config and a map. -/
theorem AddCommand_some_inv (m : Manifest) (keyPath command description : String)
    (code : Option Code) (aliasOnly : Bool) (mode : String) (o : Outcome) (hk : keyPath ≠ "")
    (ho : m.AddCommand keyPath command description code aliasOnly mode = some o) :
    ∃ config cs, m.Config = some config ∧ m.Commands = some cs := by
  cases hc : m.Config with
  | none =>
    rw [AddCommand_nil m keyPath command description code aliasOnly mode hk (Or.inl hc)] at ho
    cases ho
  | some config =>
    cases hcs : m.Commands with
    | none =>
      rw [AddCommand_nil m keyPath command description code aliasOnly mode hk (Or.inr hcs)] at ho
      cases ho
    | some cs => exact ⟨config, cs, rfl, rfl⟩

/-- On a non-empty key path, and a manifest with a config and a map, `AddCommand` returns, and
returns no error. -/
theorem AddCommand_nonempty_ok (m : Manifest) (keyPath command description : String)
    (code : Option Code) (aliasOnly : Bool) (mode : String) (config : Config)
    (cs : GoMap Command) (hk : keyPath ≠ "")
    (hc : m.Config = some config) (hcs : m.Commands = some cs) :
    ∃ o, m.AddCommand keyPath command description code aliasOnly mode = some o ∧
      o.err = none := by
  have hlen : ¬ keyPath.length = 0 := fun h => hk ((strLen_eq_zero_iff _).mp h)
  rw [AddCommand_eq m keyPath command description code aliasOnly mode config cs hc hcs,
    if_neg hlen]
  split
  · exact ⟨_, rfl, rfl⟩
  · split
    · rename_i h
      exact absurd h (Keys_ne_nil keyPath)
    · split
      · exact ⟨_, rfl, rfl⟩
      · exact ⟨_, rfl, rfl⟩

/-- After `AddCommand` on a manifest whose commands are stored under their alias, some root's tree
lists under the key path a command with the fields given to the call. -/
theorem AddCommand_node (m : Manifest) (keyPath command description : String)
    (code : Option Code) (aliasOnly : Bool) (mode : String) (o : Outcome)
    (hk : keyPath ≠ "") (hwf : m.aliasKeyed = true)
    (ho : m.AddCommand keyPath command description code aliasOnly mode = some o) :
    ∃ kc ∈ o.manifest.roots, ∃ w, (keyPath, w) ∈ kc.2.nodes ∧
      w.Name = command ∧ w.Description = description ∧ w.Code = code := by
  have hlen : ¬ keyPath.length = 0 := fun h => hk ((strLen_eq_zero_iff _).mp h)
  obtain ⟨config, cs, hcfg, hcs⟩ :=
    AddCommand_some_inv m keyPath command description code aliasOnly mode o hk ho
  rw [AddCommand_eq m keyPath command description code aliasOnly mode config cs hcfg hcs,
    if_neg hlen] at ho
  have hwf : Command.aliasKeyedIn cs = true := by
    rw [← Manifest.roots_of_some m cs hcs]; exact hwf
  by_cases hor : (config.AliasesOnly || aliasOnly) = true
  · rw [if_pos hor] at ho
    cases ho
    exact ⟨_, GoMap.mem_set_self _ _ _, _, Command.nodesFrom_head _ _, rfl, rfl, rfl⟩
  · rw [if_neg hor] at ho
    cases hK : Keys keyPath with
    | nil => exact absurd hK (Keys_ne_nil keyPath)
    | cons key rest =>
      have hpath : descend key rest = keyPath := by
        rw [descend_eq, ← hK, KeyPath_Keys]
      simp only [hK] at ho
      cases hg : cs.get key with
      | none =>
        simp only [hg, Option.some.injEq] at ho
        subst ho
        obtain ⟨w, hw, hfields⟩ := Command.buildSegs_node command description code aliasOnly
          (if mode.length = 0 then config.Mode.String else mode) rest
          [(newCommand "" key "" none false
            (if mode.length = 0 then config.Mode.String else mode)).Alias]
          (newCommand "" key "" none false
            (if mode.length = 0 then config.Mode.String else mode)) key rfl
        refine ⟨_, GoMap.mem_set_self _ _ _, w, ?_, hfields⟩
        rw [hpath] at hw
        simp only [Command.nodes, Command.build, hK, List.tail_cons, Command.Alias_buildSegs]
        exact hw
      | some cmd =>
        simp only [hg, Option.some.injEq] at ho
        subst ho
        obtain ⟨halias, hcwf⟩ := Command.aliasKeyedIn_get _ _ _ hwf hg
        obtain ⟨w, hw, hfields⟩ := Command.buildSegs_node command description code aliasOnly
          (if mode.length = 0 then config.Mode.String else mode) rest [key] cmd key hcwf
        refine ⟨_, GoMap.mem_set_self _ _ _, w, ?_, hfields⟩
        rw [hpath] at hw
        simp only [Command.nodes, Command.build, hK, List.tail_cons, Command.Alias_buildSegs,
          halias]
        exact hw

/-! ### `AddCommand` keeps every command stored under its alias -/

namespace Command

theorem aliasKeyedIn_set :
    ∀ (cs : GoMap Command) (k : String) (v : Command), aliasKeyedIn cs = true →
      v.Alias = k → v.aliasKeyed = true → aliasKeyedIn (GoMap.set cs k v) = true
  | [], k, v, _, ha, hv => by
    simp [GoMap.set, aliasKeyedIn, ha, hv]
  | (k0, c0) :: rest, k, v, hwf, ha, hv => by
    simp only [aliasKeyedIn, Bool.and_eq_true, beq_iff_eq] at hwf
    unfold GoMap.set
    by_cases hk : k0 = k
    · rw [if_pos hk]
      simp [aliasKeyedIn, ha, hv, hwf.2.2]
    · rw [if_neg hk]
      simp [aliasKeyedIn, hwf.1, hwf.2.1, aliasKeyedIn_set rest k v hwf.2.2 ha hv]

theorem aliasKeyed_setCommands (c : Command) (cs : GoMap Command) :
    (c.setCommands cs).aliasKeyed = aliasKeyedIn cs := by
  cases c
  simp [setCommands, aliasKeyed]

theorem aliasKeyed_receive (c : Command) (command description : String)
    (code : Option Nostromo.Code) (aliasOnly : Bool) :
    (c.receive command description code aliasOnly).aliasKeyed = c.aliasKeyed := by
  cases c
  simp [receive, aliasKeyed]

theorem buildSegs_aliasKeyed (command description : String) (code : Option Nostromo.Code)
    (aliasOnly : Bool) (mode : String) (segs : List String) :
    ∀ (self : Ref) (c : Command), c.aliasKeyed = true →
      (buildSegs command description code aliasOnly mode segs self c).aliasKeyed = true := by
  induction segs with
  | nil =>
    intro self c h
    simpa [buildSegs, aliasKeyed_receive] using h
  | cons seg segs ih =>
    intro self c h
    have hcs := aliasKeyed_Commands c h
    simp only [buildSegs, aliasKeyed_setCommands]
    cases hg : c.Commands.get seg with
    | some child =>
      obtain ⟨h1, h2⟩ := aliasKeyedIn_get _ _ _ hcs hg
      exact aliasKeyedIn_set _ _ _ hcs (by rw [Alias_buildSegs]; exact h1) (ih _ _ h2)
    | none =>
      exact aliasKeyedIn_set _ _ _ hcs (by rw [Alias_buildSegs]; rfl) (ih _ _ rfl)

end Command

theorem NewManifest_aliasKeyed (version : Option VersionInfo) :
    (NewManifest version).aliasKeyed = true := rfl

/-- `AddCommand` keeps every command stored under its own alias. -/
theorem AddCommand_aliasKeyed (m : Manifest) (keyPath command description : String)
    (code : Option Code) (aliasOnly : Bool) (mode : String) (o : Outcome)
    (hwf : m.aliasKeyed = true)
    (ho : m.AddCommand keyPath command description code aliasOnly mode = some o) :
    o.manifest.aliasKeyed = true := by
  by_cases hlen : keyPath.length = 0
  · unfold Manifest.AddCommand at ho
    rw [if_pos hlen] at ho
    cases ho
    exact hwf
  · have hk : keyPath ≠ "" := fun h => hlen ((strLen_eq_zero_iff _).mpr h)
    obtain ⟨config, cs, hcfg, hcs⟩ :=
      AddCommand_some_inv m keyPath command description code aliasOnly mode o hk ho
    rw [AddCommand_eq m keyPath command description code aliasOnly mode config cs hcfg hcs,
      if_neg hlen] at ho
    have hwf : Command.aliasKeyedIn cs = true := by
      rw [← Manifest.roots_of_some m cs hcs]; exact hwf
    by_cases hor : (config.AliasesOnly || aliasOnly) = true
    · rw [if_pos hor] at ho
      cases ho
      exact Command.aliasKeyedIn_set _ _ _ hwf rfl rfl
    · rw [if_neg hor] at ho
      cases hK : Keys keyPath with
      | nil => exact absurd hK (Keys_ne_nil keyPath)
      | cons key rest =>
        simp only [hK] at ho
        cases hg : cs.get key with
        | none =>
          simp only [hg, Option.some.injEq] at ho
          subst ho
          exact Command.aliasKeyedIn_set _ _ _ hwf (by rw [Command.Alias_build]; rfl)
            (Command.buildSegs_aliasKeyed _ _ _ _ _ _ _ _ rfl)
        | some cmd =>
          simp only [hg, Option.some.injEq] at ho
          subst ho
          obtain ⟨halias, hcwf⟩ := Command.aliasKeyedIn_get _ _ _ hwf hg
          exact Command.aliasKeyedIn_set _ _ _ hwf
            (by rw [Command.Alias_build]; exact halias)
            (Command.buildSegs_aliasKeyed _ _ _ _ _ _ _ _ hcwf)

/-! ### `Import` -/

namespace Spaceport

theorem importLoop_eq (ms : List Manifest) :
    ∀ (ms0 : GoMap Manifest) (seq : List String),
      importLoop { manifests := some ms0, Sequence := seq } (ms.map some)
        = some { manifests := some (registerAll ms0 ms),
                 Sequence := seq ++ ms.map (fun m => m.Name) } := by
  induction ms with
  | nil => intro ms0 seq; simp [importLoop, registerAll]
  | cons m rest ih =>
    intro ms0 seq
    simp only [List.map_cons, importLoop, AddManifest]
    rw [ih]
    simp [registerAll]

/-- The loop of `Import` panics when a nil manifest is among those still to be registered. -/
theorem importLoop_nil_entry (ms : List (Option Manifest)) (h : none ∈ ms) :
    ∀ s : Spaceport, importLoop s ms = none := by
  induction ms with
  | nil => cases h
  | cons m rest ih =>
    intro s
    cases m with
    | none => simp [importLoop, AddManifest]
    | some m =>
      have hr : none ∈ rest := by
        rcases List.mem_cons.mp h with h1 | h1
        · cases h1
        · exact h1
      unfold importLoop
      cases ha : s.AddManifest (some m) with
      | none => rfl
      | some s1 => exact ih hr _

/-- The loop of `Import` panics on a nil map as soon as there is a manifest to register. -/
theorem importLoop_nil_map (ms : List (Option Manifest)) (s : Spaceport)
    (h : s.manifests = none) (hms : ms ≠ []) : importLoop s ms = none := by
  cases ms with
  | nil => exact absurd rfl hms
  | cons m rest =>
    cases m with
    | none => simp [importLoop, AddManifest]
    | some m => simp [importLoop, AddManifest, h]

theorem get_registerAll (name : String) (ms : List Manifest) :
    ∀ ms0 : GoMap Manifest,
      (registerAll ms0 ms).get name
        = match lastNamed name ms with
          | some m => some m
          | none => ms0.get name := by
  induction ms with
  | nil => intro ms0; rfl
  | cons m rest ih =>
    intro ms0
    have h := ih (ms0.set m.Name m)
    simp only [registerAll, List.foldl_cons] at h ⊢
    rw [h]
    simp only [lastNamed]
    cases hl : lastNamed name rest with
    | some x => rfl
    | none =>
      simp only [GoMap.get_set]
      split <;> rfl

/-- What `lastNamed` returns carries the name and is followed by no manifest of that name. -/
theorem lastNamed_some (name : String) (ms : List Manifest) (m : Manifest)
    (h : lastNamed name ms = some m) :
    ∃ pre post, ms = pre ++ m :: post ∧ m.Name = name ∧ ∀ x ∈ post, x.Name ≠ name := by
  induction ms with
  | nil => simp [lastNamed] at h
  | cons m0 rest ih =>
    simp only [lastNamed] at h
    cases hl : lastNamed name rest with
    | some x =>
      simp only [hl, Option.some.injEq] at h
      subst h
      obtain ⟨pre, post, he, hn, hp⟩ := ih hl
      exact ⟨m0 :: pre, post, by rw [he]; rfl, hn, hp⟩
    | none =>
      simp only [hl] at h
      by_cases hm : m0.Name = name
      · simp only [hm, if_true, Option.some.injEq] at h
        subst h
        refine ⟨[], rest, rfl, hm, ?_⟩
        intro x hx hxn
        have : ∀ l : List Manifest, lastNamed name l = none → ∀ y ∈ l, y.Name ≠ name := by
          intro l
          induction l with
          | nil => intro _ y hy; cases hy
          | cons y0 l ihl =>
            intro hnone y hy
            simp only [lastNamed] at hnone
            cases hl2 : lastNamed name l with
            | some z => simp [hl2] at hnone
            | none =>
              simp only [hl2] at hnone
              have hy0 : ¬ y0.Name = name := by
                intro e
                simp [e] at hnone
              rcases List.mem_cons.mp hy with rfl | hmem
              · exact hy0
              · exact ihl hl2 y hmem
        exact this rest hl x hx hxn
      · simp [hm] at h

theorem lastNamed_isSome (name : String) (ms : List Manifest)
    (h : name ∈ ms.map (fun m => m.Name)) : ∃ m, lastNamed name ms = some m := by
  induction ms with
  | nil => cases h
  | cons m0 rest ih =>
    simp only [lastNamed]
    cases hl : lastNamed name rest with
    | some x => exact ⟨x, rfl⟩
    | none =>
      simp only [List.map_cons, List.mem_cons] at h
      rcases h with h | h
      · exact ⟨m0, by simp [h]⟩
      · obtain ⟨m, hm⟩ := ih h
        rw [hl] at hm
        cases hm

theorem lastNamed_none (name : String) (ms : List Manifest)
    (h : name ∉ ms.map (fun m => m.Name)) : lastNamed name ms = none := by
  cases hl : lastNamed name ms with
  | none => rfl
  | some m =>
    obtain ⟨pre, post, he, hn, _⟩ := lastNamed_some name ms m hl
    exact absurd (by rw [he]; simp [hn]) h

/-- `Import` on a spaceport whose map exists: the sequence is the names in caller order, and
the map holds, for every name, the last manifest of the list carrying it. -/
theorem Import_eq (s : Spaceport) (ms0 : GoMap Manifest) (ms : List Manifest)
    (h : s.manifests = some ms0) :
    s.Import (ms.map some) = some { manifests := some (registerAll ms0 ms),
                                    Sequence := ms.map (fun m => m.Name) } := by
  unfold Import
  rw [h, importLoop_eq]
  simp

end Spaceport

namespace Spaceport

/-- After the loop of `Import` the sequence is the one at its start, followed by the names of the
manifests of the list. -/
theorem importLoop_Sequence (ms : List (Option Manifest)) :
    ∀ s s1 : Spaceport, importLoop s ms = some s1 →
      s1.Sequence = s.Sequence ++ ms.filterMap (fun m => m.map (fun m => m.Name)) := by
  induction ms with
  | nil =>
    intro s s1 h
    simp only [importLoop, Option.some.injEq] at h
    subst h
    simp
  | cons m rest ih =>
    intro s s1 h
    unfold importLoop at h
    cases ha : s.AddManifest m with
    | none => simp [ha] at h
    | some s2 =>
      simp only [ha] at h
      cases m with
      | none => cases h
      | some m =>
      simp only at h
      obtain ⟨hseq, _⟩ := names_AddManifest s s2 m ha
      rw [ih _ s1 h]
      simp [hseq]

/-- A list of manifest pointers without nil is a list of manifests. -/
theorem all_some (l : List (Option Manifest)) (h : none ∉ l) :
    ∃ ms : List Manifest, l = ms.map some := by
  induction l with
  | nil => exact ⟨[], rfl⟩
  | cons m rest ih =>
    obtain ⟨ms, hms⟩ := ih (fun hr => h (List.mem_cons_of_mem _ hr))
    cases m with
    | none => exact absurd (List.mem_cons_self _ _) h
    | some m => exact ⟨m :: ms, by rw [hms]; rfl⟩

end Spaceport

/-! ### The startup file -/

/-- The model passes the rows of `TestStartupFile`. -/
theorem runStartupFile_test_rows :
    runStartupFile ".profile" "" none = (false, true, false, true, "") ∧
    runStartupFile ".zshrc" malformedBlock1 (some manifestRootA)
      = (true, false, true, true, "") ∧
    runStartupFile ".zshrc" malformedBlock2 (some manifestRootA)
      = (true, false, true, true, "") ∧
    runStartupFile ".profile" "" (some manifestRootA) = (false, true, false, false, "") ∧
    runStartupFile ".bash_profile" "" (some manifestRootA) = (false, true, false, false, "") ∧
    runStartupFile ".bashrc" "" (some manifestRootA)
      = (false, true, true, false,
          "\n# nostromo [section begin]\neval \"$(nostromo completion)\"\n# nostromo [section end]\n") ∧
    runStartupFile ".zshrc" "" (some manifestRootA)
      = (false, true, true, false,
          "\n# nostromo [section begin]\neval \"$(nostromo completion)\"\n# nostromo [section end]\n") ∧
    runStartupFile ".profile" "export PATH=/usr/local/bin\nexport FOO=bar" (some manifestRootA)
      = (false, true, false, false, "export PATH=/usr/local/bin\nexport FOO=bar") ∧
    runStartupFile ".zshrc" "export PATH=/usr/local/bin\nexport FOO=bar" (some manifestRootA)
      = (false, true, true, false,
          "export PATH=/usr/local/bin\nexport FOO=bar\n# nostromo [section begin]\neval \"$(nostromo completion)\"\n# nostromo [section end]\n") :=
  ⟨rfl, rfl, rfl, rfl, rfl, rfl, rfl, rfl, rfl⟩

/-- The model passes the rows of `TestStartupFileCanCommit`. -/
theorem canCommit_test_rows :
    (commitFile "foo" true true).canCommit = true ∧
    (commitFile "foo" false true).canCommit = false ∧
    (commitFile "" false true).canCommit = false ∧
    (commitFile "" true true).canCommit = false ∧
    (commitFile "foo" true false).canCommit = true ∧
    (commitFile "foo" false false).canCommit = true ∧
    (commitFile "" false false).canCommit = true :=
  ⟨rfl, rfl, rfl, rfl, rfl, rfl, rfl⟩

namespace startupFile

theorem parse_malformed (f : startupFile)
    (h : ∃ b ∈ occurrences beginBlockComment f.content,
      ∀ e ∈ occurrences endBlockComment f.content, ¬ b < e) :
    f.parse = (some .ParseError, { f with pristine := false, state := .malformed }) := by
  obtain ⟨b, hb, he⟩ := h
  unfold parse
  split
  · rename_i h1 _
    rw [h1] at hb
    cases hb
  · rename_i b0 e0 h1 h2
    rw [h1] at hb
    rw [h2] at he
    have hb0 : b = b0 := by simpa using hb
    subst hb0
    rw [if_neg (he e0 (by simp))]
  · rfl

theorem apply_malformed (f : startupFile) (manifest : Option Manifest)
    (h : f.state = .malformed) :
    (f.apply manifest).1 ≠ none ∧ (f.apply manifest).2 = f := by
  unfold apply
  cases manifest with
  | none => simp
  | some m => simp [h]

end startupFile

/-! ### Traversal order of the roots -/

/-- The first hit of a search does not depend on the order of the list when all hits agree. -/
theorem findSome_order_free {α β : Type} (f : α → Option β) (l1 l2 : List α)
    (hmem : ∀ x, x ∈ l2 ↔ x ∈ l1)
    (hagree : ∀ x ∈ l1, ∀ y ∈ l1, ∀ a b, f x = some a → f y = some b → a = b) :
    l2.findSome? f = l1.findSome? f := by
  cases h1 : l1.findSome? f with
  | none =>
    rw [List.findSome?_eq_none_iff] at h1 ⊢
    intro x hx
    exact h1 x ((hmem x).mp hx)
  | some a =>
    obtain ⟨x, hx, hfx⟩ := List.exists_of_findSome?_eq_some h1
    cases h2 : l2.findSome? f with
    | none =>
      rw [List.findSome?_eq_none_iff] at h2
      rw [h2 x ((hmem x).mpr hx)] at hfx
      cases hfx
    | some b =>
      obtain ⟨y, hy, hfy⟩ := List.exists_of_findSome?_eq_some h2
      rw [hagree x hx y ((hmem y).mp hy) a b hfx hfy]

namespace Manifest

/-- The loop of `ExecutionString` returns what the first root that yields a key path gives, and
the error when there is none. -/
theorem ExecutionString_loop_eq (executionString : Command → List String → String)
    (args : List String) (roots : GoMap Command) :
    ExecutionString.loop executionString args roots
      = match roots.findSome? (fun kc => ExecutionString.visit executionString args kc.2) with
        | some r => r
        | none =>
          some ("", "", some ("unable to execute command '" ++ " ".intercalate args ++ "'")) := by
  induction roots with
  | nil => rfl
  | cons kc rest ih =>
    obtain ⟨k, cmd⟩ := kc
    unfold ExecutionString.loop
    simp only [List.findSome?_cons, ExecutionString.visit]
    by_cases h : (cmd.shortestKeyPath (KeyPath args)).length > 0
    · simp only [h, if_true]
    · simp only [h, if_false]
      exact ih

theorem visit_isSome_iff (executionString : Command → List String → String)
    (args : List String) (cmd : Command) (r : Option (String × String × Option String))
    (h : ExecutionString.visit executionString args cmd = some r) :
    cmd.shortestKeyPath (KeyPath args) ≠ "" := by
  unfold ExecutionString.visit at h
  by_cases hl : (cmd.shortestKeyPath (KeyPath args)).length > 0
  · exact (strLen_pos_iff _).mp hl
  · simp only [hl, if_false] at h
    cases h

end Manifest

/-! ### Well-formed manifests -/

namespace Command

@[simp] theorem parent_setCommands (c : Command) (cs : GoMap Command) :
    (c.setCommands cs).parent = c.parent := by
  cases c; rfl

@[simp] theorem parent_receive (c : Command) (command description : String)
    (code : Option Nostromo.Code) (aliasOnly : Bool) :
    (c.receive command description code aliasOnly).parent = c.parent := by
  cases c; rfl

@[simp] theorem parent_setParent (c : Command) (p : Option Ref) :
    (c.setParent p).parent = p := by
  cases c; rfl

@[simp] theorem Commands_receive (c : Command) (command description : String)
    (code : Option Nostromo.Code) (aliasOnly : Bool) :
    (c.receive command description code aliasOnly).Commands = c.Commands := by
  cases c; rfl

theorem parent_buildSegs (command description : String) (code : Option Nostromo.Code)
    (aliasOnly : Bool) (mode : String) (segs : List String) (self : Ref) (c : Command) :
    (buildSegs command description code aliasOnly mode segs self c).parent = c.parent := by
  cases segs <;> simp [buildSegs]

theorem wellFormed_eq (self : Ref) (c : Command) :
    c.wellFormed self = wellFormedIn (some self) self c.Commands := by
  cases c; rfl

theorem wellFormedIn_cons (parent : Option Ref) (pre : Ref) (k : String) (child : Command)
    (rest : GoMap Command) :
    wellFormedIn parent pre ((k, child) :: rest) = true ↔
      child.Alias = k ∧ child.parent = parent ∧ k ∉ GoMap.keys rest ∧
        child.wellFormed (pre ++ [k]) = true ∧ wellFormedIn parent pre rest = true := by
  simp [wellFormedIn]

theorem wellFormedIn_set (parent : Option Ref) (pre : Ref) (k : String) (v : Command) :
    ∀ cs : GoMap Command, wellFormedIn parent pre cs = true →
      v.Alias = k → v.parent = parent → v.wellFormed (pre ++ [k]) = true →
      wellFormedIn parent pre (GoMap.set cs k v) = true
  | [], _, ha, hp, hv => by
    rw [GoMap.set, wellFormedIn_cons]
    exact ⟨ha, hp, by simp [GoMap.keys], hv, rfl⟩
  | (k0, c0) :: rest, hwf, ha, hp, hv => by
    rw [wellFormedIn_cons] at hwf
    obtain ⟨h1, h2, h3, h4, h5⟩ := hwf
    unfold GoMap.set
    by_cases hk : k0 = k
    · rw [if_pos hk, wellFormedIn_cons]
      exact ⟨ha, hp, hk ▸ h3, hv, h5⟩
    · rw [if_neg hk, wellFormedIn_cons]
      refine ⟨h1, h2, ?_, h4, wellFormedIn_set parent pre k v rest h5 ha hp hv⟩
      rw [GoMap.mem_keys_set]
      rintro (h | h)
      · exact hk h
      · exact h3 h

theorem wellFormedIn_get (parent : Option Ref) (pre : Ref) :
    ∀ (cs : GoMap Command) (k : String) (c : Command), wellFormedIn parent pre cs = true →
      GoMap.get cs k = some c →
      c.Alias = k ∧ c.parent = parent ∧ c.wellFormed (pre ++ [k]) = true
  | [], _, _, _, h => by simp [GoMap.get] at h
  | (k0, c0) :: rest, k, c, hwf, h => by
    rw [wellFormedIn_cons] at hwf
    obtain ⟨h1, h2, _, h4, h5⟩ := hwf
    unfold GoMap.get at h
    by_cases hk : k0 = k
    · rw [if_pos hk] at h
      cases h
      subst hk
      exact ⟨h1, h2, h4⟩
    · rw [if_neg hk] at h
      exact wellFormedIn_get parent pre rest k c h5 h

theorem buildSegs_wellFormed (command description : String) (code : Option Nostromo.Code)
    (aliasOnly : Bool) (mode : String) (segs : List String) :
    ∀ (self : Ref) (c : Command), c.wellFormed self = true →
      (buildSegs command description code aliasOnly mode segs self c).wellFormed self = true := by
  induction segs with
  | nil =>
    intro self c h
    rw [wellFormed_eq] at h ⊢
    simpa [buildSegs] using h
  | cons seg segs ih =>
    intro self c h
    rw [wellFormed_eq] at h
    simp only [buildSegs]
    rw [wellFormed_eq, Commands_setCommands]
    cases hg : c.Commands.get seg with
    | some child =>
      obtain ⟨h1, h2, h3⟩ := wellFormedIn_get _ _ _ _ _ h hg
      exact wellFormedIn_set _ _ _ _ _ h (by rw [Alias_buildSegs]; exact h1)
        (by rw [parent_buildSegs]; exact h2) (ih _ _ h3)
    | none =>
      exact wellFormedIn_set _ _ _ _ _ h (by rw [Alias_buildSegs]; rfl)
        (by rw [parent_buildSegs]; rfl) (ih _ _ rfl)

end Command

theorem NewManifest_wellFormed (version : Option VersionInfo) :
    (NewManifest version).wellFormed = true := rfl

/-- `AddCommand` keeps a manifest linked and well formed. -/
theorem AddCommand_wellFormed (m : Manifest) (keyPath command description : String)
    (code : Option Code) (aliasOnly : Bool) (mode : String) (o : Outcome)
    (hwf : m.wellFormed = true)
    (ho : m.AddCommand keyPath command description code aliasOnly mode = some o) :
    o.manifest.wellFormed = true := by
  by_cases hlen : keyPath.length = 0
  · unfold Manifest.AddCommand at ho
    rw [if_pos hlen] at ho
    cases ho
    exact hwf
  · have hk : keyPath ≠ "" := fun h => hlen ((strLen_eq_zero_iff _).mpr h)
    obtain ⟨config, cs, hcfg, hcs⟩ :=
      AddCommand_some_inv m keyPath command description code aliasOnly mode o hk ho
    rw [AddCommand_eq m keyPath command description code aliasOnly mode config cs hcfg hcs,
      if_neg hlen] at ho
    have hwf : Command.wellFormedIn none [] cs = true := by
      rw [← Manifest.roots_of_some m cs hcs]; exact hwf
    by_cases hor : (config.AliasesOnly || aliasOnly) = true
    · rw [if_pos hor] at ho
      cases ho
      exact Command.wellFormedIn_set _ _ _ _ _ hwf rfl rfl rfl
    · rw [if_neg hor] at ho
      cases hK : Keys keyPath with
      | nil => exact absurd hK (Keys_ne_nil keyPath)
      | cons key rest =>
        simp only [hK] at ho
        cases hg : cs.get key with
        | none =>
          simp only [hg, Option.some.injEq] at ho
          subst ho
          refine Command.wellFormedIn_set _ _ _ _ _ hwf (by rw [Command.Alias_build]; rfl) ?_ ?_
          · simp only [Command.build, Command.parent_buildSegs]
            rfl
          · simp only [Command.build, Command.Alias_buildSegs]
            exact Command.buildSegs_wellFormed _ _ _ _ _ _ _ _ rfl
        | some cmd =>
          simp only [hg, Option.some.injEq] at ho
          subst ho
          obtain ⟨halias, hpar, hcwf⟩ := Command.wellFormedIn_get _ _ _ _ _ hwf hg
          refine Command.wellFormedIn_set _ _ _ _ _ hwf ?_ ?_ ?_
          · rw [Command.Alias_build]; exact halias
          · simp only [Command.build, Command.parent_buildSegs]; exact hpar
          · exact Command.buildSegs_wellFormed _ _ _ _ _ _ _ _ hcwf

/-- Every manifest built by `AddCommand` calls is linked and well formed. -/
theorem Reachable_wellFormed (m : Manifest) (h : Manifest.Reachable m) :
    m.wellFormed = true := by
  induction h with
  | start version => rfl
  | afterAddCommand m keyPath command description code aliasOnly mode o _ ho ih =>
    exact AddCommand_wellFormed m keyPath command description code aliasOnly mode o ih ho

/-! ### Where `Find` finds a command, and what `RemoveCommand` removes -/

namespace GoMap

variable {V : Type}

theorem delete_of_not_mem (m : GoMap V) (k : String) (h : k ∉ m.keys) : m.delete k = m := by
  induction m with
  | nil => rfl
  | cons p rest ih =>
    obtain ⟨k0, v0⟩ := p
    simp only [keys, List.map_cons, List.mem_cons, not_or] at h
    have h0 : ¬ k0 = k := fun e => h.1 e.symm
    simp only [delete, h0, if_false]
    rw [ih h.2]

theorem keys_set_of_mem (m : GoMap V) (k : String) (v : V) (h : k ∈ m.keys) :
    (m.set k v).keys = m.keys := by
  induction m with
  | nil => cases h
  | cons p rest ih =>
    obtain ⟨k0, v0⟩ := p
    by_cases h0 : k0 = k
    · simp [set, keys, h0]
    · have hr : k ∈ keys rest := by
        simp only [keys, List.map_cons, List.mem_cons] at h
        rcases h with h | h
        · exact absurd h.symm h0
        · exact h
      have := ih hr
      simp only [keys] at this
      simp [set, keys, h0, this]

end GoMap

theorem getAt_cons (cs : GoMap Command) (k : String) (ks : Ref) (h : ks ≠ []) :
    getAt cs (k :: ks) = (cs.get k).bind (fun c => getAt c.Commands ks) := by
  cases ks with
  | nil => exact absurd rfl h
  | cons k' ks' =>
    simp only [getAt]
    cases cs.get k <;> rfl

theorem getAt_head_mem (cs : GoMap Command) (pos : Ref) (c : Command)
    (h : getAt cs pos = some c) : ∃ k ks, pos = k :: ks ∧ k ∈ cs.keys := by
  cases pos with
  | nil => simp [getAt] at h
  | cons k ks =>
    refine ⟨k, ks, rfl, ?_⟩
    rw [← GoMap.get_isSome_iff]
    cases ks with
    | nil =>
      simp only [getAt] at h
      rw [h]; rfl
    | cons k' ks' =>
      simp only [getAt] at h
      cases hg : cs.get k with
      | none => simp [hg] at h
      | some c0 => rfl

theorem getAt_cons_ne (k0 : String) (c0 : Command) (rest : GoMap Command) (k : String)
    (ks : Ref) (h : k0 ≠ k) : getAt ((k0, c0) :: rest) (k :: ks) = getAt rest (k :: ks) := by
  cases ks with
  | nil => simp [getAt, GoMap.get, h]
  | cons k' ks' => simp [getAt, GoMap.get, h]

theorem eraseAt_cons_ne (a : String) (rel : Ref) (k0 : String) (c0 : Command)
    (rest : GoMap Command) (h : ∀ k ks, rel ++ [a] = k :: ks → k0 ≠ k) :
    eraseAt a rel ((k0, c0) :: rest) = (k0, c0) :: eraseAt a rel rest := by
  cases rel with
  | nil =>
    have h0 : k0 ≠ a := h a [] rfl
    simp [eraseAt, GoMap.delete, h0]
  | cons k ks =>
    have h0 : k0 ≠ k := h k (ks ++ [a]) rfl
    simp only [eraseAt, GoMap.get, h0, if_false]
    cases rest.get k with
    | none => rfl
    | some c => simp [GoMap.set, h0]

theorem updateAt_removeCommand (cmd : Command) :
    ∀ (p : Ref) (cs : GoMap Command), p ≠ [] →
      updateAt (fun o => o.removeCommand cmd) p cs = eraseAt cmd.Alias p cs
  | [], _, h => absurd rfl h
  | [k], cs, _ => by
    simp only [updateAt, eraseAt, Command.removeCommand]
  | k :: k' :: ks, cs, _ => by
    simp only [updateAt, eraseAt]
    cases cs.get k with
    | none => rfl
    | some c =>
      simp only []
      rw [updateAt_removeCommand cmd (k' :: ks) c.Commands (by simp)]
      simp only [eraseAt]

namespace Command

theorem findFrom_self (acc : String) (c : Command) : findFrom acc acc c = some c := by
  cases c
  simp [findFrom]

theorem findFrom_of_ne (acc keyPath : String) (c : Command) (h : acc ≠ keyPath) :
    findFrom acc keyPath c = findWith (fun a => KeyPath [acc, a]) keyPath c.Commands := by
  cases c with
  | mk n a d co cs ss ao mo p =>
    simp only [findFrom, h, if_false, Commands, findWith]
    induction cs with
    | nil => rfl
    | cons kc rest ih =>
      obtain ⟨k, child⟩ := kc
      simp only [findIn, List.findSome?_cons]
      cases findFrom (KeyPath [acc, child.Alias]) keyPath child with
      | some r => rfl
      | none => exact ih

theorem pathsFrom_eq (acc : String) (c : Command) :
    (nodesFrom acc c).map Prod.fst = acc :: pathsWith (fun a => KeyPath [acc, a]) c.Commands := by
  cases c with
  | mk n a d co cs ss ao mo p =>
    simp only [nodesFrom, List.map_cons, Commands, pathsWith]
    congr 1
    induction cs with
    | nil => rfl
    | cons kc rest ih =>
      obtain ⟨k, child⟩ := kc
      simp only [nodesIn, List.map_append, List.flatMap_cons]
      rw [ih]

end Command

theorem pathsWith_cons (accOf : String → String) (k : String) (c : Command)
    (rest : GoMap Command) :
    pathsWith accOf ((k, c) :: rest)
      = (Command.nodesFrom (accOf c.Alias) c).map Prod.fst ++ pathsWith accOf rest := by
  simp [pathsWith, List.flatMap_cons]

mutual
/-- In a well-formed tree, a command found strictly below `c` is found at a place that its parent
back-reference names. -/
theorem Command.found_below :
    ∀ (c : Command) (self : Ref) (acc keyPath : String) (cmd : Command),
      c.wellFormed self = true → acc ≠ keyPath → Command.findFrom acc keyPath c = some cmd →
      FoundAt (fun a => KeyPath [acc, a]) (some self) self keyPath cmd c.Commands
  | .mk n a d co cs ss ao mo p, self, acc, keyPath, cmd, hwf, hne, hf => by
    rw [Command.findFrom_of_ne acc keyPath _ hne] at hf
    exact found_in cs (fun a => KeyPath [acc, a]) (some self) self keyPath cmd hwf hf
/-- In a well-formed map, a command found by the search is found at a place that its parent
back-reference names. -/
theorem found_in :
    ∀ (cs : GoMap Command) (accOf : String → String) (parent : Option Ref) (pre : Ref)
      (keyPath : String) (cmd : Command),
      Command.wellFormedIn parent pre cs = true → findWith accOf keyPath cs = some cmd →
      FoundAt accOf parent pre keyPath cmd cs
  | [], _, _, _, _, _, _, hf => by simp [findWith] at hf
  | (k, child) :: rest, accOf, parent, pre, keyPath, cmd, hwf, hf => by
    rw [Command.wellFormedIn_cons] at hwf
    obtain ⟨halias, hpar, hknot, hcwf, hrwf⟩ := hwf
    simp only [findWith, List.findSome?_cons] at hf
    rw [halias] at hf
    cases hc : Command.findFrom (accOf k) keyPath child with
    | some r =>
      simp only [hc, Option.some.injEq] at hf
      subst hf
      by_cases hacc : accOf k = keyPath
      · -- the child itself is found
        rw [hacc, Command.findFrom_self] at hc
        cases hc
        refine ⟨[], ?_, ?_, ?_, [], (pathsWith (fun a => KeyPath [keyPath, a]) child.Commands),
          pathsWith accOf rest, ?_, ?_⟩
        · simpa using hpar
        · simp [getAt, GoMap.get, halias]
        · intro _; rw [halias]; exact hacc
        · rw [pathsWith_cons, halias, hacc, Command.pathsFrom_eq]
          simp
        · simp only [eraseAt, halias, GoMap.delete, if_true]
          rw [GoMap.delete_of_not_mem rest k hknot]
          simp
      · -- found below the child
        obtain ⟨rel, h1, h2, _, l1, blk, l2, h4, h5⟩ :=
          Command.found_below child (pre ++ [k]) (accOf k) keyPath r hcwf hacc hc
        refine ⟨k :: rel, ?_, ?_, ?_, accOf k :: l1, blk, l2 ++ pathsWith accOf rest, ?_, ?_⟩
        · rw [h1]
          by_cases hrel : rel = []
          · simp [hrel]
          · simp [hrel]
        · have hne : rel ++ [r.Alias] ≠ [] := by simp
          show getAt ((k, child) :: rest) (k :: (rel ++ [r.Alias])) = some r
          rw [getAt_cons _ _ _ hne]
          simp [GoMap.get, h2]
        · intro h; cases h
        · rw [pathsWith_cons, halias, Command.pathsFrom_eq, h4]
          simp
        · simp only [eraseAt, GoMap.get, if_true, GoMap.set]
          rw [pathsWith_cons, Command.Alias_setCommands, halias, Command.pathsFrom_eq,
            Command.Commands_setCommands, h5]
          simp
    | none =>
      simp only [hc] at hf
      obtain ⟨rel, h1, h2, h3, l1, blk, l2, h4, h5⟩ :=
        found_in rest accOf parent pre keyPath cmd hrwf hf
      have hhead : ∀ k1 ks, rel ++ [cmd.Alias] = k1 :: ks → k ≠ k1 := by
        intro k1 ks he hk
        obtain ⟨k2, ks2, he2, hmem⟩ := getAt_head_mem rest _ cmd h2
        rw [he] at he2
        cases he2
        exact hknot (hk ▸ hmem)
      refine ⟨rel, h1, ?_, h3,
        (Command.nodesFrom (accOf k) child).map Prod.fst ++ l1, blk, l2, ?_, ?_⟩
      · obtain ⟨k2, ks2, he2, _⟩ := getAt_head_mem rest _ cmd h2
        rw [he2] at h2 ⊢
        rw [getAt_cons_ne k child rest k2 ks2 (hhead k2 ks2 he2)]
        exact h2
      · rw [pathsWith_cons, halias, h4]
        simp
      · rw [eraseAt_cons_ne _ _ _ _ _ hhead, pathsWith_cons, halias, h5]
        simp
end

theorem Find_eq_findWith (m : Manifest) (keyPath : String) :
    m.Find keyPath = findWith (fun a => a) keyPath m.roots := rfl

theorem keyPaths_eq_pathsWith (m : Manifest) :
    m.keyPaths = pathsWith (fun a => a) m.roots := by
  simp only [Manifest.keyPaths, Manifest.nodes, pathsWith, Command.nodes, List.map_flatMap]

/-- On a well-formed manifest `RemoveCommand` erases the entry of the command that `Find` returns,
at the place its parent back-reference names. -/
theorem RemoveCommand_eq_eraseAt (m : Manifest) (keyPath : String) (cmd : Command)
    (hwf : m.wellFormed = true) (hf : m.Find keyPath = some cmd) :
    ∃ rel : Ref,
      cmd.parent = (if rel = [] then none else some rel) ∧
      getAt m.roots (rel ++ [cmd.Alias]) = some cmd ∧
      (m.RemoveCommand keyPath).manifest.roots = eraseAt cmd.Alias rel m.roots ∧
      ∃ l1 blk l2, m.keyPaths = l1 ++ keyPath :: blk ++ l2 ∧
        (m.RemoveCommand keyPath).manifest.keyPaths = l1 ++ l2 := by
  obtain ⟨rel, h1, h2, h3, l1, blk, l2, h4, h5⟩ :=
    found_in m.roots (fun a => a) none [] keyPath cmd hwf hf
  have hrm : (m.RemoveCommand keyPath).manifest.roots = eraseAt cmd.Alias rel m.roots := by
    by_cases hrel : rel = []
    · subst hrel
      have hp : cmd.parent = none := by simpa using h1
      have ha : cmd.Alias = keyPath := h3 rfl
      simp only [Manifest.RemoveCommand, hf, hp, eraseAt]
      rw [Manifest.roots_map m _ rfl, ha]
    · have hp : cmd.parent = some rel := by simpa [hrel] using h1
      simp only [Manifest.RemoveCommand, hf, hp]
      rw [Manifest.roots_map m _ (by cases rel with
        | nil => rfl
        | cons k ks => cases ks <;> rfl)]
      exact updateAt_removeCommand cmd rel m.roots hrel
  refine ⟨rel, by simpa using h1, h2, hrm, l1, blk, l2, ?_, ?_⟩
  · rw [keyPaths_eq_pathsWith, h4]
  · rw [keyPaths_eq_pathsWith, hrm, h5]

theorem getAt_eraseAt (a : String) :
    ∀ (p : Ref) (cs : GoMap Command), p ≠ [] →
      getAt (eraseAt a p cs) p
        = (getAt cs p).map (fun o => o.setCommands (o.Commands.delete a))
  | [], _, h => absurd rfl h
  | [k], cs, _ => by
    simp only [eraseAt, getAt]
    cases hg : cs.get k with
    | none => simp [hg]
    | some c => simp [GoMap.get_set_self]
  | k :: k' :: ks, cs, _ => by
    simp only [eraseAt, getAt]
    cases hg : cs.get k with
    | none => simp [hg]
    | some c =>
      simp only [GoMap.get_set_self, Command.Commands_setCommands]
      exact getAt_eraseAt a (k' :: ks) c.Commands (by simp)

theorem keys_eraseAt (a : String) (k : String) (ks : Ref) (cs : GoMap Command) :
    (eraseAt a (k :: ks) cs).keys = cs.keys := by
  simp only [eraseAt]
  cases hg : cs.get k with
  | none => rfl
  | some c =>
    exact GoMap.keys_set_of_mem cs k _ ((GoMap.get_isSome_iff cs k).mp (by rw [hg]; rfl))

theorem get_eraseAt_other (a : String) (k : String) (ks : Ref) (cs : GoMap Command)
    (k' : String) (h : k' ≠ k) : (eraseAt a (k :: ks) cs).get k' = cs.get k' := by
  simp only [eraseAt]
  cases hg : cs.get k with
  | none => rfl
  | some c => exact GoMap.get_set_other cs k k' _ h

/-- Erasing an entry below `p` prunes no command on the way to `p`. -/
theorem getAt_eraseAt_ancestor (a : String) :
    ∀ (p q : Ref) (cs : GoMap Command) (owner : Command), q ≠ [] → q <+: p →
      getAt cs p = some owner → (getAt (eraseAt a p cs) q).isSome = true
  | _, [], _, _, h, _, _ => absurd rfl h
  | [], k :: qs, _, _, _, hpre, _ => by simp at hpre
  | k1 :: ps, k :: qs, cs, owner, _, hpre, hg => by
    obtain ⟨hk, hqs⟩ : k = k1 ∧ qs <+: ps := by
      simpa [List.cons_prefix_cons] using hpre
    subst hk
    cases hc : cs.get k with
    | none =>
      cases ps with
      | nil => simp [getAt, hc] at hg
      | cons k' ps' => simp [getAt, hc] at hg
    | some c =>
      simp only [eraseAt, hc]
      cases qs with
      | nil => simp [getAt, GoMap.get_set_self]
      | cons k2 qs2 =>
        cases ps with
        | nil => simp at hqs
        | cons k' ps' =>
          simp only [getAt, GoMap.get_set_self, Command.Commands_setCommands]
          simp only [getAt, hc] at hg
          exact getAt_eraseAt_ancestor a (k' :: ps') (k2 :: qs2) c.Commands owner (by simp) hqs hg

/-- The owner of the command at a place below the top of the map. -/
theorem getAt_owner (a : String) (cmd : Command) :
    ∀ (rel : Ref) (cs : GoMap Command), rel ≠ [] → getAt cs (rel ++ [a]) = some cmd →
      ∃ owner, getAt cs rel = some owner ∧ owner.Commands.get a = some cmd
  | [], _, h, _ => absurd rfl h
  | [k], cs, _, hg => by
    simp only [List.cons_append, List.nil_append, getAt] at hg ⊢
    cases hc : cs.get k with
    | none => simp [hc] at hg
    | some c =>
      simp only [hc] at hg
      exact ⟨c, rfl, hg⟩
  | k :: k' :: ks, cs, _, hg => by
    simp only [List.cons_append, getAt] at hg ⊢
    cases hc : cs.get k with
    | none => simp [hc] at hg
    | some c =>
      simp only [hc] at hg ⊢
      exact getAt_owner a cmd (k' :: ks) c.Commands (by simp) hg

theorem count_le_one_split (kp : String) (l1 blk l2 : List String)
    (h : (l1 ++ kp :: blk ++ l2).count kp ≤ 1) : kp ∉ l1 ++ l2 := by
  intro hmem
  have hpos : 0 < (l1 ++ l2).count kp := List.count_pos_iff.mpr hmem
  simp only [List.count_append, List.count_cons_self] at h hpos
  omega

/-! ### Writing a substitution list through the pointer that `Find` returns -/

namespace Command

@[simp] theorem Alias_setSubstitutions (c : Command) (ss : List Substitution) :
    (c.setSubstitutions ss).Alias = c.Alias := by
  cases c; rfl

@[simp] theorem Commands_setSubstitutions (c : Command) (ss : List Substitution) :
    (c.setSubstitutions ss).Commands = c.Commands := by
  cases c; rfl

@[simp] theorem Substitutions_setSubstitutions (c : Command) (ss : List Substitution) :
    (c.setSubstitutions ss).Substitutions = ss := by
  cases c; rfl

theorem withoutSubstitutions_setSubstitutions (c : Command) (ss : List Substitution) :
    (c.setSubstitutions ss).withoutSubstitutions = c.withoutSubstitutions := by
  cases c; rfl

theorem substitutionsFrom_eq (c : Command) :
    substitutionsFrom c = c.Substitutions :: substitutionsIn c.Commands := by
  cases c; rfl

theorem Alias_writeFrom (g : List Substitution → List Substitution) (acc keyPath : String)
    (c : Command) :
    (writeFrom (fun x => x.setSubstitutions (g x.Substitutions)) acc keyPath c).Alias
      = c.Alias := by
  cases c
  simp only [writeFrom]
  split
  · simp
  · rfl

mutual
theorem withoutSubstitutions_writeFrom (g : List Substitution → List Substitution)
    (keyPath : String) :
    ∀ (c : Command) (acc : String),
      (writeFrom (fun x => x.setSubstitutions (g x.Substitutions)) acc keyPath
        c).withoutSubstitutions = c.withoutSubstitutions
  | mk n a d co cs ss ao mo p, acc => by
    simp only [writeFrom]
    split
    · exact withoutSubstitutions_setSubstitutions _ _
    · simp only [withoutSubstitutions]
      rw [withoutSubstitutions_writeWith g keyPath cs]
theorem withoutSubstitutions_writeWith (g : List Substitution → List Substitution)
    (keyPath : String) :
    ∀ (cs : GoMap Command) (accOf : String → String),
      withoutSubstitutionsIn
        (writeWith (fun x => x.setSubstitutions (g x.Substitutions)) accOf keyPath cs)
        = withoutSubstitutionsIn cs
  | [], _ => rfl
  | (k, child) :: rest, accOf => by
    simp only [writeWith]
    split
    · simp only [withoutSubstitutionsIn]
      rw [withoutSubstitutions_writeFrom g keyPath child]
    · simp only [withoutSubstitutionsIn]
      rw [withoutSubstitutions_writeWith g keyPath rest]
end

mutual
theorem findFrom_writeFrom (g : List Substitution → List Substitution) (keyPath : String) :
    ∀ (c : Command) (acc : String),
      findFrom acc keyPath
          (writeFrom (fun x => x.setSubstitutions (g x.Substitutions)) acc keyPath c)
        = (findFrom acc keyPath c).map (fun x => x.setSubstitutions (g x.Substitutions))
  | mk n a d co cs ss ao mo p, acc => by
    by_cases hacc : acc = keyPath
    · subst hacc
      simp only [writeFrom, if_true, findFrom_self, Option.map_some']
    · rw [findFrom_of_ne _ _ _ hacc, findFrom_of_ne _ _ _ hacc]
      simp only [writeFrom, hacc, if_false, Commands]
      exact findWith_writeWith g keyPath cs _
theorem findWith_writeWith (g : List Substitution → List Substitution) (keyPath : String) :
    ∀ (cs : GoMap Command) (accOf : String → String),
      findWith accOf keyPath
          (writeWith (fun x => x.setSubstitutions (g x.Substitutions)) accOf keyPath cs)
        = (findWith accOf keyPath cs).map (fun x => x.setSubstitutions (g x.Substitutions))
  | [], _ => rfl
  | (k, child) :: rest, accOf => by
    simp only [writeWith]
    cases hc : findFrom (accOf child.Alias) keyPath child with
    | some r =>
      simp only [Option.isSome_some, if_true, findWith, List.findSome?_cons]
      rw [Alias_writeFrom, findFrom_writeFrom g keyPath child, hc]
      rfl
    | none =>
      simp only [Option.isSome_none, Bool.false_eq_true, if_false, findWith,
        List.findSome?_cons, hc]
      exact findWith_writeWith g keyPath rest accOf
end

mutual
theorem substitutionsFrom_writeFrom (g : List Substitution → List Substitution)
    (keyPath : String) :
    ∀ (c : Command) (acc : String) (cmd : Command), findFrom acc keyPath c = some cmd →
      ∃ pre post, substitutionsFrom c = pre ++ cmd.Substitutions :: post ∧
        substitutionsFrom
            (writeFrom (fun x => x.setSubstitutions (g x.Substitutions)) acc keyPath c)
          = pre ++ g cmd.Substitutions :: post
  | mk n a d co cs ss ao mo p, acc, cmd, hf => by
    by_cases hacc : acc = keyPath
    · subst hacc
      rw [findFrom_self] at hf
      cases hf
      refine ⟨[], substitutionsIn cs, rfl, ?_⟩
      simp only [writeFrom, if_true]
      rfl
    · rw [findFrom_of_ne _ _ _ hacc] at hf
      obtain ⟨pre, post, h1, h2⟩ := substitutionsIn_writeWith g keyPath cs _ cmd hf
      refine ⟨ss :: pre, post, ?_, ?_⟩
      · simp only [substitutionsFrom, h1, List.cons_append]
      · simp only [writeFrom, hacc, if_false, substitutionsFrom, h2, List.cons_append]
theorem substitutionsIn_writeWith (g : List Substitution → List Substitution)
    (keyPath : String) :
    ∀ (cs : GoMap Command) (accOf : String → String) (cmd : Command),
      findWith accOf keyPath cs = some cmd →
      ∃ pre post, substitutionsIn cs = pre ++ cmd.Substitutions :: post ∧
        substitutionsIn
            (writeWith (fun x => x.setSubstitutions (g x.Substitutions)) accOf keyPath cs)
          = pre ++ g cmd.Substitutions :: post
  | [], _, _, hf => by simp [findWith] at hf
  | (k, child) :: rest, accOf, cmd, hf => by
    simp only [findWith, List.findSome?_cons] at hf
    simp only [writeWith]
    cases hc : findFrom (accOf child.Alias) keyPath child with
    | some r =>
      simp only [hc, Option.some.injEq] at hf
      subst hf
      obtain ⟨pre, post, h1, h2⟩ := substitutionsFrom_writeFrom g keyPath child _ r hc
      refine ⟨pre, post ++ substitutionsIn rest, ?_, ?_⟩
      · simp only [substitutionsIn, h1, List.append_assoc, List.cons_append]
      · simp only [Option.isSome_some, if_true, substitutionsIn, h2, List.append_assoc,
          List.cons_append]
    | none =>
      simp only [hc] at hf
      obtain ⟨pre, post, h1, h2⟩ := substitutionsIn_writeWith g keyPath rest accOf cmd hf
      refine ⟨substitutionsFrom child ++ pre, post, ?_, ?_⟩
      · simp only [substitutionsIn, h1, List.append_assoc]
      · simp only [Option.isSome_none, Bool.false_eq_true, if_false, substitutionsIn, h2,
          List.append_assoc]
end

end Command

/-- What a write of a substitution list through the pointer of `Find` changes. -/
theorem writeFound_substitutions (g : List Substitution → List Substitution) (m : Manifest)
    (keyPath : String) (cmd : Command) (hf : m.Find keyPath = some cmd) :
    (m.writeFound (fun x => x.setSubstitutions (g x.Substitutions))
        keyPath).withoutSubstitutions = m.withoutSubstitutions ∧
    (m.writeFound (fun x => x.setSubstitutions (g x.Substitutions)) keyPath).Find keyPath
      = some (cmd.setSubstitutions (g cmd.Substitutions)) ∧
    ∃ pre post, m.substitutionLists = pre ++ cmd.Substitutions :: post ∧
      (m.writeFound (fun x => x.setSubstitutions (g x.Substitutions))
          keyPath).substitutionLists = pre ++ g cmd.Substitutions :: post := by
  refine ⟨?_, ?_, ?_⟩
  · cases hc : m.Commands <;>
      simp [Manifest.writeFound, Manifest.withoutSubstitutions, hc,
        Command.withoutSubstitutions_writeWith]
  · rw [Find_eq_findWith] at hf ⊢
    simp only [Manifest.writeFound]
    rw [Manifest.roots_map m _ rfl, Command.findWith_writeWith, hf]
    rfl
  · rw [Find_eq_findWith] at hf
    simp only [Manifest.substitutionLists, Manifest.writeFound]
    rw [Manifest.roots_map m _ rfl]
    exact Command.substitutionsIn_writeWith g keyPath m.roots _ cmd hf

/-! ### A well-formed manifest is linked -/

namespace Command

mutual
theorem link_of_wellFormed :
    ∀ (c : Command) (self : Ref), c.wellFormed self = true →
      link c.parent self c = c
  | mk n a d co cs ss ao mo p, self, h => by
    simp only [link, parent]
    rw [linkIn_of_wellFormedIn cs self h]
theorem linkIn_of_wellFormedIn :
    ∀ (cs : GoMap Command) (owner : Ref), wellFormedIn (some owner) owner cs = true →
      linkIn owner cs = cs
  | [], _, _ => rfl
  | (k, child) :: rest, owner, h => by
    rw [wellFormedIn_cons] at h
    obtain ⟨_, hp, _, hc, hr⟩ := h
    simp only [linkIn]
    have := link_of_wellFormed child (owner ++ [k]) hc
    rw [hp] at this
    rw [this, linkIn_of_wellFormedIn rest owner hr]
end

end Command

theorem linkRoots_of_wellFormedIn :
    ∀ cs : GoMap Command, Command.wellFormedIn none [] cs = true →
      cs.map (fun kc => (kc.1, kc.2.link none [kc.1])) = cs
  | [], _ => rfl
  | (k, c) :: rest, h => by
    rw [Command.wellFormedIn_cons] at h
    obtain ⟨_, hp, _, hc, hr⟩ := h
    have := Command.link_of_wellFormed c ([] ++ [k]) hc
    rw [hp] at this
    simp only [List.map_cons, List.nil_append] at this ⊢
    rw [this, linkRoots_of_wellFormedIn rest hr]

/-- A well-formed manifest is linked: `Link` changes nothing. -/
theorem Link_of_wellFormed (m : Manifest) (h : m.wellFormed = true) : m.Link = m := by
  cases m with
  | mk n v c cs =>
    cases cs with
    | none => rfl
    | some cs =>
      have h1 := linkRoots_of_wellFormedIn cs h
      simp only [Manifest.Link, Option.map_some', h1]

/-! ### Entries of a map without repeated keys -/

namespace GoMap

variable {V : Type}

/-- What a map holds under a key is one of its entries. -/
theorem mem_of_get (m : GoMap V) (k : String) (v : V) (h : m.get k = some v) : (k, v) ∈ m := by
  induction m with
  | nil => cases h
  | cons kv rest ih =>
    obtain ⟨k0, v0⟩ := kv
    unfold get at h
    by_cases hk : k0 = k
    · rw [if_pos hk] at h
      cases h
      rw [hk]
      exact List.mem_cons_self _ _
    · rw [if_neg hk] at h
      exact List.mem_cons_of_mem _ (ih h)

/-- In a map that holds no key twice, an entry is what the map holds under its key. -/
theorem get_of_mem (m : GoMap V) (k : String) (v : V) (hd : m.keys.Nodup) (h : (k, v) ∈ m) :
    m.get k = some v := by
  induction m with
  | nil => cases h
  | cons kv rest ih =>
    obtain ⟨k0, v0⟩ := kv
    have hd1 : k0 ∉ keys rest ∧ (keys rest).Nodup := by
      simpa [keys] using hd
    unfold get
    rcases List.mem_cons.mp h with he | hr
    · cases he
      rw [if_pos rfl]
    · have hne : ¬ k0 = k := by
        intro e
        apply hd1.1
        rw [e]
        exact List.mem_map.mpr ⟨(k, v), hr, rfl⟩
      rw [if_neg hne]
      exact ih hd1.2 hr

/-- Two maps without repeated keys and with the same entries hold the same under every key,
whatever the order of their entries. -/
theorem get_congr (m1 m2 : GoMap V) (h1 : m1.keys.Nodup) (h2 : m2.keys.Nodup)
    (h : ∀ e, e ∈ m2 ↔ e ∈ m1) (k : String) : m2.get k = m1.get k := by
  cases hg : m1.get k with
  | some v => exact get_of_mem m2 k v h2 ((h _).mpr (mem_of_get m1 k v hg))
  | none =>
    cases hg2 : m2.get k with
    | none => rfl
    | some v =>
      have := get_of_mem m1 k v h1 ((h _).mp (mem_of_get m2 k v hg2))
      rw [hg] at this
      cases this

end GoMap

/-! ## The claims -/

/-- C1, as stated, fails: after `AddCommand("a.b", "old", ...)` in tree mode and
`AddCommand("a.b", "new", ...)` in alias-only mode, both without error, the key path `a.b` names
the child `b` of the root `a` and the flat root `a.b`; `Find("a.b")`, visiting the root `a` first,
returns the command named "old", not the one just added. It fails as well on a manifest whose
root is stored under a key that is not its alias: there `Find` does not find what was added. -/
theorem AddCommand_Find_ambiguous :
    (∃ o1 o2 c,
      (NewManifest none).AddCommand "a.b" "old" "" none false "" = some o1 ∧ o1.err = none ∧
      o1.manifest.AddCommand "a.b" "new" "" none true "" = some o2 ∧ o2.err = none ∧
      o2.manifest.roots.keys = ["a", "a.b"] ∧
      o2.manifest.Find "a.b" = some c ∧ c.Name = "old" ∧ c.Name ≠ "new") ∧
    (∃ o, manifestMiskeyed.AddCommand "a.b" "new" "" none false "" = some o ∧ o.err = none ∧
      o.manifest.Find "a.b" = none) :=
  ⟨⟨_, _, _, rfl, rfl, rfl, rfl, rfl, rfl, rfl, by decide⟩, ⟨_, rfl, rfl, rfl⟩⟩

/-- C1, amended: on a manifest whose commands are all stored under their own alias, after
`AddCommand` on a non-empty key path returns without error, and provided the key path then names
no two different commands of the manifest, `Find(keyPath)` returns a command with the name, the
description and the code passed to `AddCommand`, in whatever order the roots are visited. -/
theorem AddCommand_then_Find (m : Manifest) (keyPath command description : String)
    (code : Option Code) (aliasOnly : Bool) (mode : String) (o : Outcome)
    (hk : keyPath ≠ "") (hwf : m.aliasKeyed = true)
    (ho : m.AddCommand keyPath command description code aliasOnly mode = some o)
    (hu : ∀ c1 c2, (keyPath, c1) ∈ o.manifest.nodes → (keyPath, c2) ∈ o.manifest.nodes →
      c1 = c2) :
    o.err = none ∧
    ∃ c, o.manifest.Find keyPath = some c ∧
      c.Name = command ∧ c.Description = description ∧ c.Code = code ∧
      ∀ e : GoMap Command, (∀ kc, kc ∈ e ↔ kc ∈ o.manifest.roots) →
        Manifest.Find { o.manifest with Commands := some e } keyPath = some c := by
  obtain ⟨kc, hkc, w, hw, hn, hd, hc⟩ :=
    AddCommand_node m keyPath command description code aliasOnly mode o hk hwf ho
  have hwm : (keyPath, w) ∈ o.manifest.nodes :=
    List.mem_flatMap.mpr ⟨kc, hkc, hw⟩
  have hfind : ∀ e : GoMap Command, (∀ kc, kc ∈ e ↔ kc ∈ o.manifest.roots) →
      Manifest.Find { o.manifest with Commands := some e } keyPath = some w := by
    intro e he
    have hsome := findSome_isSome_of_node e keyPath kc w ((he kc).mpr hkc) hw
    cases hr : e.findSome? (fun kc => kc.2.find keyPath) with
    | none => rw [hr] at hsome; cases hsome
    | some r =>
      obtain ⟨kc1, hkc1, hr1⟩ := findSome_mem_nodes e keyPath r hr
      have hrm : (keyPath, r) ∈ o.manifest.nodes :=
        List.mem_flatMap.mpr ⟨kc1, (he kc1).mp hkc1, hr1⟩
      rw [hu r w hrm hwm] at hr
      exact hr
  refine ⟨?_, w, hfind o.manifest.roots (fun _ => Iff.rfl), hn, hd, hc, hfind⟩
  obtain ⟨config, cs, hcfg, hcs⟩ :=
    AddCommand_some_inv m keyPath command description code aliasOnly mode o hk ho
  obtain ⟨o1, ho1, he1⟩ :=
    AddCommand_nonempty_ok m keyPath command description code aliasOnly mode config cs hk
      hcfg hcs
  rw [ho] at ho1
  cases ho1
  exact he1

/-- An instance of the amended C1: the command `a.c` added to the unlinked sample manifest. -/
theorem AddCommand_then_Find_witness :
    manifestUnlinked.AddCommand "a.c" "ls" "list" none false "" = some outcomeAddAC ∧
    outcomeAddAC.err = none ∧
    ∃ c, outcomeAddAC.manifest.Find "a.c" = some c ∧
      c.Name = "ls" ∧ c.Description = "list" ∧ c.Code = none ∧
      ∀ e : GoMap Command, (∀ kc, kc ∈ e ↔ kc ∈ outcomeAddAC.manifest.roots) →
        Manifest.Find { outcomeAddAC.manifest with Commands := some e } "a.c" = some c :=
  ⟨rfl, AddCommand_then_Find manifestUnlinked "a.c" "ls" "list" none false "" outcomeAddAC
    (by decide) rfl rfl (by
      intro c1 c2 h1 h2
      simp [Manifest.nodes, Manifest.roots, outcomeAddAC, manifestUnlinked, Command.nodes,
        Command.nodesFrom,
        Command.nodesIn, KeyPath, Command.Alias] at h1 h2
      rw [h1, h2])⟩

/-- C2, as stated, fails: on the non-empty key path `a` the call does not return at all, neither
with nor without an error, when the manifest has no config (nil pointer, read by
`m.Config.Mode` and `m.Config.AliasesOnly`) or no root map (nil map, written by
`m.Commands[cmd.Alias] = cmd`): it panics, in alias-only and in tree mode. -/
theorem AddCommand_nil_manifest_panics :
    manifestZero.Config = none ∧ manifestNoMap.Commands = none ∧ "a" ≠ "" ∧
    manifestZero.AddCommand "a" "ls" "" none false "" = none ∧
    manifestZero.AddCommand "a" "ls" "" none true "concatenate" = none ∧
    manifestNoMap.AddCommand "a" "ls" "" none true "" = none ∧
    manifestNoMap.AddCommand "a" "ls" "" none false "" = none ∧
    ¬ ∃ o, manifestZero.AddCommand "a" "ls" "" none false "" = some o ∧ o.err = none :=
  ⟨rfl, rfl, by decide, rfl, rfl, rfl, rfl, fun ⟨_, h, _⟩ => Option.noConfusion h⟩

/-- C2, amended: `AddCommand` returns an error exactly on the empty key path: there it returns
false with the error "invalid key path" and the manifest as it was, whatever the manifest and the
other arguments are. On a non-empty key path it returns, and then without error, exactly when the
manifest has a config and a root map; without one of them it panics. -/
theorem AddCommand_fails_iff_empty (m : Manifest) (keyPath command description : String)
    (code : Option Code) (aliasOnly : Bool) (mode : String) :
    (keyPath = "" →
      m.AddCommand keyPath command description code aliasOnly mode
        = some { flag := false, err := some "invalid key path", manifest := m }) ∧
    (keyPath ≠ "" → m.Config ≠ none → m.Commands ≠ none →
      ∃ o, m.AddCommand keyPath command description code aliasOnly mode = some o ∧
        o.err = none) ∧
    (keyPath ≠ "" → (m.Config = none ∨ m.Commands = none) →
      m.AddCommand keyPath command description code aliasOnly mode = none) ∧
    ((∃ o e, m.AddCommand keyPath command description code aliasOnly mode = some o ∧
        o.err = some e) ↔ keyPath = "") := by
  have hempty : keyPath = "" →
      m.AddCommand keyPath command description code aliasOnly mode
        = some { flag := false, err := some "invalid key path", manifest := m } := by
    rintro rfl
    simp [Manifest.AddCommand]
  have hne : keyPath ≠ "" → m.Config ≠ none → m.Commands ≠ none →
      ∃ o, m.AddCommand keyPath command description code aliasOnly mode = some o ∧
        o.err = none := by
    intro hk hc hcs
    obtain ⟨config, hc1⟩ := Option.ne_none_iff_exists'.mp hc
    obtain ⟨cs, hcs1⟩ := Option.ne_none_iff_exists'.mp hcs
    exact AddCommand_nonempty_ok m keyPath command description code aliasOnly mode config cs hk
      hc1 hcs1
  refine ⟨hempty, hne, AddCommand_nil m keyPath command description code aliasOnly mode, ?_, ?_⟩
  · rintro ⟨o, e, ho, he⟩
    by_contra hk
    obtain ⟨config, cs, hc, hcs⟩ :=
      AddCommand_some_inv m keyPath command description code aliasOnly mode o hk ho
    obtain ⟨o1, ho1, he1⟩ :=
      AddCommand_nonempty_ok m keyPath command description code aliasOnly mode config cs hk
        hc hcs
    rw [ho] at ho1
    cases ho1
    rw [he] at he1
    cases he1
  · intro hk
    exact ⟨_, _, hempty hk, rfl⟩

/-- An instance of the amended C2: on a new manifest the key path `a` is added without error and
the empty key path is refused; on the manifest without root map the key path `a` panics. -/
theorem AddCommand_fails_iff_empty_witness :
    (∃ o, (NewManifest none).AddCommand "a" "ls" "" none false "" = some o ∧ o.err = none) ∧
    (NewManifest none).AddCommand "" "ls" "" none false ""
      = some { flag := false, err := some "invalid key path", manifest := NewManifest none } ∧
    manifestNoMap.AddCommand "a" "ls" "" none false "" = none :=
  ⟨(AddCommand_fails_iff_empty (NewManifest none) "a" "ls" "" none false "").2.1
      (by decide) (fun h => Option.noConfusion h) (fun h => Option.noConfusion h),
    (AddCommand_fails_iff_empty (NewManifest none) "" "ls" "" none false "").1 rfl,
    (AddCommand_fails_iff_empty manifestNoMap "a" "ls" "" none false "").2.2.1
      (by decide) (Or.inr rfl)⟩

/-- C3, as stated, fails: adding the alias `a` in alias-only mode to a manifest that already has
the root `a` returns (true, nil) but overwrites that root, so the root map does not grow; and on
a manifest without root map the call returns nothing: the write to the nil map panics. -/
theorem AddCommand_aliasOnly_overwrites :
    (∃ o, manifestRootA.AddCommand "a" "new" "" none true "" = some o ∧
      o.flag = true ∧ o.err = none ∧
      ¬ (o.manifest.roots.length = manifestRootA.roots.length + 1)) ∧
    manifestNoMap.AddCommand "a" "new" "" none true "" = none :=
  ⟨⟨_, rfl, rfl, rfl, by decide⟩, rfl⟩

/-- C3, amended: on a manifest that has a config and a root map, in alias-only mode (by config or
by argument) `AddCommand` on a non-empty key path returns (true, nil); afterwards the root map,
still not nil, holds under the whole key path a new root with the given fields and no children;
every other key maps to what it mapped to before; the map has one entry more if the key path was
no root key before, and as many as before otherwise. -/
theorem AddCommand_aliasOnly_flat_root (m : Manifest) (keyPath command description : String)
    (code : Option Code) (aliasOnly : Bool) (mode : String) (config : Config)
    (cs : GoMap Command)
    (hk : keyPath ≠ "") (hc : m.Config = some config) (hcs : m.Commands = some cs)
    (ha : config.AliasesOnly = true ∨ aliasOnly = true) :
    ∃ cmd m1,
      m.AddCommand keyPath command description code aliasOnly mode
        = some { flag := true, err := none, manifest := m1 } ∧
      m1.roots.get keyPath = some cmd ∧
      cmd.Alias = keyPath ∧ cmd.Name = command ∧ cmd.Description = description ∧
      cmd.Code = code ∧ cmd.Commands = [] ∧
      (∀ k, k ≠ keyPath → m1.roots.get k = m.roots.get k) ∧
      m1.roots.length
        = (if keyPath ∈ m.roots.keys then m.roots.length else m.roots.length + 1) ∧
      m1.Config = m.Config ∧ m1.Commands ≠ none := by
  have hlen : ¬ keyPath.length = 0 := fun h => hk ((strLen_eq_zero_iff _).mp h)
  have hor : (config.AliasesOnly || aliasOnly) = true := by
    rcases ha with h | h <;> simp [h]
  have hroots : m.roots = cs := Manifest.roots_of_some m cs hcs
  refine ⟨newCommand command keyPath description code true
      (if mode.length = 0 then config.Mode.String else mode),
    { m with Commands := some (cs.set keyPath (newCommand command keyPath description code true
      (if mode.length = 0 then config.Mode.String else mode))) }, ?_, ?_⟩
  · rw [AddCommand_eq m keyPath command description code aliasOnly mode config cs hc hcs,
      if_neg hlen, if_pos hor]
  · rw [hroots]
    refine ⟨GoMap.get_set_self _ _ _, rfl, rfl, rfl, rfl, rfl, ?_, ?_, rfl, ?_⟩
    · intro k hkk
      exact GoMap.get_set_other _ _ _ _ hkk
    · exact GoMap.length_set _ _ _
    · intro h
      cases h

/-- An instance of the amended C3: the alias `git.status` added to a new manifest. -/
theorem AddCommand_aliasOnly_flat_root_witness :
    ∃ cmd m1,
      (NewManifest none).AddCommand "git.status" "git status" "" none true ""
        = some { flag := true, err := none, manifest := m1 } ∧
      m1.roots.get "git.status" = some cmd ∧
      cmd.Alias = "git.status" ∧ cmd.Name = "git status" ∧ cmd.Description = "" ∧
      cmd.Code = none ∧ cmd.Commands = [] ∧
      (∀ k, k ≠ "git.status" → m1.roots.get k = (NewManifest none).roots.get k) ∧
      m1.roots.length
        = (if "git.status" ∈ (NewManifest none).roots.keys
            then (NewManifest none).roots.length
            else (NewManifest none).roots.length + 1) ∧
      m1.Config = (NewManifest none).Config ∧ m1.Commands ≠ none :=
  AddCommand_aliasOnly_flat_root (NewManifest none) "git.status" "git status" "" none true ""
    NewConfig [] (by decide) rfl rfl (Or.inr rfl)

/-- C4, as stated, fails: the manifest without root map has a config whose alias-only flag is
off, and no root is keyed by `a`; `AddCommand("a.b", ...)` in tree mode does not return true: the
write of the placeholder root to the nil map panics. -/
theorem AddCommand_tree_nil_map_panics :
    (∃ config, manifestNoMap.Config = some config ∧ config.AliasesOnly = false) ∧
    "a.b" ≠ "" ∧ (Keys "a.b").head? = some "a" ∧ "a" ∉ manifestNoMap.roots.keys ∧
    manifestNoMap.AddCommand "a.b" "ls" "" none false "" = none ∧
    ¬ ∃ o, manifestNoMap.AddCommand "a.b" "ls" "" none false "" = some o ∧ o.flag = true :=
  ⟨⟨_, rfl, rfl⟩, by decide, by decide, by decide, rfl, fun ⟨_, h, _⟩ => Option.noConfusion h⟩

/-- C4, amended: on a manifest that has a root map and a config whose alias-only flag is off,
`AddCommand` in tree mode (`aliasOnly=false`) on a non-empty key path returns without error, and
returns true exactly when the first segment of the key path was no root key before; afterwards
the first segment is a root key, and every other key maps to what it mapped to before (so every
other root present before is still present, unchanged). -/
theorem AddCommand_tree_root_flag (m : Manifest) (keyPath command description : String)
    (code : Option Code) (mode : String) (config : Config) (cs : GoMap Command)
    (hk : keyPath ≠ "") (hcfg : m.Config = some config) (hcs : m.Commands = some cs)
    (hc : config.AliasesOnly = false) :
    ∃ key o, (Keys keyPath).head? = some key ∧
      m.AddCommand keyPath command description code false mode = some o ∧
      o.err = none ∧
      (o.flag = true ↔ key ∉ m.roots.keys) ∧
      key ∈ o.manifest.roots.keys ∧
      (∀ k, k ≠ key → o.manifest.roots.get k = m.roots.get k) ∧
      (∀ k, k ≠ key → (k ∈ o.manifest.roots.keys ↔ k ∈ m.roots.keys)) := by
  have hlen : ¬ keyPath.length = 0 := fun h => hk ((strLen_eq_zero_iff _).mp h)
  have hroots : m.roots = cs := Manifest.roots_of_some m cs hcs
  rw [hroots]
  obtain ⟨key, rest, hK⟩ : ∃ key rest, Keys keyPath = key :: rest := by
    cases h : Keys keyPath with
    | nil => exact absurd h (Keys_ne_nil keyPath)
    | cons key rest => exact ⟨key, rest, rfl⟩
  have hhead : (Keys keyPath).head? = some key := by rw [hK]; rfl
  have hfrom : ∀ (flag : Bool) (built : Command),
      m.AddCommand keyPath command description code false mode
        = some { flag := flag, err := none,
                 manifest := { m with Commands := some (cs.set key built) } } →
      (flag = true ↔ key ∉ cs.keys) →
      ∃ key o, (Keys keyPath).head? = some key ∧
        m.AddCommand keyPath command description code false mode = some o ∧
        o.err = none ∧
        (o.flag = true ↔ key ∉ cs.keys) ∧
        key ∈ o.manifest.roots.keys ∧
        (∀ k, k ≠ key → o.manifest.roots.get k = cs.get k) ∧
        (∀ k, k ≠ key → (k ∈ o.manifest.roots.keys ↔ k ∈ cs.keys)) := by
    intro flag built ho hf
    refine ⟨key, _, hhead, ho, rfl, hf, ?_, ?_, ?_⟩
    · rw [← GoMap.get_isSome_iff]
      show ((cs.set key built).get key).isSome = true
      rw [GoMap.get_set_self]
      rfl
    · intro k hkk
      exact GoMap.get_set_other _ _ _ _ hkk
    · intro k hkk
      rw [← GoMap.get_isSome_iff, ← GoMap.get_isSome_iff]
      show ((cs.set key built).get k).isSome = true ↔ _
      rw [GoMap.get_set_other _ _ _ _ hkk]
  have heq := AddCommand_eq m keyPath command description code false mode config cs hcfg hcs
  rw [if_neg hlen] at heq
  simp only [hc, Bool.or_self, hK] at heq
  cases hg : cs.get key with
  | none =>
    refine hfrom true ((newCommand "" key "" none false
        (if mode.length = 0 then config.Mode.String else mode)).build
        [key] keyPath command description code false
        (if mode.length = 0 then config.Mode.String else mode)) ?_ ?_
    · rw [heq]
      simp [hg]
    · simp [(GoMap.get_eq_none_iff _ _).mp hg]
  | some cmd =>
    refine hfrom false (cmd.build [key] keyPath command description code false
        (if mode.length = 0 then config.Mode.String else mode)) ?_ ?_
    · rw [heq]
      simp [hg]
    · have : key ∈ cs.keys := by
        rw [← GoMap.get_isSome_iff, hg]; rfl
      simp [this]

/-- An instance of the amended C4: the key path `a.c` added below the existing root `a`. -/
theorem AddCommand_tree_root_flag_witness :
    ∃ key o, (Keys "a.c").head? = some key ∧
      manifestUnlinked.AddCommand "a.c" "ls" "list" none false "" = some o ∧
      o.err = none ∧
      (o.flag = true ↔ key ∉ manifestUnlinked.roots.keys) ∧
      key ∈ o.manifest.roots.keys ∧
      (∀ k, k ≠ key → o.manifest.roots.get k = manifestUnlinked.roots.get k) ∧
      (∀ k, k ≠ key → (k ∈ o.manifest.roots.keys ↔ k ∈ manifestUnlinked.roots.keys)) :=
  AddCommand_tree_root_flag manifestUnlinked "a.c" "ls" "list" none "" NewConfig _
    (by decide) rfl rfl rfl

/-- C5, as stated, fails: in a manifest that was not linked, `Find("a.b")` returns the child `b`
of the root `a` with no parent, and `RemoveCommand("a.b")` returns false, not true. -/
theorem RemoveCommand_unlinked_child_not_root :
    ∃ c, manifestUnlinked.Find "a.b" = some c ∧ c.parent = none ∧
      (manifestUnlinked.RemoveCommand "a.b").err = none ∧
      (manifestUnlinked.RemoveCommand "a.b").flag = false :=
  ⟨_, rfl, rfl, rfl, rfl⟩

/-- C5, amended: when `Find(keyPath)` returns a command with no parent, `RemoveCommand(keyPath)`
returns without error, and returns true exactly when `keyPath` is a key of the root map;
afterwards `keyPath` is no key of the root map and every other key maps to what it mapped to
before. -/
theorem RemoveCommand_no_parent (m : Manifest) (keyPath : String) (c : Command)
    (hf : m.Find keyPath = some c) (hp : c.parent = none) :
    (m.RemoveCommand keyPath).err = none ∧
    ((m.RemoveCommand keyPath).flag = true ↔ keyPath ∈ m.roots.keys) ∧
    keyPath ∉ (m.RemoveCommand keyPath).manifest.roots.keys ∧
    (∀ k, k ≠ keyPath →
      (m.RemoveCommand keyPath).manifest.roots.get k = m.roots.get k) := by
  have hr : m.RemoveCommand keyPath =
      { flag := (m.roots.get keyPath).isSome, err := none,
        manifest := { m with Commands := m.Commands.map (fun cs => cs.delete keyPath) } } := by
    simp [Manifest.RemoveCommand, hf, hp]
  have hroots : (m.RemoveCommand keyPath).manifest.roots = m.roots.delete keyPath := by
    rw [hr]
    exact Manifest.roots_map m _ rfl
  rw [hroots, hr]
  refine ⟨rfl, ?_, ?_, ?_⟩
  · exact GoMap.get_isSome_iff _ _
  · rw [← GoMap.get_eq_none_iff, GoMap.get_delete]
    simp
  · intro k hk
    have : ¬ keyPath = k := fun e => hk e.symm
    simp [GoMap.get_delete, this]

/-- An instance of the amended C5: the root `a` removed from the manifest that has only it. -/
theorem RemoveCommand_no_parent_witness :
    (manifestRootA.RemoveCommand "a").err = none ∧
    ((manifestRootA.RemoveCommand "a").flag = true ↔ "a" ∈ manifestRootA.roots.keys) ∧
    "a" ∉ (manifestRootA.RemoveCommand "a").manifest.roots.keys ∧
    (∀ k, k ≠ "a" →
      (manifestRootA.RemoveCommand "a").manifest.roots.get k
        = manifestRootA.roots.get k) :=
  RemoveCommand_no_parent manifestRootA "a" _ rfl rfl

/-- C6: `RemoveCommand(keyPath)` fails with "command not found" exactly when `Find(keyPath)`
returns none; it then returns false and the manifest as it was, and it returns no error in
every other case. -/
theorem RemoveCommand_fails_iff_not_found (m : Manifest) (keyPath : String) :
    ((m.RemoveCommand keyPath).err = some "command not found" ↔ m.Find keyPath = none) ∧
    (m.Find keyPath = none →
      m.RemoveCommand keyPath
        = { flag := false, err := some "command not found", manifest := m }) ∧
    (m.Find keyPath ≠ none → (m.RemoveCommand keyPath).err = none) := by
  cases hf : m.Find keyPath with
  | none => simp [Manifest.RemoveCommand, hf]
  | some c =>
    cases hp : c.parent <;> simp [Manifest.RemoveCommand, hf, hp]

/-- C7: `ExecutionString(args)` returns an error exactly when no root yields a non-empty matching
key path for `args`; the result is then two empty strings and the error
"unable to execute command '<args joined by spaces>'". So it fails for every `args` on a manifest
without roots, and `ExecutionString(["unknown"])` fails with "unable to execute command 'unknown'"
on a manifest in which `Find("unknown")` finds nothing. -/
theorem ExecutionString_error_iff (executionString : Command → List String → String)
    (m : Manifest) (args : List String) :
    ((∃ l x e, m.ExecutionString executionString args = some (l, x, some e)) ↔
      ∀ kc ∈ m.roots, kc.2.shortestKeyPath (KeyPath args) = "") ∧
    ((∀ kc ∈ m.roots, kc.2.shortestKeyPath (KeyPath args) = "") →
      m.ExecutionString executionString args
        = some ("", "", some ("unable to execute command '" ++ " ".intercalate args ++ "'"))) ∧
    (m.roots = [] →
      m.ExecutionString executionString args
        = some ("", "", some ("unable to execute command '" ++ " ".intercalate args ++ "'"))) ∧
    (m.Find "unknown" = none →
      m.ExecutionString executionString ["unknown"]
        = some ("", "", some "unable to execute command 'unknown'")) := by
  refine ⟨⟨?_, ?_⟩, ?_, ?_, ?_⟩
  · rintro ⟨l, x, e, he⟩
    by_contra hne
    push_neg at hne
    exact Manifest.ExecutionString_loop_no_error executionString args m.roots hne l x e he
  · intro h
    exact ⟨_, _, _, Manifest.ExecutionString_loop_error executionString args m.roots h⟩
  · exact Manifest.ExecutionString_loop_error executionString args m.roots
  · intro h
    apply Manifest.ExecutionString_loop_error
    rw [h]
    intro kc hkc
    cases hkc
  · intro h
    have := Manifest.ExecutionString_loop_error executionString ["unknown"] m.roots
      (fun kc hkc => shortestKeyPath_single kc.2 (find_none_of_Find_none m _ h kc hkc))
    exact this

/-- C8: `Manifest.Link` is idempotent: linking twice gives the same manifest, hence the same parent
back-reference on every command, as linking once; and `Link` changes nothing but parent
back-references: name, version, config, root map keys, children maps and command fields stay. -/
theorem Link_idempotent (m : Manifest) :
    m.Link.Link = m.Link ∧ m.Link.withoutParents = m.withoutParents := by
  cases m with
  | mk n v c cs =>
    cases cs with
    | none => exact ⟨rfl, rfl⟩
    | some cs =>
      simp only [Manifest.Link, Manifest.withoutParents, Option.map_some', linkRoots_idem,
        withoutParentsIn_linkRoots, and_self]

/-- C9, as stated, fails: after `NewSpaceport` of no manifests and one `AddManifest`, the map has
the key `core` while `Sequence` is still empty. -/
theorem Reachable_names_not_in_Sequence :
    Spaceport.Reachable spaceportAdded ∧
      ¬ (∀ n, n ∈ spaceportAdded.Sequence ↔ n ∈ spaceportAdded.names) := by
  constructor
  · exact Spaceport.Reachable.afterAddManifest spaceportEmpty spaceportAdded (some manifestRootA)
      (Spaceport.Reachable.start [] spaceportEmpty rfl) rfl
  · intro h
    have : "core" ∈ spaceportAdded.Sequence := (h "core").mpr (by decide)
    simp [spaceportAdded] at this

/-- C9, amended: in every spaceport reachable from `NewSpaceport` by `Import`, `AddManifest`, `Init`,
`Link` and `UpdateVersion` calls, every name in `Sequence` is a key of the manifests map; and in
every spaceport that `NewSpaceport` or `Import` returns, every key that the call registered
is in `Sequence` as well: after `NewSpaceport` the names in `Sequence` are exactly the keys of
the map. -/
theorem Reachable_Sequence_registered (s : Spaceport) (h : Spaceport.Reachable s) :
    (∀ n ∈ s.Sequence, n ∈ s.names) ∧
    (∀ ms s0, NewSpaceport ms = some s0 → ∀ n, n ∈ s0.Sequence ↔ n ∈ s0.names) ∧
    (∀ ms s1, s.Import ms = some s1 →
      ∀ n, n ∈ s1.Sequence ↔ n ∈ ms.filterMap (fun m => m.map (fun m => m.Name))) := by
  refine ⟨?_, ?_, ?_⟩
  · induction h with
    | start ms s hs =>
      exact Spaceport.importLoop_sub ms _ s hs (fun n hn => by cases hn)
    | afterImport s s1 ms _ hi _ =>
      exact Spaceport.importLoop_sub ms _ s1 hi (fun n hn => by cases hn)
    | afterAddManifest s s1 m _ ha ih =>
      cases m with
      | none => cases ha
      | some m =>
        obtain ⟨hseq, hnames⟩ := Spaceport.names_AddManifest s s1 m ha
        intro n hn
        rw [hnames]
        exact Or.inr (ih n (hseq ▸ hn))
    | afterInit s _ ih =>
      obtain ⟨h1, h2⟩ := Spaceport.names_Init s
      rw [h1, h2]
      exact ih
    | afterLink s _ ih =>
      obtain ⟨h1, h2⟩ := Spaceport.names_Link s
      rw [h1, h2]
      exact ih
    | afterUpdateVersion s s1 ver _ hu ih =>
      obtain ⟨h1, h2⟩ := Spaceport.names_UpdateVersion s s1 ver hu
      rw [h1, h2]
      exact ih
  · intro ms s0 hs n
    constructor
    · exact Spaceport.importLoop_sub ms _ s0 hs (fun n hn => by cases hn) n
    · exact Spaceport.importLoop_sup ms _ s0 hs (fun n hn => by cases hn) n
  · intro ms s1 hi n
    have := Spaceport.importLoop_Sequence ms _ s1 hi
    rw [this]
    simp

/-- An instance of the amended C9: the spaceport that `NewSpaceport` builds from the manifests
`core` and `extra`, and that spaceport after `AddManifest` of a third manifest, whose name is a
key of the map and is not in `Sequence`. -/
theorem Reachable_Sequence_registered_witness :
    Spaceport.Reachable spaceportDocked ∧
    spaceportDocked.Sequence = ["core", "extra"] ∧
    spaceportDocked.names = ["core", "extra", ""] ∧
    (∀ n ∈ spaceportDocked.Sequence, n ∈ spaceportDocked.names) ∧
    NewSpaceport [some manifestRootA, some manifestExtra] = some spaceportImported ∧
    (∀ n, n ∈ spaceportImported.Sequence ↔ n ∈ spaceportImported.names) ∧
    spaceportDocked.Import [some manifestExtra]
      = some { manifests := spaceportDocked.manifests, Sequence := ["extra"] } ∧
    (∀ n, n ∈ ["extra"]
      ↔ n ∈ [some manifestExtra].filterMap (fun m => m.map (fun m => m.Name))) :=
  have hr : Spaceport.Reachable spaceportDocked :=
    Spaceport.Reachable.afterAddManifest spaceportImported spaceportDocked
      (some (NewManifest none))
      (Spaceport.Reachable.start [some manifestRootA, some manifestExtra] spaceportImported rfl)
      rfl
  ⟨hr, rfl, rfl, (Reachable_Sequence_registered spaceportDocked hr).1, rfl,
    (Reachable_Sequence_registered spaceportDocked hr).2.1
      [some manifestRootA, some manifestExtra] spaceportImported rfl, rfl,
    (Reachable_Sequence_registered spaceportDocked hr).2.2 [some manifestExtra] _ rfl⟩

/-- C10: `Manifests()` returns a list as long as `Sequence`. Its i-th element is the manifest that
the `manifests` map holds in its entry for the name `Sequence[i]`, and nil when the map has no
entry for that name or is nil. Two spaceports with the same `Sequence` whose maps have the same
entries, in whatever order, give the same list. The spaceport is left as it was. (A Go map holds
no key twice: that is the proviso on the keys.) -/
theorem Manifests_in_Sequence_order (s : Spaceport) :
    s.Manifests.1.length = s.Sequence.length ∧
    (∀ (i : Nat) (name : String), s.Sequence[i]? = some name →
      (∀ ms m, s.manifests = some ms → ms.keys.Nodup → (name, m) ∈ ms →
        s.Manifests.1[i]? = some (some m)) ∧
      (∀ ms, s.manifests = some ms → name ∉ ms.keys → s.Manifests.1[i]? = some none) ∧
      (s.manifests = none → s.Manifests.1[i]? = some none)) ∧
    (∀ (s2 : Spaceport) (ms ms2 : GoMap Manifest), s2.Sequence = s.Sequence →
      s.manifests = some ms → s2.manifests = some ms2 →
      ms.keys.Nodup → ms2.keys.Nodup → (∀ e, e ∈ ms2 ↔ e ∈ ms) →
      s2.Manifests.1 = s.Manifests.1) ∧
    (∀ i : Nat, s.Manifests.1[i]? = (s.Sequence[i]?).map (fun name => s.FindManifest name)) ∧
    s.Manifests.2 = s := by
  have hget : ∀ i : Nat,
      s.Manifests.1[i]? = (s.Sequence[i]?).map (fun name => s.lookup name) := by
    intro i
    simp [Spaceport.Manifests]
  refine ⟨?_, ?_, ?_, hget, rfl⟩
  · simp [Spaceport.Manifests]
  · intro i name hi
    rw [hget i, hi]
    refine ⟨?_, ?_, ?_⟩
    · intro ms m hms hd hmem
      simp only [Option.map_some', Spaceport.lookup, hms, GoMap.get_of_mem ms name m hd hmem]
    · intro ms hms hk
      simp only [Option.map_some', Spaceport.lookup, hms, (GoMap.get_eq_none_iff ms name).mpr hk]
    · intro hms
      simp only [Option.map_some', Spaceport.lookup, hms]
  · intro s2 ms ms2 hseq hms hms2 hd hd2 he
    simp only [Spaceport.Manifests, hseq]
    apply List.map_congr_left
    intro name _
    simp only [Spaceport.lookup, hms, hms2]
    exact GoMap.get_congr ms ms2 hd hd2 he name

/-- An instance of C10: in the spaceport of the manifests `core` and `extra` the element of
`Manifests()` at index 1 is the manifest stored under `extra`; and with the sequence
`extra`, `gone` it is nil, as no entry has the key `gone`. -/
theorem Manifests_in_Sequence_order_witness :
    spaceportImported.Sequence[1]? = some "extra" ∧
    spaceportImported.Manifests.1[1]? = some (some manifestExtra) ∧
    (Spaceport.Manifests { spaceportImported with Sequence := ["extra", "gone"] }).1[1]?
      = some none :=
  ⟨rfl,
    ((Manifests_in_Sequence_order spaceportImported).2.1 1 "extra" rfl).1
      [("core", manifestRootA), ("extra", manifestExtra)] manifestExtra rfl (by decide)
      (List.mem_cons_of_mem _ (List.mem_cons_self _ _)),
    ((Manifests_in_Sequence_order
        { spaceportImported with Sequence := ["extra", "gone"] }).2.1 1 "gone" rfl).2.1
      [("core", manifestRootA), ("extra", manifestExtra)] rfl (by decide)⟩

/-- C11, as stated, fails: on the zero-value spaceport, whose manifests map is nil, `Import` of one
manifest panics on the write to the nil map, so there is no spaceport after the call; and
`Import` of a list that holds a nil manifest panics on reading its name, also when the map has
been created. -/
theorem Import_nil_map_panics :
    spaceportNil.Import [some manifestRootA] = none ∧
    spaceportEmpty.Import [some manifestRootA, none] = none :=
  ⟨rfl, rfl⟩

/-- C11, amended: `Import` returns exactly when the list is empty, or the manifests map has been
created and no manifest of the list is nil; it panics on a nil map with a non-empty list, and on
every list that holds a nil manifest. For every spaceport whose map has been created (whatever
its previous `Sequence`) and every list `ms` of manifests, none nil, `Import(ms)` returns;
afterwards `Sequence` is the list of the names of `ms` in caller order, as long as `ms`,
duplicates included; for every name occurring in `ms` the map holds the last manifest of `ms`
carrying that name; and a name that does not occur in `ms` keeps its entry. -/
theorem Import_Sequence_and_map (s : Spaceport) (l : List (Option Manifest)) :
    (s.manifests = none → l ≠ [] → s.Import l = none) ∧
    (none ∈ l → s.Import l = none) ∧
    ((∃ s1, s.Import l = some s1) ↔ (l = [] ∨ (s.manifests ≠ none ∧ none ∉ l))) ∧
    (∀ (ms0 : GoMap Manifest) (ms : List Manifest), s.manifests = some ms0 → l = ms.map some →
      ∃ s1, s.Import l = some s1 ∧
        s1.Sequence = ms.map (fun m => m.Name) ∧
        s1.Sequence.length = ms.length ∧
        (∀ name ∈ ms.map (fun m => m.Name),
          ∃ m pre post, ms = pre ++ m :: post ∧ m.Name = name ∧ (∀ x ∈ post, x.Name ≠ name) ∧
            s1.FindManifest name = some m) ∧
        (∀ name, name ∉ ms.map (fun m => m.Name) →
          s1.FindManifest name = s.FindManifest name)) := by
  have hnil : s.manifests = none → l ≠ [] → s.Import l = none := fun h hl =>
    Spaceport.importLoop_nil_map l _ h hl
  have hentry : none ∈ l → s.Import l = none := fun h =>
    Spaceport.importLoop_nil_entry l h _
  have hgood : ∀ (ms0 : GoMap Manifest) (ms : List Manifest), s.manifests = some ms0 →
      l = ms.map some →
      ∃ s1, s.Import l = some s1 ∧
        s1.Sequence = ms.map (fun m => m.Name) ∧
        s1.Sequence.length = ms.length ∧
        (∀ name ∈ ms.map (fun m => m.Name),
          ∃ m pre post, ms = pre ++ m :: post ∧ m.Name = name ∧ (∀ x ∈ post, x.Name ≠ name) ∧
            s1.FindManifest name = some m) ∧
        (∀ name, name ∉ ms.map (fun m => m.Name) →
          s1.FindManifest name = s.FindManifest name) := by
    intro ms0 ms h hl
    subst hl
    refine ⟨_, Spaceport.Import_eq s ms0 ms h, rfl, by simp, ?_, ?_⟩
    · intro name hn
      obtain ⟨m, hm⟩ := Spaceport.lastNamed_isSome name ms hn
      obtain ⟨pre, post, he, hname, hpost⟩ := Spaceport.lastNamed_some name ms m hm
      refine ⟨m, pre, post, he, hname, hpost, ?_⟩
      simp only [Spaceport.FindManifest, Spaceport.lookup, Spaceport.get_registerAll, hm]
    · intro name hn
      simp only [Spaceport.FindManifest, Spaceport.lookup, Spaceport.get_registerAll,
        Spaceport.lastNamed_none name ms hn, h]
  refine ⟨hnil, hentry, ⟨?_, ?_⟩, hgood⟩
  · rintro ⟨s1, hs1⟩
    by_cases hl : l = []
    · exact Or.inl hl
    · refine Or.inr ⟨?_, ?_⟩
      · intro hm
        rw [hnil hm hl] at hs1
        cases hs1
      · intro hm
        rw [hentry hm] at hs1
        cases hs1
  · rintro (hl | ⟨hm, hn⟩)
    · subst hl
      exact ⟨_, rfl⟩
    · obtain ⟨ms0, hms0⟩ := Option.ne_none_iff_exists'.mp hm
      obtain ⟨ms, hms⟩ := Spaceport.all_some l hn
      obtain ⟨s1, hs1, _⟩ := hgood ms0 ms hms0 hms
      exact ⟨s1, hs1⟩

/-- An instance of the amended C11: two manifests named `core` imported into the spaceport that
already holds one. -/
theorem Import_Sequence_and_map_witness :
    ∃ s1, spaceportAdded.Import [some manifestRootA, some manifestUnlinked] = some s1 ∧
      s1.Sequence = [manifestRootA, manifestUnlinked].map (fun m => m.Name) ∧
      s1.Sequence.length = [manifestRootA, manifestUnlinked].length ∧
      (∀ name ∈ [manifestRootA, manifestUnlinked].map (fun m => m.Name),
        ∃ m pre post, [manifestRootA, manifestUnlinked] = pre ++ m :: post ∧ m.Name = name ∧
          (∀ x ∈ post, x.Name ≠ name) ∧ s1.FindManifest name = some m) ∧
      (∀ name, name ∉ [manifestRootA, manifestUnlinked].map (fun m => m.Name) →
        s1.FindManifest name = spaceportAdded.FindManifest name) :=
  (Import_Sequence_and_map spaceportAdded [some manifestRootA, some manifestUnlinked]).2.2.2
    [("core", manifestRootA)] [manifestRootA, manifestUnlinked] rfl rfl

/-- C12: `AddSubstitution(keyPath, name, alias)` and `RemoveSubstitution(keyPath, alias)` each fail
with "command not found" exactly when `Find(keyPath)` returns none, and then leave the manifest as
it was. When `Find(keyPath)` returns a command they return no error; nothing but substitution
lists differs afterwards, the substitution lists of all commands are those before except the
list of the command found, and `Find(keyPath)` then returns that command with its new list: the
old one with the substitution appended, or without the substitutions of the given alias. -/
theorem Substitution_calls (m : Manifest) (keyPath name aliasKey : String) :
    (((m.AddSubstitution keyPath name aliasKey).1 = some "command not found" ↔
        m.Find keyPath = none) ∧
      ((m.RemoveSubstitution keyPath aliasKey).1 = some "command not found" ↔
        m.Find keyPath = none)) ∧
    (m.Find keyPath = none →
      m.AddSubstitution keyPath name aliasKey = (some "command not found", m) ∧
      m.RemoveSubstitution keyPath aliasKey = (some "command not found", m)) ∧
    (∀ cmd, m.Find keyPath = some cmd →
      ((m.AddSubstitution keyPath name aliasKey).1 = none ∧
        (m.AddSubstitution keyPath name aliasKey).2.withoutSubstitutions
          = m.withoutSubstitutions ∧
        (m.AddSubstitution keyPath name aliasKey).2.Find keyPath
          = some (cmd.setSubstitutions
              (cmd.Substitutions ++ [{ Name := name, Alias := aliasKey }])) ∧
        ∃ pre post, m.substitutionLists = pre ++ cmd.Substitutions :: post ∧
          (m.AddSubstitution keyPath name aliasKey).2.substitutionLists
            = pre ++ (cmd.Substitutions ++ [{ Name := name, Alias := aliasKey }]) :: post) ∧
      ((m.RemoveSubstitution keyPath aliasKey).1 = none ∧
        (m.RemoveSubstitution keyPath aliasKey).2.withoutSubstitutions
          = m.withoutSubstitutions ∧
        (m.RemoveSubstitution keyPath aliasKey).2.Find keyPath
          = some (cmd.setSubstitutions
              (cmd.Substitutions.filter (fun x => decide (x.Alias ≠ aliasKey)))) ∧
        ∃ pre post, m.substitutionLists = pre ++ cmd.Substitutions :: post ∧
          (m.RemoveSubstitution keyPath aliasKey).2.substitutionLists
            = pre ++ (cmd.Substitutions.filter (fun x => decide (x.Alias ≠ aliasKey)))
                :: post)) := by
  refine ⟨⟨?_, ?_⟩, ?_, ?_⟩
  · cases hf : m.Find keyPath <;> simp [Manifest.AddSubstitution, hf]
  · cases hf : m.Find keyPath <;> simp [Manifest.RemoveSubstitution, hf]
  · intro hf
    simp [Manifest.AddSubstitution, Manifest.RemoveSubstitution, hf]
  · intro cmd hf
    constructor
    · have h := writeFound_substitutions
        (fun ss => ss ++ [{ Name := name, Alias := aliasKey }]) m keyPath cmd hf
      have hr : m.AddSubstitution keyPath name aliasKey
          = (none, m.writeFound (fun x => x.setSubstitutions
              (x.Substitutions ++ [{ Name := name, Alias := aliasKey }])) keyPath) := by
        simp only [Manifest.AddSubstitution, hf]
        rfl
      rw [hr]
      exact ⟨rfl, h⟩
    · have h := writeFound_substitutions
        (fun ss => ss.filter (fun x => decide (x.Alias ≠ aliasKey))) m keyPath cmd hf
      have hr : m.RemoveSubstitution keyPath aliasKey
          = (none, m.writeFound (fun x => x.setSubstitutions
              (x.Substitutions.filter (fun x => decide (x.Alias ≠ aliasKey)))) keyPath) := by
        simp only [Manifest.RemoveSubstitution, hf]
        rfl
      rw [hr]
      exact ⟨rfl, h⟩

/-- C13: `AddCommand` with an empty mode string returns exactly what `AddCommand` returns with the
same other arguments and the string form of the manifest's config mode: the same flag, the same
error and the same manifest. A manifest without config has no config mode; there the two calls
agree too, whatever the second mode is: both return the error of the empty key path, or both
panic. On a non-empty key path and a manifest with config and root map the call does return. -/
theorem AddCommand_empty_mode (m : Manifest) (keyPath command description : String)
    (code : Option Code) (aliasOnly : Bool) :
    (∀ config, m.Config = some config →
      m.AddCommand keyPath command description code aliasOnly ""
        = m.AddCommand keyPath command description code aliasOnly config.Mode.String) ∧
    (m.Config = none → ∀ mode,
      m.AddCommand keyPath command description code aliasOnly ""
        = m.AddCommand keyPath command description code aliasOnly mode) ∧
    (keyPath ≠ "" → m.Config ≠ none → m.Commands ≠ none →
      ∃ o, m.AddCommand keyPath command description code aliasOnly "" = some o ∧
        o.err = none) := by
  refine ⟨?_, ?_, ?_⟩
  · intro config hc
    have hmode : (if ("" : String).length = 0 then config.Mode.String else "")
        = (if config.Mode.String.length = 0 then config.Mode.String
            else config.Mode.String) := by
      simp
    unfold Manifest.AddCommand
    simp only [hc, hmode]
  · intro hc mode
    unfold Manifest.AddCommand
    simp only [hc]
  · intro hk hc hcs
    obtain ⟨config, hc1⟩ := Option.ne_none_iff_exists'.mp hc
    obtain ⟨cs, hcs1⟩ := Option.ne_none_iff_exists'.mp hcs
    exact AddCommand_nonempty_ok m keyPath command description code aliasOnly "" config cs hk
      hc1 hcs1

/-- C14, as stated, fails: for the startup file with empty updated content that is neither
preferred nor pristine, the row "not pristine not preferred not updated" of
`TestStartupFileCanCommit`, `canCommit()` is true although the updated content is empty. -/
theorem canCommit_empty_not_pristine :
    (commitFile "" false false).canCommit = true ∧
    ¬ ((commitFile "" false false).canCommit = true ↔
        ((commitFile "" false false).updatedContent ≠ "" ∧
          ((commitFile "" false false).preferred = true ∨
            (commitFile "" false false).pristine = false))) := by
  refine ⟨rfl, ?_⟩
  intro h
  exact (h.mp rfl).1 rfl

/-- C14, amended: `canCommit()` is true exactly when `pristine` is false, or `preferred` is true and
`updatedContent` is not empty. So for a non-empty `updatedContent` it is true exactly when
`preferred` is true or `pristine` is false, and for an empty one exactly when `pristine` is
false. -/
theorem canCommit_iff (f : startupFile) :
    (f.canCommit = true ↔
      (f.pristine = false ∨ (f.preferred = true ∧ f.updatedContent ≠ ""))) ∧
    (f.updatedContent ≠ "" →
      (f.canCommit = true ↔ (f.preferred = true ∨ f.pristine = false))) ∧
    (f.updatedContent = "" → (f.canCommit = true ↔ f.pristine = false)) := by
  have hlen : f.updatedContent.length > 0 ↔ f.updatedContent ≠ "" := strLen_pos_iff _
  have h1 : f.canCommit = true ↔
      (f.pristine = false ∨ (f.preferred = true ∧ f.updatedContent ≠ "")) := by
    unfold startupFile.canCommit
    simp only [Bool.or_eq_true, Bool.not_eq_true', Bool.and_eq_true, decide_eq_true_eq, hlen]
  refine ⟨h1, ?_, ?_⟩
  · intro hne
    rw [h1]
    constructor
    · rintro (h | ⟨h, _⟩)
      · exact Or.inr h
      · exact Or.inl h
    · rintro (h | h)
      · exact Or.inr ⟨h, hne⟩
      · exact Or.inl h
  · intro he
    rw [h1]
    constructor
    · rintro (h | ⟨_, h⟩)
      · exact h
      · exact absurd he h
    · exact Or.inl

/-- C15, as stated, fails: on the content of the row "malformed block 1" of `TestStartupFile`, which
holds a begin marker and no end marker, `parse()` returns an error and leaves `pristine` false,
not true. -/
theorem parse_malformed_not_pristine :
    occurrences beginBlockComment malformedBlock1 = [43] ∧
    occurrences endBlockComment malformedBlock1 = [] ∧
    (newStartupFile ".zshrc" malformedBlock1 0).parse.1 = some .ParseError ∧
    (newStartupFile ".zshrc" malformedBlock1 0).parse.2.pristine = false ∧
    ¬ ((newStartupFile ".zshrc" malformedBlock1 0).parse.2.pristine = true) :=
  ⟨by decide, by decide, rfl, rfl, by
    rw [show (newStartupFile ".zshrc" malformedBlock1 0).parse.2.pristine = false from rfl]
    decide⟩

/-- C15, amended: for every startup file whose content holds a begin marker that no end marker
follows, `parse()` returns an error and `pristine` is false afterwards; a following
`apply(manifest)` fails as well, for a nil and for a non-nil manifest, and leaves the file as it
is, so that `updatedContent` stays empty where it was empty. -/
theorem parse_unterminated_section (f : startupFile)
    (h : ∃ b ∈ occurrences beginBlockComment f.content,
      ∀ e ∈ occurrences endBlockComment f.content, ¬ b < e) :
    f.parse.1 = some .ParseError ∧
    f.parse.2.pristine = false ∧
    ∀ manifest : Option Manifest,
      (f.parse.2.apply manifest).1 ≠ none ∧
      (f.parse.2.apply manifest).2.updatedContent = f.updatedContent ∧
      (f.updatedContent = "" → (f.parse.2.apply manifest).2.updatedContent = "") := by
  rw [startupFile.parse_malformed f h]
  refine ⟨rfl, rfl, ?_⟩
  intro manifest
  obtain ⟨h1, h2⟩ := startupFile.apply_malformed
    { f with pristine := false, state := .malformed } manifest rfl
  refine ⟨h1, ?_, ?_⟩
  · rw [h2]
  · intro he
    rw [h2]
    exact he

/-- An instance of the amended C15: the row "malformed block 2" of `TestStartupFile`. -/
theorem parse_unterminated_section_witness :
    (newStartupFile ".zshrc" malformedBlock2 0).parse.1 = some .ParseError ∧
    (newStartupFile ".zshrc" malformedBlock2 0).parse.2.pristine = false ∧
    ∀ manifest : Option Manifest,
      ((newStartupFile ".zshrc" malformedBlock2 0).parse.2.apply manifest).1 ≠ none ∧
      ((newStartupFile ".zshrc" malformedBlock2 0).parse.2.apply manifest).2.updatedContent
        = (newStartupFile ".zshrc" malformedBlock2 0).updatedContent ∧
      ((newStartupFile ".zshrc" malformedBlock2 0).updatedContent = "" →
        ((newStartupFile ".zshrc" malformedBlock2 0).parse.2.apply manifest).2.updatedContent
          = "") :=
  parse_unterminated_section (newStartupFile ".zshrc" malformedBlock2 0)
    (by
      have hb : occurrences beginBlockComment malformedBlock2 = [43, 169] := by decide
      have he : occurrences endBlockComment malformedBlock2 = [] := by decide
      refine ⟨43, ?_, ?_⟩
      · show 43 ∈ occurrences beginBlockComment malformedBlock2
        rw [hb]
        exact List.mem_cons_self 43 [169]
      · show ∀ e ∈ occurrences endBlockComment malformedBlock2, ¬ 43 < e
        rw [he]
        intro e h
        cases h)

/-- C16, as stated, fails: the manifest with the root `a`, its child `b` and the flat root `a.b`,
built by `AddCommand` calls, is linked; `Find("a.b")` returns the child `b`, which has the parent
`a`; and `RemoveCommand("a.b")` returns true, not false, because `a.b` is a key of the root map
as well. And on a linked manifest whose root `a` stores the child with the alias `b` under
another key, `RemoveCommand("a.b")` detaches nothing: the children map of `a` is as before. -/
theorem RemoveCommand_child_flag_true :
    (manifestAmbiguous.Link = manifestAmbiguous ∧
      manifestAmbiguous.wellFormed = true ∧
      (∃ c, manifestAmbiguous.Find "a.b" = some c ∧ c.Name = "old" ∧ c.parent = some ["a"]) ∧
      (manifestAmbiguous.RemoveCommand "a.b").err = none ∧
      (manifestAmbiguous.RemoveCommand "a.b").flag = true ∧
      ¬ ((manifestAmbiguous.RemoveCommand "a.b").flag = false)) ∧
    (manifestMiskeyedChild.Link = manifestMiskeyedChild ∧
      (∃ c, manifestMiskeyedChild.Find "a.b" = some c ∧ c.parent = some ["a"]) ∧
      (manifestMiskeyedChild.RemoveCommand "a.b").err = none ∧
      (manifestMiskeyedChild.RemoveCommand "a.b").manifest.roots
        = manifestMiskeyedChild.roots) :=
  ⟨⟨rfl, rfl, ⟨_, rfl, rfl, rfl⟩, rfl, rfl, by
      rw [show (manifestAmbiguous.RemoveCommand "a.b").flag = true from rfl]
      decide⟩,
    ⟨rfl, ⟨_, rfl, rfl⟩, rfl, rfl⟩⟩

/-- C16, amended: on a well-formed manifest, which is linked, when `Find(keyPath)` returns a command
with the parent `p`, `RemoveCommand(keyPath)` returns a nil error, and returns true exactly when `keyPath`
is also a key of the root map (so false when no root is stored under it). The root map keeps its
keys, and every root but the one above `p` is unchanged. The parent owned the command under its
alias and loses exactly that entry; its other children are untouched. Every command on the way to
the parent, and the parent itself, stays, also when left without children. The key paths of the
manifest are those before without the block of the removed command's tree. -/
theorem RemoveCommand_with_parent (m : Manifest) (keyPath : String) (cmd : Command) (p : Ref)
    (hwf : m.wellFormed = true) (hf : m.Find keyPath = some cmd) (hp : cmd.parent = some p) :
    m.Link = m ∧
    (m.RemoveCommand keyPath).err = none ∧
    ((m.RemoveCommand keyPath).flag = true ↔ keyPath ∈ m.roots.keys) ∧
    (m.RemoveCommand keyPath).manifest.roots.keys = m.roots.keys ∧
    (∀ k ks, p = k :: ks → ∀ k1, k1 ≠ k →
      (m.RemoveCommand keyPath).manifest.roots.get k1 = m.roots.get k1) ∧
    (∃ owner after,
      getAt m.roots p = some owner ∧ owner.Commands.get cmd.Alias = some cmd ∧
      getAt (m.RemoveCommand keyPath).manifest.roots p = some after ∧
      after = owner.removeCommand cmd ∧
      after.Commands.get cmd.Alias = none ∧
      (∀ k, k ≠ cmd.Alias → after.Commands.get k = owner.Commands.get k)) ∧
    (∀ q, q ≠ [] → q <+: p →
      (getAt (m.RemoveCommand keyPath).manifest.roots q).isSome = true) ∧
    (∃ l1 blk l2, m.keyPaths = l1 ++ keyPath :: blk ++ l2 ∧
      (m.RemoveCommand keyPath).manifest.keyPaths = l1 ++ l2) := by
  obtain ⟨rel, h1, h2, h3, hpaths⟩ := RemoveCommand_eq_eraseAt m keyPath cmd hwf hf
  have hrel : rel ≠ [] := by
    intro h
    rw [h, hp] at h1
    simp at h1
  have hrp : rel = p := by
    rw [hp] at h1
    simpa [hrel] using h1.symm
  subst hrp
  obtain ⟨owner, ho1, ho2⟩ := getAt_owner cmd.Alias cmd rel m.roots hrel h2
  obtain ⟨k0, ks0, hk0⟩ : ∃ k ks, rel = k :: ks := by
    cases rel with
    | nil => exact absurd rfl hrel
    | cons k ks => exact ⟨k, ks, rfl⟩
  refine ⟨Link_of_wellFormed m hwf, ?_, ?_, ?_, ?_, ?_, ?_, hpaths⟩
  · simp [Manifest.RemoveCommand, hf, hp]
  · have : (m.RemoveCommand keyPath).flag = (m.roots.get keyPath).isSome := by
      simp [Manifest.RemoveCommand, hf, hp]
    rw [this]
    exact GoMap.get_isSome_iff _ _
  · rw [h3, hk0]
    exact keys_eraseAt _ _ _ _
  · intro k ks hk k1 hk1
    rw [h3, hk]
    exact get_eraseAt_other _ _ _ _ _ hk1
  · refine ⟨owner, owner.removeCommand cmd, ho1, ho2, ?_, rfl, ?_, ?_⟩
    · rw [h3, getAt_eraseAt _ _ _ hrel, ho1]
      rfl
    · simp [Command.removeCommand, GoMap.get_delete]
    · intro k hk
      have : ¬ cmd.Alias = k := fun e => hk e.symm
      simp [Command.removeCommand, GoMap.get_delete, this]
  · intro q hq hpre
    rw [h3]
    exact getAt_eraseAt_ancestor _ _ _ _ owner hq hpre ho1

/-- An instance of the amended C16: the child `b` removed from the sample manifest built by
`AddCommand("a.b", ...)` in tree mode. -/
theorem RemoveCommand_with_parent_witness :
    manifestPlaceholder.Link = manifestPlaceholder ∧
    (manifestPlaceholder.RemoveCommand "a.b").err = none ∧
    ((manifestPlaceholder.RemoveCommand "a.b").flag = true ↔
      "a.b" ∈ manifestPlaceholder.roots.keys) ∧
    (manifestPlaceholder.RemoveCommand "a.b").manifest.roots.keys
      = manifestPlaceholder.roots.keys ∧
    (∀ k ks, ["a"] = k :: ks → ∀ k1, k1 ≠ k →
      (manifestPlaceholder.RemoveCommand "a.b").manifest.roots.get k1
        = manifestPlaceholder.roots.get k1) ∧
    (∃ owner after,
      getAt manifestPlaceholder.roots ["a"] = some owner ∧
      owner.Commands.get "b"
        = some (.mk "echo" "b" "" (some codeEcho) [] [] false "concatenate" (some ["a"])) ∧
      getAt (manifestPlaceholder.RemoveCommand "a.b").manifest.roots ["a"] = some after ∧
      after = owner.removeCommand
        (.mk "echo" "b" "" (some codeEcho) [] [] false "concatenate" (some ["a"])) ∧
      after.Commands.get "b" = none ∧
      (∀ k, k ≠ "b" → after.Commands.get k = owner.Commands.get k)) ∧
    (∀ q, q ≠ [] → q <+: ["a"] →
      (getAt (manifestPlaceholder.RemoveCommand "a.b").manifest.roots q).isSome = true) ∧
    (∃ l1 blk l2, manifestPlaceholder.keyPaths = l1 ++ "a.b" :: blk ++ l2 ∧
      (manifestPlaceholder.RemoveCommand "a.b").manifest.keyPaths = l1 ++ l2) :=
  RemoveCommand_with_parent manifestPlaceholder "a.b"
    (.mk "echo" "b" "" (some codeEcho) [] [] false "concatenate" (some ["a"])) ["a"]
    rfl rfl rfl

/-- C17 fails on the code: `ExecutionString` panics on manifests built by `AddCommand`. On the
manifest that holds the alias-only command `a.b`, the argument list `["a.b"]` matches the key path
`a.b`, whose two segments give `count = 2`, and `args[count:]` is out of range for one argument.
On the manifest built by `AddCommand("a.b", ...)` in tree mode, the argument `a` names the
placeholder root, which has no code to dereference. -/
theorem ExecutionString_panics :
    (NewManifest none).AddCommand "a.b" "echo" "" (some codeEcho) true ""
      = some { flag := true, err := none, manifest := manifestDottedAlias } ∧
    (∀ kc ∈ manifestDottedAlias.roots,
      kc.2.shortestKeyPath (KeyPath ["a.b"]) = "a.b" ∧
      (Keys (kc.2.shortestKeyPath (KeyPath ["a.b"]))).length = 2) ∧
    (∀ executionString : Command → List String → String,
      manifestDottedAlias.ExecutionString executionString ["a.b"] = none) ∧
    (NewManifest none).AddCommand "a.b" "echo" "" (some codeEcho) false ""
      = some { flag := true, err := none, manifest := manifestPlaceholder } ∧
    (∃ c, manifestPlaceholder.Find "a" = some c ∧ c.Code = none) ∧
    (∀ executionString : Command → List String → String,
      manifestPlaceholder.ExecutionString executionString ["a"] = none) := by
  refine ⟨rfl, ?_, fun _ => rfl, rfl, ⟨_, rfl, rfl⟩, fun _ => rfl⟩
  intro kc hkc
  simp only [manifestDottedAlias, Manifest.roots, Option.getD, List.mem_singleton] at hkc
  subst hkc
  exact ⟨by decide, by decide⟩

/-- C18, as stated, fails: on the manifest with the root `a`, its child `b` and the flat root `a.b`,
built by three `AddCommand` calls, `Find("a.b")` returns the command named "old" when the root `a`
is visited first and the one named "new" when the root `a.b` is; and `ExecutionString(["a", "b"])`
returns the language `sh` in the first order and `ruby` in the second. -/
theorem Find_depends_on_root_order :
    (∃ o1 o2,
      (NewManifest none).AddCommand "a.b" "old" "" none false "" = some o1 ∧
      o1.manifest.AddCommand "a" "echo" "" (some codeEcho) false "" = some o2 ∧
      o2.manifest.AddCommand "a.b" "new" "" (some codePuts) true ""
        = some { flag := true, err := none, manifest := manifestAmbiguous }) ∧
    (manifestAmbiguous.Find "a.b").map Command.Name = some "old" ∧
    (Manifest.Find { manifestAmbiguous with Commands := some manifestAmbiguous.roots.reverse }
      "a.b").map Command.Name = some "new" ∧
    (∀ executionString : Command → List String → String,
      (manifestAmbiguous.ExecutionString executionString ["a", "b"]).map (fun r => r.1)
        = some "sh" ∧
      (Manifest.ExecutionString executionString
        { manifestAmbiguous with Commands := some manifestAmbiguous.roots.reverse }
        ["a", "b"]).map (fun r => r.1) = some "ruby") :=
  ⟨⟨_, _, rfl, rfl, rfl⟩, rfl, rfl, fun _ => ⟨rfl, rfl⟩⟩

/-- C18, amended: for every manifest and every enumeration `e` of its roots, `Find(keyPath)` returns
the same command in the order `e` as in the manifest's own order, provided all roots whose tree
holds the key path return the same command; and `ExecutionString(args)` returns the same result
(language and execution string, error, or panic), provided all roots that yield a non-empty key
path for `args` are the same command. Both provisos hold when at most one root matches. -/
theorem Find_ExecutionString_order_free (m : Manifest) (e : GoMap Command)
    (he : ∀ kc, kc ∈ e ↔ kc ∈ m.roots) :
    (∀ keyPath : String,
      (∀ kc1 ∈ m.roots, ∀ kc2 ∈ m.roots, ∀ c1 c2,
        kc1.2.find keyPath = some c1 → kc2.2.find keyPath = some c2 → c1 = c2) →
      Manifest.Find { m with Commands := some e } keyPath = m.Find keyPath) ∧
    (∀ (executionString : Command → List String → String) (args : List String),
      (∀ kc1 ∈ m.roots, ∀ kc2 ∈ m.roots,
        kc1.2.shortestKeyPath (KeyPath args) ≠ "" →
        kc2.2.shortestKeyPath (KeyPath args) ≠ "" → kc1.2 = kc2.2) →
      Manifest.ExecutionString executionString { m with Commands := some e } args
        = m.ExecutionString executionString args) := by
  constructor
  · intro keyPath hagree
    exact findSome_order_free (fun kc => kc.2.find keyPath) m.roots e he hagree
  · intro executionString args hagree
    unfold Manifest.ExecutionString
    rw [Manifest.ExecutionString_loop_eq, Manifest.ExecutionString_loop_eq]
    have := findSome_order_free
      (fun kc : String × Command => Manifest.ExecutionString.visit executionString args kc.2)
      m.roots e he (by
        intro x hx y hy a b hxa hyb
        have hxy := hagree x hx y hy
          (Manifest.visit_isSome_iff executionString args x.2 a hxa)
          (Manifest.visit_isSome_iff executionString args y.2 b hyb)
        have hxa1 : Manifest.ExecutionString.visit executionString args x.2 = some a := hxa
        have hyb1 : Manifest.ExecutionString.visit executionString args y.2 = some b := hyb
        rw [hxy] at hxa1
        rw [hxa1] at hyb1
        exact Option.some.inj hyb1)
    have hroots : Manifest.roots { m with Commands := some e } = e := rfl
    rw [hroots, this]

/-- An instance of the amended C18: the roots of the ambiguous sample manifest in reverse order. -/
theorem Find_ExecutionString_order_free_witness :
    (∀ keyPath : String,
      (∀ kc1 ∈ manifestAmbiguous.roots, ∀ kc2 ∈ manifestAmbiguous.roots, ∀ c1 c2,
        kc1.2.find keyPath = some c1 → kc2.2.find keyPath = some c2 → c1 = c2) →
      Manifest.Find { manifestAmbiguous with Commands := some manifestAmbiguous.roots.reverse }
        keyPath = manifestAmbiguous.Find keyPath) ∧
    (∀ (executionString : Command → List String → String) (args : List String),
      (∀ kc1 ∈ manifestAmbiguous.roots, ∀ kc2 ∈ manifestAmbiguous.roots,
        kc1.2.shortestKeyPath (KeyPath args) ≠ "" →
        kc2.2.shortestKeyPath (KeyPath args) ≠ "" → kc1.2 = kc2.2) →
      Manifest.ExecutionString executionString
        { manifestAmbiguous with Commands := some manifestAmbiguous.roots.reverse } args
        = manifestAmbiguous.ExecutionString executionString args) :=
  Find_ExecutionString_order_free manifestAmbiguous manifestAmbiguous.roots.reverse
    (fun _ => List.mem_reverse)

/-- C19: for manifests with pairwise distinct names, `NewSpaceport(ms)` returns a spaceport whose
`Manifests()` is `ms` element for element, in the same order, and whose `FindManifest(m.Name)`
returns `m` for every `m` of `ms`. -/
theorem NewSpaceport_round_trip (ms : List Manifest)
    (hd : (ms.map (fun m => m.Name)).Nodup) :
    ∃ s, NewSpaceport (ms.map some) = some s ∧
      s.Manifests.1 = ms.map some ∧
      s.Manifests.1.length = ms.length ∧
      ∀ m ∈ ms, s.FindManifest m.Name = some m := by
  have hfind : ∀ m ∈ ms, Spaceport.lastNamed m.Name ms = some m := by
    intro m hm
    obtain ⟨x, hx⟩ := Spaceport.lastNamed_isSome m.Name ms (List.mem_map_of_mem _ hm)
    obtain ⟨pre, post, he, hname, hpost⟩ := Spaceport.lastNamed_some m.Name ms x hx
    have hinj : x = m := by
      have hxm : x ∈ ms := by rw [he]; simp
      exact List.inj_on_of_nodup_map hd hxm hm hname
    rw [hx, hinj]
  have hs : NewSpaceport (ms.map some)
      = some { manifests := some (Spaceport.registerAll [] ms),
               Sequence := ms.map (fun m => m.Name) } :=
    Spaceport.Import_eq _ [] ms rfl
  have hlook : ∀ m ∈ ms, Spaceport.lookup
      { manifests := some (Spaceport.registerAll [] ms),
        Sequence := ms.map (fun m => m.Name) } m.Name = some m := by
    intro m hm
    simp only [Spaceport.lookup, Spaceport.get_registerAll, hfind m hm]
  refine ⟨_, hs, ?_, by simp [Spaceport.Manifests], hlook⟩
  simp only [Spaceport.Manifests, List.map_map]
  apply List.map_congr_left
  intro m hm
  exact hlook m hm

/-- An instance of C19: the spaceport of the manifests named `core` and `extra`. -/
theorem NewSpaceport_round_trip_witness :
    ∃ s, NewSpaceport ([manifestRootA, manifestExtra].map some) = some s ∧
      s.Manifests.1 = [manifestRootA, manifestExtra].map some ∧
      s.Manifests.1.length = [manifestRootA, manifestExtra].length ∧
      ∀ m ∈ [manifestRootA, manifestExtra], s.FindManifest m.Name = some m :=
  NewSpaceport_round_trip [manifestRootA, manifestExtra] (by decide)

/-- C20, as stated, fails: on the manifest with the root `a`, its child `b` and the flat root `a.b`,
which `AddCommand` calls in tree and alias-only mode build, `RemoveCommand("a.b")` returns without
error and removes the child `b`; the flat root `a.b` is still there, so that `Find("a.b")` finds
it and a second `RemoveCommand("a.b")` succeeds as well. -/
theorem RemoveCommand_leaves_other_match :
    Manifest.Reachable manifestAmbiguous ∧
    (manifestAmbiguous.RemoveCommand "a.b").err = none ∧
    ((manifestAmbiguous.RemoveCommand "a.b").manifest.Find "a.b").map Command.Name
      = some "new" ∧
    ¬ ((manifestAmbiguous.RemoveCommand "a.b").manifest.Find "a.b" = none) ∧
    ((manifestAmbiguous.RemoveCommand "a.b").manifest.RemoveCommand "a.b").err = none := by
  refine ⟨?_, rfl, rfl, ?_, rfl⟩
  · exact Manifest.Reachable.afterAddCommand _ "a.b" "new" "" (some codePuts) true ""
      { flag := true, err := none, manifest := manifestAmbiguous }
      (Manifest.Reachable.afterAddCommand _ "a" "echo" "" (some codeEcho) false "" _
        (Manifest.Reachable.afterAddCommand _ "a.b" "old" "" none false "" _
          (Manifest.Reachable.start none) rfl) rfl) rfl
  · intro h
    have h2 : ((manifestAmbiguous.RemoveCommand "a.b").manifest.Find "a.b").map Command.Name
        = some "new" := rfl
    rw [h] at h2
    cases h2

/-- C20, amended: for every manifest built from `NewManifest` by `AddCommand` calls, in any mix of
modes, and every key path that is the key path of at most one command of the manifest: if
`RemoveCommand(keyPath)` returns without error, a following `Find(keyPath)` returns none and a
second `RemoveCommand(keyPath)` fails with "command not found", returning false and changing
nothing. -/
theorem RemoveCommand_then_Find_none (m : Manifest) (keyPath : String)
    (hr : Manifest.Reachable m) (hu : m.keyPaths.count keyPath ≤ 1)
    (he : (m.RemoveCommand keyPath).err = none) :
    (m.RemoveCommand keyPath).manifest.Find keyPath = none ∧
    (m.RemoveCommand keyPath).manifest.RemoveCommand keyPath
      = { flag := false, err := some "command not found",
          manifest := (m.RemoveCommand keyPath).manifest } := by
  have hwf := Reachable_wellFormed m hr
  cases hf : m.Find keyPath with
  | none => simp [Manifest.RemoveCommand, hf] at he
  | some cmd =>
    obtain ⟨rel, _, _, _, l1, blk, l2, hp1, hp2⟩ :=
      RemoveCommand_eq_eraseAt m keyPath cmd hwf hf
    rw [hp1] at hu
    have hnot : keyPath ∉ (m.RemoveCommand keyPath).manifest.keyPaths := by
      rw [hp2]
      exact count_le_one_split keyPath l1 blk l2 hu
    have hnone : (m.RemoveCommand keyPath).manifest.Find keyPath = none := by
      cases hf2 : (m.RemoveCommand keyPath).manifest.Find keyPath with
      | none => rfl
      | some r =>
        obtain ⟨kc, hkc, hmem⟩ := findSome_mem_nodes _ keyPath r hf2
        exfalso
        apply hnot
        simp only [Manifest.keyPaths, Manifest.nodes, List.mem_map, List.mem_flatMap]
        exact ⟨(keyPath, r), ⟨kc, hkc, hmem⟩, rfl⟩
    refine ⟨hnone, ?_⟩
    generalize (m.RemoveCommand keyPath).manifest = m1 at hnone ⊢
    simp [Manifest.RemoveCommand, hnone]

/-- An instance of the amended C20: the child `b` removed from the manifest built by
`AddCommand("a.b", ...)` in tree mode. -/
theorem RemoveCommand_then_Find_none_witness :
    (manifestPlaceholder.RemoveCommand "a.b").manifest.Find "a.b" = none ∧
    (manifestPlaceholder.RemoveCommand "a.b").manifest.RemoveCommand "a.b"
      = { flag := false, err := some "command not found",
          manifest := (manifestPlaceholder.RemoveCommand "a.b").manifest } :=
  RemoveCommand_then_Find_none manifestPlaceholder "a.b"
    (Manifest.Reachable.afterAddCommand _ "a.b" "echo" "" (some codeEcho) false ""
      { flag := true, err := none, manifest := manifestPlaceholder }
      (Manifest.Reachable.start none) rfl)
    (by decide) rfl

end Nostromo
